import Mathlib

/-!
# spl::dict_trie and spl::trie

A shallow embedding of `include/spl/dictionary_trie.h` and
`include/spl/trie_dictionary.h`, followed by theorems about it.

Conventions of the embedding.

* A C++ `char` / `unsigned char` is a natural number (its value as an
  unsigned byte, `0 .. 255`); a `std::string_view` is a `List Nat`.  Every
  comparison of the source that is made on a `char` is made on a symbol that
  already passed the range check `' ' .. '~'`, or is that range check itself,
  so the signedness of `char` makes no difference.
* `std::unique_ptr<node>` slots own their node: a `children` array is a
  `List (Option node)`.
* The non-owning pointers `firstChild` and `next` always alias an entry of
  one `children` array (`firstChild` one of the node's own children, `next`
  one of the children of the same parent).  They are kept as `Option Nat`:
  `none` is `nullptr`, `some i` is the pointer `children[i].get()` of that
  array.
* In-place mutation through `parent` is an explicit functional update of the
  path from the root.
* Loops that follow `next` pointers carry fuel; a result `none` stands for
  "no result" (fuel exhausted, or a null / dangling pointer dereferenced).
* Allocation (`make_unique`, `emplace_back`, `append`, a `reserve` within
  `max_size()`) succeeds.  The test `n > max_size()` of
  `std::vector::reserve(n)` is not an allocation failure and is modelled: the
  limited `auto_complete` of both headers takes `out.max_size()` as the
  parameter `max_size` and throws `std::length_error` beyond it, for any
  value of `limit` a caller passes.  The same test of
  `working_string.reserve(maxKeyLength)` is taken to pass: `maxKeyLength` is
  the length of a key that `insert` has read symbol by symbol from memory,
  and the length of a string held in memory is taken to be within
  `std::string::max_size()`.
* A `std::size_t` is 64 bits wide: `++numKeys` is taken modulo `2 ^ 64`.
* A `throw` is an outcome `Except.error`, returned together with the state,
  because the nodes created before the `throw` stay in the trie.
* The overloads `each(prefix, callbackFn)` and
  `auto_complete(prefix, out, limit)` are named `each_prefixed` and
  `auto_complete_limit`.
-/

namespace spl

namespace internal

/-- The string literal `characterSet`, as the list of its character codes. -/
def characterSet : List Nat :=
  (" !\"#$%&\x27()*+,-./0123456789:;<=>?@ABCDEFGHIJKLMNOPQRSTUVWXYZ[\\]^_" ++
   "\x60abcdefghijklmnopqrstuvwxyz\x7b|\x7d~").toList.map Char.toNat

/-- The constant `ascii_min = ' '`. -/
def ascii_min : Nat := ' '.toNat

/-- The constant `ascii_max = '~'`. -/
def ascii_max : Nat := '~'.toNat

/-- The function `initialize_characterset_map`: a zero-initialised array of 256
entries in which `arr[characterSet[i]] = i` is stored for every `i`. -/
def initialize_characterset_map : List Nat :=
  (List.range characterSet.length).foldl
    (fun arr i => arr.set (characterSet.getD i 0) i) (List.replicate 256 0)

/-- The table `characterSetMap`. -/
def characterSetMap : List Nat := initialize_characterset_map

end internal

/-- Whether a call returned normally (`true`) or threw (`false`). -/
def succeeded (r : Except String Unit) : Bool :=
  match r with
  | Except.ok _ => true
  | Except.error _ => false

namespace dict_trie

/-- The `struct node` of `dict_trie`. -/
structure node where
  /-- The member `const char symbol`. -/
  symbol : Nat
  /-- The member `bool isStringEnd`. -/
  isStringEnd : Bool
  /-- The member `std::array<std::unique_ptr<node>, characterSet.size()> children`. -/
  children : List (Option node)
  /-- The member `node *firstChild`: null, or the slot of one of this node's children. -/
  firstChild : Option Nat
  /-- The member `node *next`: null, or the slot of a sibling in the parent's array. -/
  next : Option Nat

/-- The constructor `node(symbol)`: no children, not a string end. -/
def node.new (symbol : Nat) : node :=
  ⟨symbol, false, List.replicate internal.characterSet.length none, none, none⟩

/-- The pointer `n->children[index].get()`. -/
def node.child (n : node) (index : Nat) : Option node :=
  n.children.getD index none

end dict_trie

/-- The `struct dict_trie`: root node and the two counters (`std::size_t`). -/
structure dict_trie where
  root : dict_trie.node
  maxKeyLength : Nat
  numKeys : Nat

namespace dict_trie

/-- A default-constructed `dict_trie`. -/
def empty : dict_trie := ⟨node.new 0, 0, 0⟩

/-- The method `is_valid_character`. -/
def is_valid_character (c : Nat) : Bool :=
  decide (c ≥ internal.ascii_min) && decide (c ≤ internal.ascii_max)

/-- The `for` loop of `insert` (lines 83-96) that splices the new child
`children[index]` (symbol `c`) into the sibling list, started at `current`.
The result is the updated `children` array. -/
def spliceLoop : Nat → List (Option node) → Nat → Nat → Nat →
    Option (List (Option node))
  | 0, _, _, _, _ => none
  | fuel + 1, children, current, index, c =>
    match children.getD current none with
    | none => none
    | some cur =>
      match cur.next with
      | none =>
        -- current->next = parent->children[index].get(); break;
        some (children.set current (some { cur with next := some index }))
      | some nx =>
        match children.getD nx none with
        | none => none
        | some nxt =>
          if nxt.symbol > c then
            -- parent->children[index]->next = current->next;
            -- current->next = parent->children[index].get(); break;
            match children.getD index none with
            | none => none
            | some created =>
              some ((children.set index (some { created with next := some nx })).set
                current (some { cur with next := some index }))
          else spliceLoop fuel children nx index c

/-- The body of `if (!parent->children[index])` in `insert` (lines 74-97):
create the child for `c` in slot `index` and link it into the sibling list.
The splice loop visits pairwise distinct slots of `children` unless the list
is cyclic, so `children.length` iterations are given to it. -/
def createChild (parent : node) (index c : Nat) : Option node :=
  if index < parent.children.length then
    let children := parent.children.set index (some (node.new c))
    match parent.firstChild with
    | none =>
      -- children[index]->next = firstChild (null); firstChild = children[index].get()
      some { parent with children := children, firstChild := some index }
    | some f =>
      match children.getD f none with
      | none => none
      | some first =>
        if c < first.symbol then
          some { parent with
                 children := children.set index (some { node.new c with next := some f }),
                 firstChild := some index }
        else
          match spliceLoop children.length children f index c with
          | none => none
          | some children1 => some { parent with children := children1 }
  else none

/-- The loop of `insert` (lines 65-101) followed by `parent->isStringEnd = true`,
run on the node `parent` with the rest of the key.  The result is the updated
node and whether the call returned normally (`Except.ok`) or threw. -/
def insertNode (parent : node) : List Nat → Option (node × Except String Unit)
  | [] => some ({ parent with isStringEnd := true }, Except.ok ())
  | c :: rest =>
    if !is_valid_character c then
      some (parent, Except.error "Bad characters in string")
    else
      let index := internal.characterSetMap.getD c 0
      let linked : Option node :=
        match parent.child index with
        | some _ => some parent
        | none => createChild parent index c
      match linked with
      | none => none
      | some parent1 =>
        match parent1.child index with
        | none => none
        | some child =>
          match insertNode child rest with
          | none => none
          | some (child1, r) =>
            some ({ parent1 with children := parent1.children.set index (some child1) }, r)

/-- The method `insert`.  The state after the call is returned together with
the outcome, since nodes created before a `throw` stay in the trie. -/
def insert (t : dict_trie) (key : List Nat) : Option (dict_trie × Except String Unit) :=
  match insertNode t.root key with
  | none => none
  | some (root1, Except.ok u) =>
    some (⟨root1, max t.maxKeyLength key.length, (t.numKeys + 1) % 2 ^ 64⟩, Except.ok u)
  | some (root1, Except.error e) =>
    some ({ t with root := root1 }, Except.error e)

/-- The prefix walk shared by `contains`, `each` and `auto_complete`
(lines 111-123, 166-177, 209-220, 255-266): `none` when the loop returns
early, otherwise the node reached. -/
def walk (parent : node) : List Nat → Option node
  | [] => some parent
  | c :: rest =>
    if !is_valid_character c then none
    else
      match parent.child (internal.characterSetMap.getD c 0) with
      | none => none
      | some child => walk child rest

/-- The method `contains`. -/
def contains (t : dict_trie) (key : List Nat) : Bool :=
  match walk t.root key with
  | none => false
  | some parent => parent.isStringEnd

/-- The lambda `recursiveEach` of both `each` overloads, on the sibling list
that starts at `current` inside `siblings`.  The state is the working string
and the list of strings passed to `callbackFn` so far. -/
def recursiveEach : Nat → List (Option node) → Option Nat →
    List Nat × List (List Nat) → Option (List Nat × List (List Nat))
  | 0, _, _, _ => none
  | _ + 1, _, none, (ws, calls) => some (ws.dropLast, calls)
  | fuel + 1, siblings, some i, (ws, calls) =>
    match siblings.getD i none with
    | none => none
    | some current =>
      let ws1 := ws ++ [current.symbol]
      let calls1 := if current.isStringEnd then calls ++ [ws1] else calls
      match current.firstChild with
      | some f =>
        match recursiveEach fuel current.children (some f) (ws1, calls1) with
        | none => none
        | some st => recursiveEach fuel siblings current.next st
      | none => recursiveEach fuel siblings current.next (ws1.dropLast, calls1)

/-- The lambda `recursiveComplete` of `auto_complete(prefix, out)`. -/
def recursiveComplete : Nat → List (Option node) → Option Nat →
    List Nat × List (List Nat) → Option (List Nat × List (List Nat))
  | 0, _, _, _ => none
  | _ + 1, _, none, (ws, out) => some (ws.dropLast, out)
  | fuel + 1, siblings, some i, (ws, out) =>
    match siblings.getD i none with
    | none => none
    | some current =>
      let ws1 := ws ++ [current.symbol]
      let out1 := if current.isStringEnd then out ++ [ws1] else out
      match current.firstChild with
      | some f =>
        match recursiveComplete fuel current.children (some f) (ws1, out1) with
        | none => none
        | some st => recursiveComplete fuel siblings current.next st
      | none => recursiveComplete fuel siblings current.next (ws1.dropLast, out1)

/-- The lambda `recursiveComplete` of `auto_complete(prefix, out, limit)`. -/
def recursiveCompleteLimit (limit : Nat) : Nat → List (Option node) → Option Nat →
    List Nat × List (List Nat) → Option (List Nat × List (List Nat))
  | 0, _, _, _ => none
  | _ + 1, _, none, (ws, out) => some (ws.dropLast, out)
  | fuel + 1, siblings, some i, (ws, out) =>
    if out.length = limit then some (ws, out)
    else
      match siblings.getD i none with
      | none => none
      | some current =>
        let ws1 := ws ++ [current.symbol]
        let out1 := if current.isStringEnd then out ++ [ws1] else out
        match current.firstChild with
        | some f =>
          match recursiveCompleteLimit limit fuel current.children (some f) (ws1, out1) with
          | none => none
          | some st => recursiveCompleteLimit limit fuel siblings current.next st
        | none => recursiveCompleteLimit limit fuel siblings current.next (ws1.dropLast, out1)

/-- The method `each(callbackFn)` with a non-null callback: the strings passed
to the callback, in call order. -/
def each (fuel : Nat) (t : dict_trie) : Option (List (List Nat)) :=
  match t.root.firstChild with
  | none => some []
  | some f => (recursiveEach fuel t.root.children (some f) ([], [])).map Prod.snd

/-- The method `each(prefix, callbackFn)` with a non-null callback. -/
def each_prefixed (fuel : Nat) (t : dict_trie) (pfx : List Nat) : Option (List (List Nat)) :=
  match walk t.root pfx with
  | none => some []
  | some startNode =>
    match startNode.firstChild with
    | none => some []
    | some f => (recursiveEach fuel startNode.children (some f) (pfx, [])).map Prod.snd

/-- The method `auto_complete(prefix, out)`: the vector `out` after the call. -/
def auto_complete (fuel : Nat) (t : dict_trie) (pfx : List Nat) (out : List (List Nat)) :
    Option (List (List Nat)) :=
  match walk t.root pfx with
  | none => some out
  | some startNode =>
    match startNode.firstChild with
    | none => some out
    | some f => (recursiveComplete fuel startNode.children (some f) (pfx, out)).map Prod.snd

/-- The method `auto_complete(prefix, out, limit)`: the vector `out` after the
call, and whether the call returned normally or threw.  The parameter
`max_size` is `out.max_size()`, a constant of the standard library:
`out.reserve(limit)` (line 275) throws `std::length_error` when
`limit > max_size` and leaves `out` as it is. -/
def auto_complete_limit (max_size : Nat) (fuel : Nat) (t : dict_trie) (pfx : List Nat)
    (out : List (List Nat)) (limit : Nat) : Option (List (List Nat) × Except String Unit) :=
  if limit = 0 then some (out, Except.ok ())
  else
    match walk t.root pfx with
    | none => some (out, Except.ok ())
    | some startNode =>
      match startNode.firstChild with
      | none => some (out, Except.ok ())
      | some f =>
        if limit > max_size then some (out, Except.error "std::length_error")
        else
          (recursiveCompleteLimit limit fuel startNode.children (some f) (pfx, out)).map
            (fun st => (st.2, Except.ok ()))

/-- The method `size`. -/
def size (t : dict_trie) : Nat := t.numKeys

/-- A sequence of `insert` calls on `t`, each exception caught by the caller:
the final trie and the keys whose call returned normally, in call order. -/
def insertAll (t : dict_trie) : List (List Nat) → Option (dict_trie × List (List Nat))
  | [] => some (t, [])
  | key :: rest =>
    match insert t key with
    | none => none
    | some (t1, Except.ok _) =>
      (insertAll t1 rest).map (fun r => (r.1, key :: r.2))
    | some (t1, Except.error _) => insertAll t1 rest

/-- The node `n` with its `next` pointer cleared: what is left of a child when
its place in the sibling list is forgotten. -/
def node.unlink (n : node) : node := { n with next := none }

/-- The slots met from the pointer `cur` by following `next` inside the array
`ch`, in order, until the null pointer. -/
inductive Linked (ch : List (Option node)) : Option Nat → List Nat → Prop
  | nil : Linked ch none []
  | cons {i : Nat} {c : node} {l : List Nat} :
      ch.getD i none = some c → Linked ch c.next l → Linked ch (some i) (i :: l)

/-- The structural invariant of a node: 95 slots, each child carries the
symbol of its slot, the sibling list from `firstChild` visits exactly the
occupied slots in ascending order, and the same holds below. -/
inductive WF : node → Prop
  | mk {n : node} (l : List Nat)
      (hlen : n.children.length = internal.characterSet.length)
      (hsym : ∀ i c, n.children.getD i none = some c → c.symbol = i + internal.ascii_min)
      (hlink : Linked n.children n.firstChild l)
      (hsorted : l.Pairwise (· < ·))
      (hmem : ∀ i, i ∈ l ↔ (n.children.getD i none).isSome = true)
      (hrec : ∀ i c, n.children.getD i none = some c → WF c) : WF n

/-- The flag `isStringEnd` of the node reached from `n` along `key`, `false`
when the walk stops early: `contains` started at `n`. -/
def ends (n : node) (key : List Nat) : Bool :=
  match walk n key with
  | none => false
  | some m => m.isStringEnd

/-- What a traversal that stops once `out` holds `limit` strings leaves in
`out` when `new` is the list of the strings an unlimited traversal appends:
the test is `out.size() == limit`, so an `out` already longer than `limit`
never stops it. -/
def takeLimit (limit : Nat) (out new : List (List Nat)) : List (List Nat) :=
  out ++ (if out.length ≤ limit then new.take (limit - out.length) else new)

/-- With enough fuel `recursiveEach`, started at `cur` in `ch`, restores the
working string, pops its last symbol, and reports `L` behind that string. -/
def RunsEach (ch : List (Option node)) (cur : Option Nat) (L : List (List Nat)) : Prop :=
  ∃ N, ∀ fuel, N ≤ fuel → ∀ ws out,
    recursiveEach fuel ch cur (ws, out) = some (ws.dropLast, out ++ L.map (ws ++ ·))

/-- With enough fuel the limited `recursiveComplete`, started at `cur` in
`ch`, appends `L` behind the working string up to the limit, and has restored
and popped the working string unless it stopped at the limit. -/
def RunsLimit (ch : List (Option node)) (cur : Option Nat) (L : List (List Nat)) : Prop :=
  ∃ N, ∀ fuel, N ≤ fuel → ∀ limit ws out, ∃ ws1,
    recursiveCompleteLimit limit fuel ch cur (ws, out) =
      some (ws1, takeLimit limit out (L.map (ws ++ ·))) ∧
    ((takeLimit limit out (L.map (ws ++ ·))).length ≠ limit → ws1 = ws.dropLast)

/-- Whether `auto_complete(prefix, out, limit)` with a limit of 1 or more gets
as far as `out.reserve(limit)`: the walk along the prefix finds the start
node, and the start node has a child. -/
def reachesReserve (t : dict_trie) (pfx : List Nat) : Bool :=
  match walk t.root pfx with
  | none => false
  | some startNode => startNode.firstChild.isSome

/-- The list `L` is the ascending list of the non-empty keys stored below `n`,
and it is what the traversals started at the children of `n` report. -/
def Enumerates (n : node) (L : List (List Nat)) : Prop :=
  L.Pairwise (List.Lex (· < ·)) ∧ (∀ k, k ∈ L ↔ k ≠ [] ∧ ends n k = true) ∧
    RunsEach n.children n.firstChild L ∧ RunsLimit n.children n.firstChild L

/-- The strings reported for one child `c` when `Lc` is reported below it. -/
def block (c : node) (Lc : List (List Nat)) : List (List Nat) :=
  (if c.isStringEnd then [[c.symbol]] else []) ++ Lc.map (c.symbol :: ·)

/-- The nodes of the tree below `root`: `root`, and every node owned by a slot
of the `children` array of a node of the tree. -/
inductive InTree (root : node) : node → Prop
  | root : InTree root root
  | child {P c : node} {i : Nat} :
      InTree root P → P.children.getD i none = some c → InTree root c

/-- The symbols of the nodes in the slots `l` of the array `ch`, in the order
of `l`. -/
def siblingSymbols (ch : List (Option node)) (l : List Nat) : List Nat :=
  l.map (fun i =>
    match ch.getD i none with
    | some c => c.symbol
    | none => 0)

end dict_trie

/-- The `struct trie` of `trie_dictionary.h`: a node is a `trie`. -/
structure trie where
  /-- The member `bool isStringEnd`. -/
  isStringEnd : Bool
  /-- The member `std::array<std::unique_ptr<trie>, characterSet.size()> child`. -/
  child : List (Option trie)

namespace trie

/-- A default-constructed `trie`. -/
def new : trie := ⟨false, List.replicate internal.characterSet.length none⟩

/-- The function `character_to_index`, on an `unsigned char`.  The table of
`trie_dictionary.h` holds the same 256 entries as that of
`dictionary_trie.h`. -/
def character_to_index (c : Nat) : Nat := internal.characterSetMap.getD c 0

/-- The range test of `insert` and `auto_complete`:
`c < characterSet[0] || c > characterSet[characterSet.size() - 1]`. -/
def out_of_range (c : Nat) : Bool :=
  decide (c < internal.characterSet.getD 0 0) ||
    decide (c > internal.characterSet.getD (internal.characterSet.length - 1) 0)

/-- The method `insert`, on the node `node` with the rest of the string: the
updated node and whether the call returned normally or threw. -/
def insert (node : trie) : List Nat → Option (trie × Except String Unit)
  | [] => some ({ node with isStringEnd := true }, Except.ok ())
  | c :: rest =>
    if out_of_range c then
      some (node, Except.error "Invalid character in string")
    else
      let index := character_to_index c
      if index < node.child.length then
        let node1 : trie :=
          match node.child.getD index none with
          | none => { node with child := node.child.set index (some new) }
          | some _ => node
        match node1.child.getD index none with
        | none => none
        | some next =>
          match insert next rest with
          | none => none
          | some (next1, r) =>
            some ({ node1 with child := node1.child.set index (some next1) }, r)
      else none

/-- The method `contains`. -/
def contains (node : trie) : List Nat → Bool
  | [] => node.isStringEnd
  | c :: rest =>
    match node.child.getD (character_to_index c) none with
    | none => false
    | some next => contains next rest

/-- The method `is_last`. -/
def is_last (node : trie) : Bool :=
  node.child.all (fun child => child.isNone)

/-- The method `recursive_auto_complete`, from loop counter `index` on. -/
def recursive_auto_complete (limit : Nat) : Nat → trie → Nat →
    List Nat × List (List Nat) → Option (List Nat × List (List Nat))
  | 0, _, _, _ => none
  | fuel + 1, node, index, (ws, out) =>
    if index < node.child.length then
      if out.length = limit then some (ws, out)
      else
        match node.child.getD index none with
        | none => recursive_auto_complete limit fuel node (index + 1) (ws, out)
        | some child =>
          let ws1 := ws ++ [internal.characterSet.getD index 0]
          let out1 := if child.isStringEnd then out ++ [ws1] else out
          if child.isStringEnd && child.is_last then
            recursive_auto_complete limit fuel node (index + 1) (ws1.dropLast, out1)
          else
            match recursive_auto_complete limit fuel child 0 (ws1, out1) with
            | none => none
            | some (ws2, out2) =>
              recursive_auto_complete limit fuel node (index + 1) (ws2.dropLast, out2)
    else some (ws, out)

/-- The prefix loop of `auto_complete` (lines 75-86): `none` when it returns
early, otherwise the node reached. -/
def walk (node : trie) : List Nat → Option trie
  | [] => some node
  | c :: rest =>
    if out_of_range c then none
    else
      match node.child.getD (character_to_index c) none with
      | none => none
      | some next => walk next rest

/-- The method `auto_complete`: the vector `out` after the call, and whether
the call returned normally or threw.  The parameter `max_size` is
`out.max_size()`: `out.reserve(limit)` (line 93) throws `std::length_error`
when `limit > max_size` and leaves `out` as it is. -/
def auto_complete (max_size : Nat) (fuel : Nat) (t : trie) (pfx : List Nat)
    (out : List (List Nat)) (limit : Nat) : Option (List (List Nat) × Except String Unit) :=
  if limit = 0 then some (out, Except.ok ())
  else
    match walk t pfx with
    | none => some (out, Except.ok ())
    | some node =>
      if node.is_last then some (out, Except.ok ())
      else if limit > max_size then some (out, Except.error "std::length_error")
      else
        (recursive_auto_complete limit fuel node 0 (pfx, out)).map
          (fun st => (st.2, Except.ok ()))

/-- A sequence of `insert` calls on `t`, each exception caught by the caller:
the final trie and the strings whose call returned normally. -/
def insertAll (t : trie) : List (List Nat) → Option (trie × List (List Nat))
  | [] => some (t, [])
  | key :: rest =>
    match insert t key with
    | none => none
    | some (t1, Except.ok _) =>
      (insertAll t1 rest).map (fun r => (r.1, key :: r.2))
    | some (t1, Except.error _) => insertAll t1 rest

/-- Every `child` array below the node has its 95 slots. -/
inductive WF : trie → Prop
  | mk {n : trie}
      (hlen : n.child.length = internal.characterSet.length)
      (hrec : ∀ i c, n.child.getD i none = some c → WF c) : WF n

/-- The flag `isStringEnd` of the node reached from `n` along `key` by the
prefix loop of `auto_complete`, `false` when the loop returns early. -/
def endsAt (n : trie) (key : List Nat) : Bool :=
  match walk n key with
  | none => false
  | some m => m.isStringEnd

/-- Whether `trie::auto_complete` with a limit of 1 or more gets as far as
`out.reserve(limit)`: the walk along the prefix finds a node, and the node is
not `is_last()`. -/
def reachesReserve (t : trie) (pfx : List Nat) : Bool :=
  match walk t pfx with
  | none => false
  | some node => !node.is_last

/-- With enough fuel `recursive_auto_complete`, run on `n` from loop counter
`index` on, appends `L` behind the working string up to the limit, and has
restored the working string unless it stopped at the limit. -/
def DenseRuns (n : trie) (index : Nat) (L : List (List Nat)) : Prop :=
  ∃ N, ∀ fuel, N ≤ fuel → ∀ limit ws out, ∃ ws1,
    recursive_auto_complete limit fuel n index (ws, out) =
      some (ws1, dict_trie.takeLimit limit out (L.map (ws ++ ·))) ∧
    ((dict_trie.takeLimit limit out (L.map (ws ++ ·))).length ≠ limit → ws1 = ws)

/-- The strings reported for the child `c` in slot `index` when `Lc` is
reported below it. -/
def denseBlock (index : Nat) (c : trie) (Lc : List (List Nat)) : List (List Nat) :=
  (if c.isStringEnd then [[index + 32]] else []) ++ Lc.map ((index + 32) :: ·)

/-- The list `L` is the ascending list of the non-empty strings stored below
`n`, and it is what `recursive_auto_complete` reports on `n`. -/
def DenseEnumerates (n : trie) (L : List (List Nat)) : Prop :=
  L.Pairwise (List.Lex (· < ·)) ∧ (∀ k, k ∈ L ↔ k ≠ [] ∧ endsAt n k = true) ∧
    DenseRuns n 0 L

end trie

end spl

namespace spl

namespace dict_trie

/-! ## The alphabet table -/

theorem is_valid_character_iff (c : Nat) :
    is_valid_character c = true ↔ 32 ≤ c ∧ c ≤ 126 := by
  simp [is_valid_character, internal.ascii_min, internal.ascii_max]

set_option maxRecDepth 100000 in
theorem characterSetMap_table :
    ∀ c, c < 127 → 32 ≤ c → internal.characterSetMap.getD c 0 = c - 32 := by
  decide

theorem characterSetMap_of_valid {c : Nat} (h : is_valid_character c = true) :
    internal.characterSetMap.getD c 0 = c - 32 := by
  rw [is_valid_character_iff] at h
  exact characterSetMap_table c (by omega) h.1

theorem characterSet_length : internal.characterSet.length = 95 := by decide

theorem characterSet_eq : internal.characterSet = (List.range 95).map (· + 32) := by decide

theorem ascii_min_eq : internal.ascii_min = 32 := by decide

/-! ## Array slots -/

theorem getD_set_self {ch : List (Option node)} {i : Nat} (h : i < ch.length)
    (x : Option node) : (ch.set i x).getD i none = x := by
  simp [List.getD_eq_getElem?_getD, List.getElem?_set, h]

theorem getD_set_ne {ch : List (Option node)} {i j : Nat} (h : i ≠ j)
    (x : Option node) : (ch.set i x).getD j none = ch.getD j none := by
  simp [List.getD_eq_getElem?_getD, List.getElem?_set, h]

theorem lt_length_of_getD {ch : List (Option node)} {i : Nat} {c : node}
    (h : ch.getD i none = some c) : i < ch.length := by
  by_contra hlt
  have : ch.getD i none = none := by
    simp [List.getD_eq_getElem?_getD, List.getElem?_eq_none (Nat.le_of_not_lt hlt)]
  rw [this] at h
  cases h

theorem getD_replicate_none (n i : Nat) :
    (List.replicate n (none : Option node)).getD i none = none := by
  simp only [List.getD_eq_getElem?_getD, List.getElem?_replicate]
  split <;> rfl

/-! ## Sibling lists -/

theorem Linked.congr {ch ch1 : List (Option node)} {cur : Option Nat} {l : List Nat}
    (h : Linked ch cur l)
    (hf : ∀ i ∈ l, ∀ a, ch.getD i none = some a →
      ∃ b, ch1.getD i none = some b ∧ b.next = a.next) :
    Linked ch1 cur l := by
  induction h with
  | nil => exact Linked.nil
  | cons hc _ ih =>
    obtain ⟨b, hb, hn⟩ := hf _ (List.mem_cons_self _ _) _ hc
    refine Linked.cons hb ?_
    rw [hn]
    exact ih (fun i hi => hf i (List.mem_cons_of_mem _ hi))

theorem Linked.of_none {ch : List (Option node)} {l : List Nat}
    (h : Linked ch none l) : l = [] := by
  cases h
  rfl

theorem Linked.of_some {ch : List (Option node)} {i : Nat} {l : List Nat}
    (h : Linked ch (some i) l) :
    ∃ c l2, l = i :: l2 ∧ ch.getD i none = some c ∧ Linked ch c.next l2 := by
  cases h with
  | cons hc hl => exact ⟨_, _, rfl, hc, hl⟩

theorem length_le_of_sorted_lt {l : List Nat} {n : Nat} (hs : l.Pairwise (· < ·))
    (hb : ∀ i ∈ l, i < n) : l.length ≤ n := by
  have hnd : l.Nodup := hs.imp (fun h => Nat.ne_of_lt h)
  have hsub : l.toFinset ⊆ Finset.range n := by
    intro i hi
    rw [List.mem_toFinset] at hi
    exact Finset.mem_range.mpr (hb i hi)
  have := Finset.card_le_card hsub
  rwa [List.toFinset_card_of_nodup hnd, Finset.card_range] at this

end dict_trie

end spl

namespace spl

namespace dict_trie

theorem Linked.of_cons {ch : List (Option node)} {cur : Option Nat} {i : Nat} {l : List Nat}
    (h : Linked ch cur (i :: l)) :
    cur = some i ∧ ∃ c, ch.getD i none = some c ∧ Linked ch c.next l := by
  cases h with
  | cons hc hl => exact ⟨rfl, _, hc, hl⟩

theorem Linked.of_nil {ch : List (Option node)} {cur : Option Nat}
    (h : Linked ch cur []) : cur = none := by
  cases h
  rfl

/-- The splice loop, started at a node `cur` of an ascending sibling list with
`cur < index`, links the new slot `index` at its place in the order and
changes nothing but two `next` pointers. -/
theorem spliceLoop_spec (index c : Nat) :
    ∀ (l : List Nat) (fuel : Nat) (ch : List (Option node)) (cur : Nat),
      Linked ch (some cur) (cur :: l) →
      (cur :: l).Pairwise (· < ·) →
      index ∉ cur :: l → cur < index →
      (∀ i ∈ l, ∀ x, ch.getD i none = some x → (x.symbol > c ↔ i > index)) →
      (∃ nw, ch.getD index none = some nw ∧ nw.next = none) →
      l.length < fuel →
      ∃ ch1 l1, spliceLoop fuel ch cur index c = some ch1 ∧
        ch1.length = ch.length ∧
        Linked ch1 (some cur) (cur :: l1) ∧ (cur :: l1).Pairwise (· < ·) ∧
        (∀ i, i ∈ l1 ↔ i = index ∨ i ∈ l) ∧
        (∀ j, (ch1.getD j none).map node.unlink = (ch.getD j none).map node.unlink) ∧
        (∀ j, j ∉ cur :: l → j ≠ index → ch1.getD j none = ch.getD j none) := by
  intro l
  induction l with
  | nil =>
    intro fuel ch cur hl _ hni hlt _ hnw hfuel
    obtain ⟨fuel, rfl⟩ : ∃ k, fuel = k + 1 := ⟨fuel - 1, by simp at hfuel; omega⟩
    obtain ⟨-, x, hx, hrest⟩ := hl.of_cons
    have hnext : x.next = none := hrest.of_nil
    obtain ⟨nw, hnw, hnwn⟩ := hnw
    have hcl : cur < ch.length := lt_length_of_getD hx
    refine ⟨ch.set cur (some { x with next := some index }), [index], ?_, ?_, ?_, ?_, ?_, ?_, ?_⟩
    · simp only [spliceLoop, hx, hnext]
    · simp
    · refine Linked.cons (getD_set_self hcl _) ?_
      refine Linked.cons (c := nw) ?_ ?_
      · rw [getD_set_ne (Nat.ne_of_lt hlt)]
        exact hnw
      · rw [hnwn]
        exact Linked.nil
    · simp [hlt]
    · intro i
      simp
    · intro j
      by_cases hj : cur = j
      · subst hj
        rw [getD_set_self hcl, hx]
        rfl
      · rw [getD_set_ne hj]
    · intro j hj _
      have : cur ≠ j := by
        intro h
        exact hj (by simp [h])
      rw [getD_set_ne this]
  | cons nx l2 ih =>
    intro fuel ch cur hl hs hni hlt hsym hnw hfuel
    obtain ⟨fuel, rfl⟩ : ∃ k, fuel = k + 1 := ⟨fuel - 1, by simp at hfuel; omega⟩
    obtain ⟨-, x, hx, hrest⟩ := hl.of_cons
    obtain ⟨hnext, y, hy, hrest2⟩ := hrest.of_cons
    have hcl : cur < ch.length := lt_length_of_getD hx
    have hs1 := List.pairwise_cons.mp hs
    have hs2 := List.pairwise_cons.mp hs1.2
    have hcn : cur < nx := hs1.1 nx (List.mem_cons_self _ _)
    have hni2 : index ∉ nx :: l2 := fun h => hni (List.mem_cons_of_mem _ h)
    have hne : nx ≠ index := fun h => hni2 (by simp [h])
    by_cases hgt : nx > index
    · obtain ⟨nw, hnw, -⟩ := hnw
      have hil : index < ch.length := lt_length_of_getD hnw
      have hysym : y.symbol > c := (hsym nx (List.mem_cons_self _ _) y hy).mpr hgt
      have hframe : ∀ j, j ≠ cur → j ≠ index →
          ((ch.set index (some { nw with next := some nx })).set cur
            (some { x with next := some index })).getD j none = ch.getD j none := by
        intro j h1 h2
        rw [getD_set_ne (Ne.symm h1), getD_set_ne (Ne.symm h2)]
      refine ⟨(ch.set index (some { nw with next := some nx })).set cur
          (some { x with next := some index }), index :: nx :: l2, ?_, ?_, ?_, ?_, ?_, ?_, ?_⟩
      · simp only [spliceLoop, hx, hnext, hy, hysym, if_true, hnw]
      · simp
      · refine Linked.cons (getD_set_self (by simpa using hcl) _) ?_
        refine Linked.cons (c := { nw with next := some nx }) ?_ ?_
        · rw [getD_set_ne (Nat.ne_of_lt hlt)]
          exact getD_set_self hil _
        · refine (Linked.cons hy hrest2).congr ?_
          intro i hi a ha
          refine ⟨a, ?_, rfl⟩
          rw [hframe i ?_ ?_]
          · exact ha
          · intro h
            subst h
            rcases List.mem_cons.mp hi with h | h
            · omega
            · have := hs1.1 i (List.mem_cons_of_mem _ h)
              omega
          · intro h
            exact hni2 (h ▸ hi)
      · refine List.pairwise_cons.mpr ⟨?_, List.pairwise_cons.mpr ⟨?_, hs1.2⟩⟩
        · intro b hb
          rcases List.mem_cons.mp hb with h | h
          · omega
          · exact hs1.1 b h
        · intro b hb
          rcases List.mem_cons.mp hb with h | h
          · omega
          · have := hs2.1 b h
            omega
      · intro i
        simp
      · intro j
        by_cases hj : j = cur
        · subst hj
          rw [getD_set_self (by simpa using hcl), hx]
          rfl
        · by_cases hj2 : j = index
          · subst hj2
            rw [getD_set_ne (Ne.symm hj), getD_set_self hil, hnw]
            rfl
          · rw [hframe j hj hj2]
      · intro j hj hj2
        exact hframe j (fun h => hj (by simp [h])) hj2
    · have hlt2 : nx < index := by omega
      have hysym : ¬ y.symbol > c := fun h =>
        hgt ((hsym nx (List.mem_cons_self _ _) y hy).mp h)
      obtain ⟨ch1, l1, hrun, hlen, hlink, hsorted, hmem, hun, hfr⟩ :=
        ih fuel ch nx (Linked.cons hy hrest2) hs1.2 hni2 hlt2
          (fun i hi => hsym i (List.mem_cons_of_mem _ hi)) hnw (by simp at hfuel; omega)
      refine ⟨ch1, nx :: l1, ?_, hlen, ?_, ?_, ?_, hun, ?_⟩
      · simp only [spliceLoop, hx, hnext, hy, hysym, if_false]
        exact hrun
      · have hcur : ch1.getD cur none = some x := by
          rw [hfr cur ?_ (Nat.ne_of_lt hlt)]
          · exact hx
          · intro h
            have := hs1.1 cur h
            omega
        refine Linked.cons hcur ?_
        rw [hnext]
        exact hlink
      · refine List.pairwise_cons.mpr ⟨?_, hsorted⟩
        intro b hb
        rcases List.mem_cons.mp hb with h | h
        · omega
        · rcases (hmem b).mp h with h | h
          · omega
          · exact hs1.1 b (List.mem_cons_of_mem _ h)
      · intro i
        simp only [List.mem_cons, hmem i]
        tauto
      · intro j hj hj2
        refine hfr j (fun h => hj (List.mem_cons_of_mem _ h)) hj2

end dict_trie

end spl

namespace spl

namespace dict_trie

/-! ## The invariant -/

theorem map_unlink_eq {a b : Option node}
    (h : a.map node.unlink = b.map node.unlink) :
    (a = none ∧ b = none) ∨ ∃ x y, a = some x ∧ b = some y ∧ x.unlink = y.unlink := by
  cases a <;> cases b <;> simp at h ⊢
  exact h

theorem WF.of_unlink_eq {a b : node} (h : a.unlink = b.unlink) (ha : WF a) : WF b := by
  have hch : a.children = b.children :=
    show a.unlink.children = b.unlink.children from congrArg node.children h
  have hfc : a.firstChild = b.firstChild :=
    show a.unlink.firstChild = b.unlink.firstChild from congrArg node.firstChild h
  cases ha with
  | mk l hlen hsym hlink hsorted hmem hrec =>
    rw [hch] at hlen hsym hlink hmem hrec
    rw [hfc] at hlink
    exact WF.mk l hlen hsym hlink hsorted hmem hrec

theorem WF.new (c : Nat) : WF (node.new c) := by
  refine WF.mk [] rfl ?_ Linked.nil List.Pairwise.nil ?_ ?_
  · intro i x h
    simp [node.new, getD_replicate_none] at h
  · intro i
    simp [node.new, getD_replicate_none]
  · intro i x h
    simp [node.new, getD_replicate_none] at h

theorem WF.child {n : node} (h : WF n) {i : Nat} {c : node}
    (hc : n.children.getD i none = some c) : WF c ∧ c.symbol = i + 32 ∧ i < 95 := by
  cases h with
  | mk l hlen hsym _ _ _ hrec =>
    refine ⟨hrec i c hc, ?_, ?_⟩
    · rw [hsym i c hc, ascii_min_eq]
    · have := lt_length_of_getD hc
      rw [hlen, characterSet_length] at this
      exact this

theorem WF.length {n : node} (h : WF n) : n.children.length = 95 := by
  cases h with
  | mk l hlen _ _ _ _ _ => rw [hlen, characterSet_length]

/-- A node whose array differs from that of a well-formed node in one slot,
which holds a well-formed child, and in `next` pointers, is well formed as
soon as its sibling list is the ascending list of its occupied slots. -/
theorem WF.rebuild {parent : node} (hwf : WF parent) (p1 : node) (index : Nat) (nw : node)
    (hlen : p1.children.length = parent.children.length)
    (hnw : p1.children.getD index none = some nw) (hnsym : nw.symbol = index + 32)
    (hnwf : WF nw)
    (hun : ∀ j, j ≠ index →
      (p1.children.getD j none).map node.unlink = (parent.children.getD j none).map node.unlink)
    (hlink : ∃ l1, Linked p1.children p1.firstChild l1 ∧ l1.Pairwise (· < ·) ∧
      ∀ i, i ∈ l1 ↔ i = index ∨ (parent.children.getD i none).isSome = true) : WF p1 := by
  obtain ⟨l1, hl1, hs1, hm1⟩ := hlink
  refine WF.mk l1 (by rw [hlen, hwf.length, characterSet_length]) ?_ hl1 hs1 ?_ ?_
  · intro i x hx
    rw [ascii_min_eq]
    by_cases hi : i = index
    · subst hi
      rw [hnw] at hx
      cases hx
      exact hnsym
    · rcases map_unlink_eq (hun i hi) with ⟨h1, _⟩ | ⟨a, b, h1, h2, h3⟩
      · rw [h1] at hx
        cases hx
      · rw [h1] at hx
        cases hx
        have : x.symbol = b.symbol :=
          show x.unlink.symbol = b.unlink.symbol from congrArg node.symbol h3
        rw [this]
        exact (hwf.child h2).2.1
  · intro i
    rw [hm1 i]
    by_cases hi : i = index
    · subst hi
      rw [hnw]
      simp
    · rcases map_unlink_eq (hun i hi) with ⟨h1, h2⟩ | ⟨a, b, h1, h2, _⟩
      · rw [h1, h2]
        simp [hi]
      · rw [h1, h2]
        simp
  · intro i x hx
    by_cases hi : i = index
    · subst hi
      rw [hnw] at hx
      cases hx
      exact hnwf
    · rcases map_unlink_eq (hun i hi) with ⟨h1, _⟩ | ⟨a, b, h1, h2, h3⟩
      · rw [h1] at hx
        cases hx
      · rw [h1] at hx
        cases hx
        exact WF.of_unlink_eq h3.symm (hwf.child h2).1

/-- Creating the child of a free slot keeps the invariant and touches no
other child except for `next` pointers. -/
theorem createChild_spec {parent : node} (hwf : WF parent) {index : Nat} (c : Nat)
    (hidx : index < 95) (hc : c = index + 32)
    (hfree : parent.children.getD index none = none) :
    ∃ p1 nw, createChild parent index c = some p1 ∧ WF p1 ∧
      p1.symbol = parent.symbol ∧ p1.isStringEnd = parent.isStringEnd ∧
      p1.next = parent.next ∧
      p1.children.getD index none = some nw ∧ nw.unlink = (node.new c).unlink ∧
      (∀ j, j ≠ index → (p1.children.getD j none).map node.unlink =
        (parent.children.getD j none).map node.unlink) := by
  have hlen := hwf.length
  have hlt : index < parent.children.length := by omega
  have hwf0 := hwf
  cases hwf with
  | mk l _ hsym hlink hsorted hmem hrec =>
    have hnil : index ∉ l := by
      intro h
      have := (hmem index).mp h
      rw [hfree] at this
      cases this
    have hset : ∀ j, j ≠ index →
        (parent.children.set index (some (node.new c))).getD j none =
          parent.children.getD j none := fun j hj => getD_set_ne (Ne.symm hj) _
    cases hfc : parent.firstChild with
    | none =>
      rw [hfc] at hlink
      have hl : l = [] := hlink.of_none
      subst hl
      refine ⟨{ parent with children := parent.children.set index (some (node.new c)),
                            firstChild := some index }, node.new c, ?_, ?_, rfl, rfl, rfl,
              getD_set_self hlt _, rfl, ?_⟩
      · simp only [createChild, hlt, if_true, hfc]
      · refine WF.rebuild hwf0 _ index (node.new c) (by simp)
          (getD_set_self hlt _) hc (WF.new c) (fun j hj => by simp only [hset j hj]) ?_
        refine ⟨[index], Linked.cons (getD_set_self hlt _) Linked.nil, by simp, ?_⟩
        intro i
        have := hmem i
        simp only [List.not_mem_nil, false_iff] at this
        simp only [List.mem_singleton]
        tauto
      · intro j hj
        simp only [hset j hj]
    | some f =>
      rw [hfc] at hlink
      obtain ⟨first, l2, rfl, hfirst, hrest⟩ := hlink.of_some
      have hfi : f ≠ index := fun h => hnil (by simp [h])
      have hfsym : first.symbol = f + 32 := (hwf0.child hfirst).2.1
      have hfirst0 : (parent.children.set index (some (node.new c))).getD f none = some first := by
        rw [hset f hfi]
        exact hfirst
      have hl0 : Linked (parent.children.set index (some (node.new c))) (some f) (f :: l2) := by
        refine (Linked.cons hfirst hrest).congr ?_
        intro i hi a ha
        refine ⟨a, ?_, rfl⟩
        rw [hset i (fun h => hnil (h ▸ hi))]
        exact ha
      have hmem2 : ∀ i, i ∈ f :: l2 ↔ (parent.children.getD i none).isSome = true := hmem
      by_cases hcf : c < first.symbol
      · have hif : index < f := by omega
        refine ⟨{ parent with
                  children := (parent.children.set index (some (node.new c))).set index
                    (some { node.new c with next := some f }),
                  firstChild := some index }, { node.new c with next := some f },
                ?_, ?_, rfl, rfl, rfl, getD_set_self (by simpa using hlt) _, rfl, ?_⟩
        · simp only [createChild, hlt, if_true, hfc, hfirst0, hcf]
        · refine WF.rebuild hwf0 _ index { node.new c with next := some f }
            (by simp) (getD_set_self (by simpa using hlt) _) hc
            (WF.of_unlink_eq (a := node.new c) rfl (WF.new c))
            (fun j hj => by
              simp only [getD_set_ne (Ne.symm hj)]) ?_
          refine ⟨index :: f :: l2, ?_, ?_, ?_⟩
          · refine Linked.cons (getD_set_self (by simpa using hlt) _) ?_
            refine hl0.congr ?_
            intro i hi a ha
            refine ⟨a, ?_, rfl⟩
            have hne : index ≠ i := by
              intro h
              subst h
              exact hnil hi
            rw [getD_set_ne hne]
            exact ha
          · refine List.pairwise_cons.mpr ⟨?_, hsorted⟩
            intro b hb
            rcases List.mem_cons.mp hb with h | h
            · omega
            · have := (List.pairwise_cons.mp hsorted).1 b h
              omega
          · intro i
            rw [← hmem2 i]
            simp
        · intro j hj
          simp only [getD_set_ne (Ne.symm hj)]
      · have hfi2 : f < index := by omega
        have hlen2 : l2.length < (parent.children.set index (some (node.new c))).length := by
          have := length_le_of_sorted_lt hsorted (n := 95) (fun i hi => by
            have h1 := (hmem2 i).mp hi
            cases hx : parent.children.getD i none with
            | none => rw [hx] at h1; cases h1
            | some x => exact (hwf0.child hx).2.2)
          simp at this ⊢
          omega
        obtain ⟨ch1, l1, hrun, hlen1, hlink1, hsorted1, hmem1, hun1, -⟩ :=
          spliceLoop_spec index c l2 _ _ f hl0 hsorted hnil hfi2
            (fun i hi x hx => by
              have hne : i ≠ index := by
                intro h
                subst h
                exact hnil (List.mem_cons_of_mem _ hi)
              rw [hset i hne] at hx
              have := (hwf0.child hx).2.1
              omega)
            ⟨node.new c, getD_set_self hlt _, rfl⟩ hlen2
        have hnw1 : ∃ nw, ch1.getD index none = some nw ∧ nw.unlink = (node.new c).unlink := by
          have := hun1 index
          rw [getD_set_self hlt] at this
          rcases map_unlink_eq this with ⟨_, h2⟩ | ⟨x, y, h1, h2, h3⟩
          · cases h2
          · cases h2
            exact ⟨x, h1, h3⟩
        obtain ⟨nw, hnw, hnwu⟩ := hnw1
        have hun2 : ∀ j, j ≠ index → (ch1.getD j none).map node.unlink =
            (parent.children.getD j none).map node.unlink := by
          intro j hj
          rw [hun1 j, hset j hj]
        refine ⟨{ parent with children := ch1 }, nw, ?_, ?_, rfl, rfl, rfl, hnw, hnwu, hun2⟩
        · simp only [createChild, hlt, if_true, hfc, hfirst0, hcf, if_false, hrun]
        · refine WF.rebuild hwf0 _ index nw (by simpa using hlen1) hnw
            ((show nw.unlink.symbol = (node.new c).unlink.symbol from
              congrArg node.symbol hnwu).trans hc) (WF.of_unlink_eq hnwu.symm (WF.new c))
            hun2 ?_
          refine ⟨f :: l1, ?_, hsorted1, ?_⟩
          · rw [hfc]
            exact hlink1
          · intro i
            rw [← hmem2 i]
            simp only [List.mem_cons, hmem1 i]
            tauto

end dict_trie

end spl

namespace spl

namespace dict_trie

/-! ## The prefix walk -/

theorem walk_cons_invalid {c : Nat} (hv : is_valid_character c = false) (n : node)
    (cs : List Nat) : walk n (c :: cs) = none := by
  simp [walk, hv]

theorem walk_cons_valid {c : Nat} (hv : is_valid_character c = true) (n : node)
    (cs : List Nat) :
    walk n (c :: cs) = (n.children.getD (c - 32) none).bind (fun ch => walk ch cs) := by
  simp only [walk, hv, node.child, characterSetMap_of_valid hv]
  cases n.children.getD (c - 32) none <;> rfl

theorem walk_unlink_eq {a b : node} (h : a.unlink = b.unlink) (c : Nat) (cs : List Nat) :
    walk a (c :: cs) = walk b (c :: cs) := by
  have hch : a.children = b.children :=
    show a.unlink.children = b.unlink.children from congrArg node.children h
  simp only [walk, node.child, hch]

theorem walk_isSome_congr {a b : node} (h : a.unlink = b.unlink) (s : List Nat) :
    (walk a s).isSome = (walk b s).isSome := by
  cases s with
  | nil => rfl
  | cons c cs => rw [walk_unlink_eq h]

theorem ends_nil (n : node) : ends n [] = n.isStringEnd := rfl

theorem ends_congr {a b : node} (h : a.unlink = b.unlink) (s : List Nat) :
    ends a s = ends b s := by
  cases s with
  | nil =>
    exact (show a.unlink.isStringEnd = b.unlink.isStringEnd from congrArg node.isStringEnd h)
  | cons c cs => simp only [ends, walk_unlink_eq h]

theorem ends_cons_invalid {c : Nat} (hv : is_valid_character c = false) (n : node)
    (cs : List Nat) : ends n (c :: cs) = false := by
  simp [ends, walk_cons_invalid hv]

theorem ends_cons_valid {c : Nat} (hv : is_valid_character c = true) (n : node)
    (cs : List Nat) :
    ends n (c :: cs) = (match n.children.getD (c - 32) none with
      | none => false
      | some ch => ends ch cs) := by
  unfold ends
  rw [walk_cons_valid hv]
  cases n.children.getD (c - 32) none <;> rfl

theorem ends_cons_some {c : Nat} (hv : is_valid_character c = true) {n m : node}
    (h : n.children.getD (c - 32) none = some m) (cs : List Nat) :
    ends n (c :: cs) = ends m cs := by
  rw [ends_cons_valid hv, h]

theorem ends_cons_none {c : Nat} (hv : is_valid_character c = true) {n : node}
    (h : n.children.getD (c - 32) none = none) (cs : List Nat) :
    ends n (c :: cs) = false := by
  rw [ends_cons_valid hv, h]

theorem walk_cons_some {c : Nat} (hv : is_valid_character c = true) {n m : node}
    (h : n.children.getD (c - 32) none = some m) (cs : List Nat) :
    walk n (c :: cs) = walk m cs := by
  rw [walk_cons_valid hv, h]
  rfl

theorem walk_cons_none {c : Nat} (hv : is_valid_character c = true) {n : node}
    (h : n.children.getD (c - 32) none = none) (cs : List Nat) :
    walk n (c :: cs) = none := by
  rw [walk_cons_valid hv, h]
  rfl

/-- Two nodes whose slot for `d` holds the same child up to its `next`
pointer answer alike on keys that start with `d`. -/
theorem cons_of_map_unlink {a b : node} {d : Nat} (hv : is_valid_character d = true)
    (h : (a.children.getD (d - 32) none).map node.unlink =
      (b.children.getD (d - 32) none).map node.unlink) (ds : List Nat) :
    ends a (d :: ds) = ends b (d :: ds) ∧
      (walk a (d :: ds)).isSome = (walk b (d :: ds)).isSome := by
  rcases map_unlink_eq h with ⟨h1, h2⟩ | ⟨x, y, h1, h2, h3⟩
  · rw [ends_cons_none hv h1, ends_cons_none hv h2, walk_cons_none hv h1,
      walk_cons_none hv h2]
    exact ⟨rfl, rfl⟩
  · rw [ends_cons_some hv h1, ends_cons_some hv h2, walk_cons_some hv h1,
      walk_cons_some hv h2]
    exact ⟨ends_congr h3 ds, walk_isSome_congr h3 ds⟩

theorem walk_new (c : Nat) (d : Nat) (ds : List Nat) : walk (node.new c) (d :: ds) = none := by
  cases hv : is_valid_character d with
  | false => exact walk_cons_invalid hv _ _
  | true =>
    rw [walk_cons_valid hv]
    simp only [node.new, getD_replicate_none]
    rfl

theorem ends_new (c : Nat) (s : List Nat) : ends (node.new c) s = false := by
  cases s with
  | nil => rfl
  | cons d ds => simp [ends, walk_new]

/-! ## Insertion -/

/-- The first half of an iteration of `insert`: afterwards slot `index` holds
a child, the old one or a fresh one. -/
theorem linked_spec {parent : node} (hwf : WF parent) {index : Nat} (c : Nat)
    (hidx : index < 95) (hc : c = index + 32) :
    ∃ p1 child,
      (match parent.child index with
        | some _ => some parent
        | none => createChild parent index c) = some p1 ∧
      WF p1 ∧ p1.symbol = parent.symbol ∧ p1.isStringEnd = parent.isStringEnd ∧
      p1.next = parent.next ∧
      p1.children.getD index none = some child ∧
      (parent.children.getD index none = some child ∨
        (parent.children.getD index none = none ∧ child.unlink = (node.new c).unlink)) ∧
      (∀ j, j ≠ index → (p1.children.getD j none).map node.unlink =
        (parent.children.getD j none).map node.unlink) := by
  cases hold : parent.children.getD index none with
  | some child =>
    refine ⟨parent, child, ?_, hwf, rfl, rfl, rfl, hold, Or.inl rfl, fun j _ => rfl⟩
    simp only [node.child, hold]
  | none =>
    obtain ⟨p1, nw, hrun, hwf1, h1, h2, h3, h4, h5, h6⟩ := createChild_spec hwf c hidx hc hold
    refine ⟨p1, nw, ?_, hwf1, h1, h2, h3, h4, Or.inr ⟨rfl, h5⟩, h6⟩
    simp only [node.child, hold]
    exact hrun

theorem insertNode_cons_valid {c : Nat} (hv : is_valid_character c = true) (parent : node)
    (rest : List Nat) :
    insertNode parent (c :: rest) =
      (match (match parent.child (c - 32) with
          | some _ => some parent
          | none => createChild parent (c - 32) c) with
        | none => none
        | some parent1 =>
          match parent1.child (c - 32) with
          | none => none
          | some child =>
            match insertNode child rest with
            | none => none
            | some (child1, r) =>
              some ({ parent1 with
                      children := parent1.children.set (c - 32) (some child1) }, r)) := by
  simp only [insertNode, hv, characterSetMap_of_valid hv]
  rfl

/-- What `insert` does to the subtree of a well-formed node: it returns, keeps
the invariant, fails exactly on a key with an invalid symbol, marks the key
(and nothing else) when it succeeds, and keeps or creates the nodes of the
valid symbols it went through. -/
theorem insertNode_spec : ∀ (key : List Nat) (n : node), WF n →
    ∃ n1 r, insertNode n key = some (n1, r) ∧ WF n1 ∧
      n1.symbol = n.symbol ∧ n1.next = n.next ∧
      (succeeded r = true ↔ ∀ c ∈ key, is_valid_character c = true) ∧
      (∀ s, ends n1 s = (ends n s || (succeeded r && decide (s = key)))) ∧
      (∀ s, (walk n s).isSome = true → (walk n1 s).isSome = true) ∧
      (∀ q, q <+: key → (∀ x ∈ q, is_valid_character x = true) →
        (walk n1 q).isSome = true) := by
  intro key
  induction key with
  | nil =>
    intro n hwf
    refine ⟨{ n with isStringEnd := true }, Except.ok (), rfl, ?_, rfl, rfl, ?_, ?_, ?_, ?_⟩
    · cases hwf with
      | mk l hlen hsym hlink hsorted hmem hrec => exact WF.mk l hlen hsym hlink hsorted hmem hrec
    · simp [succeeded]
    · intro s
      cases s with
      | nil => simp [ends_nil, succeeded]
      | cons d ds =>
        have : ends { n with isStringEnd := true } (d :: ds) = ends n (d :: ds) := by
          simp only [ends, walk, node.child]
        simp [this]
    · intro s hs
      cases s with
      | nil => rfl
      | cons d ds =>
        have : walk { n with isStringEnd := true } (d :: ds) = walk n (d :: ds) := by
          simp only [walk, node.child]
        rw [this]
        exact hs
    · intro q hq _
      have : q = [] := List.prefix_nil.mp hq
      subst this
      rfl
  | cons c rest ih =>
    intro n hwf
    cases hv : is_valid_character c with
    | false =>
      refine ⟨n, Except.error "Bad characters in string", ?_, hwf, rfl, rfl, ?_, ?_, ?_, ?_⟩
      · simp [insertNode, hv]
      · simp [succeeded, hv]
      · intro s
        simp [succeeded]
      · intro s hs
        exact hs
      · intro q hq hval
        cases q with
        | nil => rfl
        | cons d ds =>
          have hd : d = c := (List.cons_prefix_cons.mp hq).1
          have := hval d (List.mem_cons_self _ _)
          rw [hd, hv] at this
          cases this
    | true =>
      have hrange := (is_valid_character_iff c).mp hv
      have hidx : c - 32 < 95 := by omega
      have hc : c = (c - 32) + 32 := by omega
      obtain ⟨p1, child, hlinked, hwf1, hs1, he1, hn1, hchild, hold, hun⟩ :=
        linked_spec hwf c hidx hc
      have hwfc : WF child := (hwf1.child hchild).1
      obtain ⟨child1, r, hrun, hwfc1, hcs, hcn, hok, hends, hmono, hpath⟩ := ih child hwfc
      have hlt1 : c - 32 < p1.children.length := lt_length_of_getD hchild
      have hfinal_self : (p1.children.set (c - 32) (some child1)).getD (c - 32) none =
          some child1 := getD_set_self hlt1 _
      have hfinal_ne : ∀ j, j ≠ c - 32 →
          (p1.children.set (c - 32) (some child1)).getD j none = p1.children.getD j none :=
        fun j hj => getD_set_ne (Ne.symm hj) _
      have hE : ∀ ds, ends n (c :: ds) = ends child ds := by
        intro ds
        rcases hold with h | ⟨h, hu⟩
        · exact ends_cons_some hv h ds
        · rw [ends_cons_none hv h, ends_congr hu, ends_new]
      have hW : ∀ ds, (walk n (c :: ds)).isSome = true → (walk child ds).isSome = true := by
        intro ds hds
        rcases hold with h | ⟨h, _⟩
        · rw [walk_cons_some hv h] at hds
          exact hds
        · rw [walk_cons_none hv h] at hds
          cases hds
      have hO : ∀ d, is_valid_character d = true → d ≠ c → ∀ ds,
          ends ({ p1 with children := p1.children.set (c - 32) (some child1) } : node)
              (d :: ds) = ends n (d :: ds) ∧
            (walk ({ p1 with children := p1.children.set (c - 32) (some child1) } : node)
              (d :: ds)).isSome = (walk n (d :: ds)).isSome := by
        intro d hd hdc ds
        have hr := (is_valid_character_iff d).mp hd
        have hj : d - 32 ≠ c - 32 := by omega
        refine cons_of_map_unlink hd ?_ ds
        show Option.map node.unlink ((p1.children.set (c - 32) (some child1)).getD (d - 32) none)
          = _
        rw [hfinal_ne _ hj]
        exact hun _ hj
      refine ⟨{ p1 with children := p1.children.set (c - 32) (some child1) }, r, ?_, ?_,
        hs1, hn1, ?_, ?_, ?_, ?_⟩
      · rw [insertNode_cons_valid hv, hlinked]
        simp only [node.child, hchild, hrun]
      · refine WF.rebuild hwf1 _ (c - 32) child1 (by simp) hfinal_self ?_ hwfc1
          (fun j hj => by
            show Option.map node.unlink ((p1.children.set (c - 32) (some child1)).getD j none)
              = _
            rw [hfinal_ne j hj]) ?_
        · rw [hcs]
          exact (hwf1.child hchild).2.1
        · cases hwf1 with
          | mk l hlen hsym hlink hsorted hmem hrec =>
            refine ⟨l, ?_, hsorted, ?_⟩
            · refine hlink.congr ?_
              intro i _ a ha
              by_cases hi : i = c - 32
              · subst hi
                rw [hchild] at ha
                cases ha
                exact ⟨child1, hfinal_self, hcn⟩
              · exact ⟨a, (hfinal_ne i hi).trans ha, rfl⟩
            · intro i
              rw [hmem i]
              by_cases hi : i = c - 32
              · subst hi
                rw [hchild]
                simp
              · simp [hi]
      · rw [hok]
        simp [hv]
      · intro s
        cases s with
        | nil =>
          rw [ends_nil, ends_nil]
          simp [he1]
        | cons d ds =>
          cases hd : is_valid_character d with
          | false =>
            have hdc : d ≠ c := by
              intro h
              rw [h, hv] at hd
              cases hd
            rw [ends_cons_invalid hd, ends_cons_invalid hd]
            simp [hdc]
          | true =>
            by_cases hdc : d = c
            · subst hdc
              rw [ends_cons_some hv (n := { p1 with children := _ }) hfinal_self, hends, hE]
              simp
            · rw [(hO d hd hdc ds).1]
              simp [hdc]
      · intro s hs
        cases s with
        | nil => rfl
        | cons d ds =>
          cases hd : is_valid_character d with
          | false =>
            rw [walk_cons_invalid hd] at hs
            cases hs
          | true =>
            by_cases hdc : d = c
            · subst hdc
              rw [walk_cons_some hv (n := { p1 with children := _ }) hfinal_self]
              exact hmono ds (hW ds hs)
            · rw [(hO d hd hdc ds).2]
              exact hs
      · intro q hq hval
        cases q with
        | nil => rfl
        | cons d ds =>
          obtain ⟨hd, hds⟩ := List.cons_prefix_cons.mp hq
          subst hd
          rw [walk_cons_some hv (n := { p1 with children := _ }) hfinal_self]
          exact hpath ds hds (fun x hx => hval x (List.mem_cons_of_mem _ hx))

end dict_trie

end spl

namespace spl

namespace dict_trie

/-! ## The traversals -/

theorem recursiveComplete_eq : ∀ (fuel : Nat) (ch : List (Option node)) (cur : Option Nat)
    (st : List Nat × List (List Nat)),
    recursiveComplete fuel ch cur st = recursiveEach fuel ch cur st := by
  intro fuel
  induction fuel with
  | zero =>
    intro ch cur st
    rfl
  | succ fuel ih =>
    intro ch cur st
    obtain ⟨ws, out⟩ := st
    cases cur with
    | none => rfl
    | some i =>
      simp only [recursiveComplete, recursiveEach, ih]

theorem takeLimit_nil (limit : Nat) (out : List (List Nat)) : takeLimit limit out [] = out := by
  simp [takeLimit]

theorem takeLimit_of_eq {limit : Nat} {out : List (List Nat)} (h : out.length = limit)
    (new : List (List Nat)) : takeLimit limit out new = out := by
  simp [takeLimit, h]

theorem takeLimit_single {limit : Nat} {out : List (List Nat)} (h : out.length ≠ limit)
    (x : List Nat) : takeLimit limit out [x] = out ++ [x] := by
  unfold takeLimit
  split
  · have : limit - out.length = (limit - out.length - 1) + 1 := by omega
    rw [this]
    simp
  · rfl

theorem takeLimit_append (limit : Nat) (out A B : List (List Nat)) :
    takeLimit limit (takeLimit limit out A) B = takeLimit limit out (A ++ B) := by
  unfold takeLimit
  by_cases h : out.length ≤ limit
  · simp only [h, if_true, List.length_append, List.length_take]
    have h2 : out.length + min (limit - out.length) A.length ≤ limit := by omega
    simp only [h2, if_true, List.take_append_eq_append_take, List.append_assoc]
    congr 3
    omega
  · simp only [h, if_false, List.length_append]
    have h2 : ¬ out.length + A.length ≤ limit := by omega
    simp only [h2, if_false, List.append_assoc]

theorem takeLimit_length_le {limit : Nat} {out : List (List Nat)} (h : out.length ≤ limit)
    (new : List (List Nat)) : (takeLimit limit out new).length ≤ limit := by
  simp only [takeLimit, h, if_true, List.length_append, List.length_take]
  omega

theorem map_block (ws : List Nat) (c : node) (Lc : List (List Nat)) :
    (block c Lc).map (ws ++ ·) =
      (if c.isStringEnd then [ws ++ [c.symbol]] else []) ++
        Lc.map ((ws ++ [c.symbol]) ++ ·) := by
  unfold block
  cases c.isStringEnd <;> simp

theorem runsEach_nil (ch : List (Option node)) : RunsEach ch none [] := by
  refine ⟨1, ?_⟩
  intro fuel hf ws out
  obtain ⟨fuel, rfl⟩ : ∃ k, fuel = k + 1 := ⟨fuel - 1, by omega⟩
  simp [recursiveEach]

theorem runsLimit_nil (ch : List (Option node)) : RunsLimit ch none [] := by
  refine ⟨1, ?_⟩
  intro fuel hf limit ws out
  obtain ⟨fuel, rfl⟩ : ∃ k, fuel = k + 1 := ⟨fuel - 1, by omega⟩
  refine ⟨ws.dropLast, ?_, fun _ => rfl⟩
  simp [recursiveCompleteLimit, takeLimit_nil]

theorem runsEach_of_none {ch : List (Option node)} {L : List (List Nat)}
    (h : RunsEach ch none L) : L = [] := by
  obtain ⟨N, hN⟩ := h
  have := hN (N + 1) (by omega) [] []
  simp [recursiveEach] at this
  exact this

/-- One iteration of `recursiveEach`: the child `c` in slot `i`, then the rest
of the sibling list. -/
theorem runsEach_cons {ch : List (Option node)} {i : Nat} {c : node}
    {Lc Lrest : List (List Nat)} (hc : ch.getD i none = some c)
    (hsub : RunsEach c.children c.firstChild Lc) (hrest : RunsEach ch c.next Lrest) :
    RunsEach ch (some i) (block c Lc ++ Lrest) := by
  obtain ⟨Nc, hNc⟩ := hsub
  obtain ⟨Nr, hNr⟩ := hrest
  refine ⟨max Nc Nr + 1, ?_⟩
  intro fuel hf ws out
  obtain ⟨fuel, rfl⟩ : ∃ k, fuel = k + 1 := ⟨fuel - 1, by omega⟩
  have h1 : Nc ≤ fuel := by omega
  have h2 : Nr ≤ fuel := by omega
  have hmap : out ++ (block c Lc ++ Lrest).map (ws ++ ·) =
      ((if c.isStringEnd then out ++ [ws ++ [c.symbol]] else out) ++
        Lc.map ((ws ++ [c.symbol]) ++ ·)) ++ Lrest.map (ws ++ ·) := by
    rw [List.map_append, map_block]
    cases c.isStringEnd <;> simp
  rw [hmap]
  cases hfc : c.firstChild with
  | none =>
    have hL : Lc = [] := by
      rw [hfc] at hNc
      exact runsEach_of_none ⟨Nc, hNc⟩
    subst hL
    simp only [recursiveEach, hc, hfc, List.dropLast_concat, hNr fuel h2, List.map_nil,
      List.append_nil]
  | some f =>
    have := hNc fuel h1 (ws ++ [c.symbol]) (if c.isStringEnd then out ++ [ws ++ [c.symbol]] else out)
    rw [hfc] at this
    simp only [recursiveEach, hc, hfc, this, List.dropLast_concat, hNr fuel h2]

theorem recursiveCompleteLimit_step {limit fuel : Nat} {ch : List (Option node)} {i : Nat}
    {c : node} {ws : List Nat} {out : List (List Nat)} (hlim : ¬ out.length = limit)
    (hc : ch.getD i none = some c) :
    recursiveCompleteLimit limit (fuel + 1) ch (some i) (ws, out) =
      (match (match c.firstChild with
          | some f => recursiveCompleteLimit limit fuel c.children (some f)
              (ws ++ [c.symbol], if c.isStringEnd then out ++ [ws ++ [c.symbol]] else out)
          | none => some ((ws ++ [c.symbol]).dropLast,
              if c.isStringEnd then out ++ [ws ++ [c.symbol]] else out)) with
        | none => none
        | some st => recursiveCompleteLimit limit fuel ch c.next st) := by
  simp only [recursiveCompleteLimit, hlim, if_false, hc]
  cases c.firstChild <;> rfl

/-- One iteration of the limited `recursiveComplete`. -/
theorem runsLimit_cons {ch : List (Option node)} {i : Nat} {c : node}
    {Lc Lrest : List (List Nat)} (hc : ch.getD i none = some c)
    (hnone : c.firstChild = none → Lc = [])
    (hsub : RunsLimit c.children c.firstChild Lc) (hrest : RunsLimit ch c.next Lrest) :
    RunsLimit ch (some i) (block c Lc ++ Lrest) := by
  obtain ⟨Nc, hNc⟩ := hsub
  obtain ⟨Nr, hNr⟩ := hrest
  refine ⟨max Nc Nr + 1, ?_⟩
  intro fuel hf limit ws out
  obtain ⟨fuel, rfl⟩ : ∃ k, fuel = k + 1 := ⟨fuel - 1, by omega⟩
  have h1 : Nc ≤ fuel := by omega
  have h2 : Nr ≤ fuel := by omega
  by_cases hlim : out.length = limit
  · refine ⟨ws, ?_, ?_⟩
    · simp only [recursiveCompleteLimit, hlim, if_true, takeLimit_of_eq hlim]
    · intro h
      rw [takeLimit_of_eq hlim] at h
      exact absurd hlim h
  · -- the state after the symbol of `c` was appended and `c` reported
    have hout1 : (if c.isStringEnd then out ++ [ws ++ [c.symbol]] else out) =
        takeLimit limit out (if c.isStringEnd then [ws ++ [c.symbol]] else []) := by
      cases c.isStringEnd
      · simp [takeLimit_nil]
      · simp [takeLimit_single hlim]
    have htotal : ∀ ws2, 
        takeLimit limit (takeLimit limit
          (if c.isStringEnd then out ++ [ws ++ [c.symbol]] else out)
            (Lc.map ((ws ++ [c.symbol]) ++ ·))) (Lrest.map (ws2 ++ ·)) =
        takeLimit limit out
          (((if c.isStringEnd then [ws ++ [c.symbol]] else []) ++
            Lc.map ((ws ++ [c.symbol]) ++ ·)) ++ Lrest.map (ws2 ++ ·)) := by
      intro ws2
      rw [hout1, takeLimit_append, takeLimit_append, List.append_assoc]
    have hgoal : takeLimit limit out ((block c Lc ++ Lrest).map (ws ++ ·)) =
        takeLimit limit (takeLimit limit
          (if c.isStringEnd then out ++ [ws ++ [c.symbol]] else out)
            (Lc.map ((ws ++ [c.symbol]) ++ ·))) (Lrest.map (ws ++ ·)) := by
      rw [htotal, List.map_append, map_block]
    rw [hgoal]
    obtain ⟨ws2, hrun2, hws2⟩ : ∃ ws2,
        (match c.firstChild with
          | some f => recursiveCompleteLimit limit fuel c.children (some f)
              (ws ++ [c.symbol], if c.isStringEnd then out ++ [ws ++ [c.symbol]] else out)
          | none => some ((ws ++ [c.symbol]).dropLast,
              if c.isStringEnd then out ++ [ws ++ [c.symbol]] else out)) =
          some (ws2, takeLimit limit
            (if c.isStringEnd then out ++ [ws ++ [c.symbol]] else out)
            (Lc.map ((ws ++ [c.symbol]) ++ ·))) ∧
        ((takeLimit limit
            (if c.isStringEnd then out ++ [ws ++ [c.symbol]] else out)
            (Lc.map ((ws ++ [c.symbol]) ++ ·))).length ≠ limit → ws2 = ws) := by
      cases hfc : c.firstChild with
      | none =>
        rw [hnone hfc]
        exact ⟨ws, by simp [takeLimit_nil], fun _ => rfl⟩
      | some f =>
        obtain ⟨ws2, hr, hw⟩ := hNc fuel h1 limit (ws ++ [c.symbol])
          (if c.isStringEnd then out ++ [ws ++ [c.symbol]] else out)
        rw [hfc] at hr
        refine ⟨ws2, hr, ?_⟩
        intro h
        rw [hw h, List.dropLast_concat]
    obtain ⟨ws3, hrun3, hws3⟩ := hNr fuel h2 limit ws2 (takeLimit limit
      (if c.isStringEnd then out ++ [ws ++ [c.symbol]] else out)
      (Lc.map ((ws ++ [c.symbol]) ++ ·)))
    have hsame : takeLimit limit (takeLimit limit
          (if c.isStringEnd then out ++ [ws ++ [c.symbol]] else out)
            (Lc.map ((ws ++ [c.symbol]) ++ ·))) (Lrest.map (ws2 ++ ·)) =
        takeLimit limit (takeLimit limit
          (if c.isStringEnd then out ++ [ws ++ [c.symbol]] else out)
            (Lc.map ((ws ++ [c.symbol]) ++ ·))) (Lrest.map (ws ++ ·)) := by
      by_cases hl : (takeLimit limit
          (if c.isStringEnd then out ++ [ws ++ [c.symbol]] else out)
            (Lc.map ((ws ++ [c.symbol]) ++ ·))).length = limit
      · rw [takeLimit_of_eq hl, takeLimit_of_eq hl]
      · rw [hws2 hl]
    rw [hsame] at hrun3 hws3
    refine ⟨ws3, ?_, ?_⟩
    · rw [recursiveCompleteLimit_step hlim hc, hrun2]
      exact hrun3
    · intro h
      have hl : (takeLimit limit
          (if c.isStringEnd then out ++ [ws ++ [c.symbol]] else out)
            (Lc.map ((ws ++ [c.symbol]) ++ ·))).length ≠ limit := by
        intro hl
        rw [takeLimit_of_eq hl] at h
        exact h hl
      rw [hws3 h, hws2 hl]

end dict_trie

end spl

namespace spl

namespace dict_trie

/-! ## What the traversals report -/

theorem mem_block {c : node} {Lc : List (List Nat)}
    (hm : ∀ k, k ∈ Lc ↔ k ≠ [] ∧ ends c k = true) (k : List Nat) :
    k ∈ block c Lc ↔ ∃ rest, k = c.symbol :: rest ∧ ends c rest = true := by
  unfold block
  rw [List.mem_append]
  constructor
  · rintro (h | h)
    · cases he : c.isStringEnd with
      | false => simp [he] at h
      | true =>
        simp [he] at h
        exact ⟨[], h, he⟩
    · obtain ⟨k1, hk1, rfl⟩ := List.mem_map.mp h
      exact ⟨k1, rfl, ((hm k1).mp hk1).2⟩
  · rintro ⟨rest, rfl, hr⟩
    cases rest with
    | nil =>
      left
      have : c.isStringEnd = true := hr
      simp [this]
    | cons a as =>
      right
      exact List.mem_map.mpr ⟨a :: as, (hm _).mpr ⟨by simp, hr⟩, rfl⟩

theorem pairwise_block {c : node} {Lc : List (List Nat)}
    (hs : Lc.Pairwise (List.Lex (· < ·))) (hm : ∀ k, k ∈ Lc → k ≠ []) :
    (block c Lc).Pairwise (List.Lex (· < ·)) := by
  unfold block
  refine List.pairwise_append.mpr ⟨?_, ?_, ?_⟩
  · cases c.isStringEnd <;> simp
  · exact (List.pairwise_map).mpr (hs.imp (fun h => List.Lex.cons h))
  · intro a ha b hb
    obtain ⟨k, hk, rfl⟩ := List.mem_map.mp hb
    have ha2 : a = [c.symbol] := by
      cases he : c.isStringEnd with
      | false => simp [he] at ha
      | true => simpa [he] using ha
    subst ha2
    cases k with
    | nil => exact absurd rfl (hm [] hk)
    | cons x xs => exact List.Lex.cons List.Lex.nil

/-- The loop over a sibling list reports the keys below its nodes, block by
block, in ascending order. -/
theorem chain_enumerates {ch : List (Option node)} {cur : Option Nat} {l : List Nat}
    (h : Linked ch cur l) :
    l.Pairwise (· < ·) →
    (∀ i ∈ l, ∀ c, ch.getD i none = some c → c.symbol = i + 32 ∧ ∃ L, Enumerates c L) →
    ∃ Ls, RunsEach ch cur Ls ∧ RunsLimit ch cur Ls ∧ Ls.Pairwise (List.Lex (· < ·)) ∧
      ∀ k, k ∈ Ls ↔ ∃ i ∈ l, ∃ c rest,
        ch.getD i none = some c ∧ k = (i + 32) :: rest ∧ ends c rest = true := by
  induction h with
  | nil =>
    intro _ _
    exact ⟨[], runsEach_nil ch, runsLimit_nil ch, List.Pairwise.nil, by simp⟩
  | @cons i c l hc hl ih =>
    intro hs hch
    obtain ⟨hsym, Lc, hLcs, hLcm, hLce, hLcl⟩ := hch i (List.mem_cons_self _ _) c hc
    have hs1 := List.pairwise_cons.mp hs
    obtain ⟨Ls2, he2, hl2, hs2, hm2⟩ :=
      ih hs1.2 (fun j hj => hch j (List.mem_cons_of_mem _ hj))
    have hnone : c.firstChild = none → Lc = [] := by
      intro hfc
      rw [hfc] at hLce
      exact runsEach_of_none hLce
    refine ⟨block c Lc ++ Ls2, runsEach_cons hc hLce he2, runsLimit_cons hc hnone hLcl hl2,
      ?_, ?_⟩
    · refine List.pairwise_append.mpr
        ⟨pairwise_block hLcs (fun k hk => ((hLcm k).mp hk).1), hs2, ?_⟩
      intro a ha b hb
      obtain ⟨r1, rfl, -⟩ := (mem_block hLcm a).mp ha
      obtain ⟨j, hj, c2, r2, -, rfl, -⟩ := (hm2 b).mp hb
      refine List.Lex.rel ?_
      have := hs1.1 j hj
      omega
    · intro k
      rw [List.mem_append, mem_block hLcm, hm2]
      constructor
      · rintro (⟨rest, rfl, hr⟩ | ⟨j, hj, c2, r2, h1, h2, h3⟩)
        · exact ⟨i, List.mem_cons_self _ _, c, rest, hc, by rw [hsym], hr⟩
        · exact ⟨j, List.mem_cons_of_mem _ hj, c2, r2, h1, h2, h3⟩
      · rintro ⟨j, hj, c2, r2, h1, h2, h3⟩
        rcases List.mem_cons.mp hj with rfl | hj
        · left
          rw [hc] at h1
          cases h1
          exact ⟨r2, by rw [hsym, h2], h3⟩
        · right
          exact ⟨j, hj, c2, r2, h1, h2, h3⟩

/-- Below a well-formed node the traversals report the non-empty keys stored
below it, in ascending order. -/
theorem WF.enumerates {n : node} (h : WF n) : ∃ L, Enumerates n L := by
  induction h with
  | @mk n l hlen hsym hlink hsorted hmem hrec ih =>
    have hwf : WF n := WF.mk l hlen hsym hlink hsorted hmem hrec
    obtain ⟨Ls, he, hl, hs, hm⟩ := chain_enumerates hlink hsorted
      (fun i _ c hc => ⟨by rw [hsym i c hc, ascii_min_eq], ih i c hc⟩)
    refine ⟨Ls, hs, ?_, he, hl⟩
    intro k
    rw [hm]
    constructor
    · rintro ⟨i, _, c, rest, hc, rfl, hr⟩
      have hi := (hwf.child hc).2.2
      have hv : is_valid_character (i + 32) = true :=
        (is_valid_character_iff _).mpr (by omega)
      refine ⟨by simp, ?_⟩
      rw [ends_cons_some hv (m := c) (by simpa using hc)]
      exact hr
    · rintro ⟨hne, hk⟩
      cases k with
      | nil => exact absurd rfl hne
      | cons d ds =>
        cases hv : is_valid_character d with
        | false =>
          rw [ends_cons_invalid hv] at hk
          cases hk
        | true =>
          have hr := (is_valid_character_iff d).mp hv
          cases hc : n.children.getD (d - 32) none with
          | none =>
            rw [ends_cons_none hv hc] at hk
            cases hk
          | some c =>
            rw [ends_cons_some hv hc] at hk
            refine ⟨d - 32, (hmem _).mpr (by rw [hc]; rfl), c, ds, hc, ?_, hk⟩
            congr 1
            omega

theorem Enumerates.unique {n : node} {L1 L2 : List (List Nat)} (h1 : Enumerates n L1)
    (h2 : Enumerates n L2) : L1 = L2 := by
  obtain ⟨N1, hN1⟩ := h1.2.2.1
  obtain ⟨N2, hN2⟩ := h2.2.2.1
  have a := hN1 (max N1 N2) (le_max_left _ _) [] []
  have b := hN2 (max N1 N2) (le_max_right _ _) [] []
  rw [a] at b
  simpa using b

theorem walk_append (n : node) (p k : List Nat) :
    walk n (p ++ k) = (walk n p).bind (fun m => walk m k) := by
  induction p generalizing n with
  | nil => rfl
  | cons c cs ih =>
    cases hv : is_valid_character c with
    | false =>
      rw [List.cons_append, walk_cons_invalid hv, walk_cons_invalid hv]
      rfl
    | true =>
      rw [List.cons_append, walk_cons_valid hv, walk_cons_valid hv]
      cases n.children.getD (c - 32) none with
      | none => rfl
      | some ch => exact ih ch

theorem WF.walk {n : node} (h : WF n) : ∀ (p : List Nat) (m : node), walk n p = some m → WF m := by
  intro p
  induction p generalizing n with
  | nil =>
    intro m hm
    cases hm
    exact h
  | cons c cs ih =>
    intro m hm
    cases hv : is_valid_character c with
    | false =>
      rw [walk_cons_invalid hv] at hm
      cases hm
    | true =>
      cases hc : n.children.getD (c - 32) none with
      | none =>
        rw [walk_cons_none hv hc] at hm
        cases hm
      | some ch =>
        rw [walk_cons_some hv hc] at hm
        exact ih (h.child hc).1 m hm

theorem contains_eq_ends (t : dict_trie) (s : List Nat) : contains t s = ends t.root s := rfl

theorem each_eq_each_prefixed (fuel : Nat) (t : dict_trie) : each fuel t = each_prefixed fuel t [] :=
  rfl

/-- The answer of every query on a well-formed trie: the list `M` of matches
of a prefix is ascending, holds exactly the stored keys that extend the
prefix properly, and is what `each` and `auto_complete` report; the limited
`auto_complete` throws instead when it reaches `out.reserve(limit)` with a
limit above `max_size`. -/
theorem query_spec {t : dict_trie} (hwf : WF t.root) (p : List Nat) :
    ∃ M : List (List Nat), M.Pairwise (List.Lex (· < ·)) ∧
      (∀ s, s ∈ M ↔ p <+: s ∧ s ≠ p ∧ contains t s = true) ∧
      (M ≠ [] → reachesReserve t p = true) ∧
      ∃ N, ∀ fuel, N ≤ fuel →
        each_prefixed fuel t p = some M ∧
        (∀ out, auto_complete fuel t p out = some (out ++ M)) ∧
        (∀ ms out limit, auto_complete_limit ms fuel t p out limit =
          some (if limit = 0 then (out, Except.ok ())
            else if reachesReserve t p = true ∧ ms < limit then
              (out, Except.error "std::length_error")
            else (takeLimit limit out M, Except.ok ()))) := by
  cases hw : walk t.root p with
  | none =>
    have hreach : reachesReserve t p = false := by simp only [reachesReserve, hw]
    refine ⟨[], List.Pairwise.nil, ?_, fun h => absurd rfl h, 0, ?_⟩
    · intro s
      simp only [List.not_mem_nil, false_iff]
      rintro ⟨⟨k, rfl⟩, -, hc⟩
      rw [contains_eq_ends] at hc
      simp [ends, walk_append, hw] at hc
    · intro fuel _
      refine ⟨by simp [each_prefixed, hw], fun out => by simp [auto_complete, hw], ?_⟩
      intro ms out limit
      by_cases hl : limit = 0
      · simp [auto_complete_limit, hl]
      · simp [auto_complete_limit, hl, hw, takeLimit_nil, hreach]
  | some m =>
    obtain ⟨L, hs, hm, ⟨N1, hN1⟩, ⟨N2, hN2⟩⟩ := (hwf.walk p m hw).enumerates
    have hnone : m.firstChild = none → L = [] := by
      intro hfc
      rw [hfc] at hN1
      exact runsEach_of_none ⟨N1, hN1⟩
    refine ⟨L.map (p ++ ·), ?_, ?_, ?_, max N1 N2, ?_⟩
    · exact (List.pairwise_map).mpr (hs.imp (fun h => List.Lex.append_left _ h p))
    · intro s
      rw [List.mem_map]
      constructor
      · rintro ⟨k, hk, rfl⟩
        obtain ⟨hne, he⟩ := (hm k).mp hk
        refine ⟨List.prefix_append _ _, ?_, ?_⟩
        · intro h
          exact hne (List.append_right_eq_self.mp h)
        · rw [contains_eq_ends]
          simp only [ends, walk_append, hw, Option.bind] at he ⊢
          exact he
      · rintro ⟨⟨k, rfl⟩, hne, hc⟩
        refine ⟨k, (hm k).mpr ⟨?_, ?_⟩, rfl⟩
        · intro h
          exact hne (by rw [h, List.append_nil])
        · rw [contains_eq_ends] at hc
          simp only [ends, walk_append, hw, Option.bind] at hc ⊢
          exact hc
    · intro hne
      cases hfc : m.firstChild with
      | none =>
        rw [hnone hfc] at hne
        exact absurd rfl hne
      | some f => simp only [reachesReserve, hw, hfc, Option.isSome]
    · intro fuel hf
      have hf1 : N1 ≤ fuel := le_trans (le_max_left _ _) hf
      have hf2 : N2 ≤ fuel := le_trans (le_max_right _ _) hf
      cases hfc : m.firstChild with
      | none =>
        have hreach : reachesReserve t p = false := by
          simp only [reachesReserve, hw, hfc, Option.isSome]
        rw [hnone hfc]
        refine ⟨by simp [each_prefixed, hw, hfc], fun out => by simp [auto_complete, hw, hfc], ?_⟩
        intro ms out limit
        by_cases hl : limit = 0
        · simp [auto_complete_limit, hl]
        · simp [auto_complete_limit, hl, hw, hfc, takeLimit_nil, hreach]
      | some f =>
        have hreach : reachesReserve t p = true := by
          simp only [reachesReserve, hw, hfc, Option.isSome]
        have h1 := fun out => hN1 fuel hf1 p out
        rw [hfc] at h1
        refine ⟨?_, ?_, ?_⟩
        · simp [each_prefixed, hw, hfc, h1]
        · intro out
          simp [auto_complete, hw, hfc, recursiveComplete_eq, h1]
        · intro ms out limit
          by_cases hl : limit = 0
          · simp [auto_complete_limit, hl]
          · by_cases hms : ms < limit
            · simp [auto_complete_limit, hl, hw, hfc, hreach, hms]
            · obtain ⟨ws1, hr, -⟩ := hN2 fuel hf2 limit p out
              rw [hfc] at hr
              simp [auto_complete_limit, hl, hw, hfc, hreach, hms, hr]

end dict_trie

end spl

namespace spl

namespace dict_trie

/-! ## Sequences of insertions -/

theorem succeeded_false_iff (r : Except String Unit) :
    succeeded r = false ↔ ¬ succeeded r = true := by
  cases succeeded r <;> simp

/-- One call of `insert` on a well-formed trie. -/
theorem insert_spec {t : dict_trie} (hwf : WF t.root) (key : List Nat) :
    ∃ t1 r, insert t key = some (t1, r) ∧ WF t1.root ∧
      (succeeded r = true ↔ ∀ c ∈ key, is_valid_character c = true) ∧
      (∀ s, contains t1 s = (contains t s || (succeeded r && decide (s = key)))) ∧
      (succeeded r = false →
        t1.numKeys = t.numKeys ∧ t1.maxKeyLength = t.maxKeyLength) ∧
      (succeeded r = true →
        t1.numKeys = (t.numKeys + 1) % 2 ^ 64 ∧
          t1.maxKeyLength = max t.maxKeyLength key.length) ∧
      (∀ s, (walk t.root s).isSome = true → (walk t1.root s).isSome = true) ∧
      (∀ q, q <+: key → (∀ x ∈ q, is_valid_character x = true) →
        (walk t1.root q).isSome = true) := by
  obtain ⟨n1, r, hrun, hwf1, -, -, hok, hends, hmono, hpath⟩ := insertNode_spec key t.root hwf
  cases r with
  | ok u =>
    refine ⟨⟨n1, max t.maxKeyLength key.length, (t.numKeys + 1) % 2 ^ 64⟩, Except.ok u, ?_,
      hwf1, hok, hends, ?_, ?_, hmono, hpath⟩
    · simp only [insert, hrun]
    · intro h
      cases h
    · intro _
      exact ⟨rfl, rfl⟩
  | error e =>
    refine ⟨{ t with root := n1 }, Except.error e, ?_, hwf1, hok, hends, ?_, ?_, hmono, hpath⟩
    · simp only [insert, hrun]
    · intro _
      exact ⟨rfl, rfl⟩
    · intro h
      cases h

theorem contains_empty (s : List Nat) : contains empty s = false := ends_new 0 s

/-- A sequence of calls of `insert` on a well-formed trie: every call returns,
and afterwards the trie holds what it held before and the keys whose call
succeeded, which are the keys made of valid symbols. -/
theorem insertAll_spec : ∀ (keys : List (List Nat)) (t : dict_trie), WF t.root →
    ∃ t1 ok, insertAll t keys = some (t1, ok) ∧ WF t1.root ∧
      ok = keys.filter (fun k => k.all is_valid_character) ∧
      ∀ s, contains t1 s = (contains t s || decide (s ∈ ok)) := by
  intro keys
  induction keys with
  | nil =>
    intro t hwf
    exact ⟨t, [], rfl, hwf, rfl, by simp⟩
  | cons key rest ih =>
    intro t hwf
    obtain ⟨t1, r, hrun, hwf1, hok, hcont, -⟩ := insert_spec hwf key
    obtain ⟨t2, ok, hrun2, hwf2, hfilter, hcont2⟩ := ih t1 hwf1
    cases r with
    | ok u =>
      have hall : key.all is_valid_character = true := by
        rw [List.all_eq_true]
        exact hok.mp rfl
      refine ⟨t2, key :: ok, ?_, hwf2, ?_, ?_⟩
      · simp only [insertAll, hrun, hrun2, Option.map]
      · subst hfilter
        simp [List.filter_cons, hall]
      · intro s
        rw [hcont2, hcont]
        by_cases hs : s = key <;> simp [succeeded, hs]
    | error e =>
      have hall : ¬ key.all is_valid_character = true := by
        rw [List.all_eq_true]
        intro h
        have := hok.mpr h
        cases this
      refine ⟨t2, ok, ?_, hwf2, ?_, ?_⟩
      · simp only [insertAll, hrun, hrun2]
      · subst hfilter
        simp [List.filter_cons, hall]
      · intro s
        rw [hcont2, hcont]
        simp [succeeded]

theorem WF.empty : WF empty.root := WF.new 0

/-- Every sequence of calls of `insert` on the empty trie returns and leaves a
well-formed trie that holds exactly the keys whose call succeeded. -/
theorem insertAll_empty (keys : List (List Nat)) :
    ∃ t ok, insertAll empty keys = some (t, ok) ∧ WF t.root ∧
      ok = keys.filter (fun k => k.all is_valid_character) ∧
      ∀ s, contains t s = true ↔ s ∈ ok := by
  obtain ⟨t, ok, hrun, hwf, hf, hc⟩ := insertAll_spec keys empty WF.empty
  refine ⟨t, ok, hrun, hwf, hf, ?_⟩
  intro s
  rw [hc, contains_empty]
  simp

theorem lex_ne {a b : List Nat} (h : List.Lex (· < ·) a b) : a ≠ b :=
  List.Lex.to_ne (List.Lex.imp (fun _ _ h => Nat.ne_of_lt h) _ _ h)

theorem nodup_of_pairwise_lex {M : List (List Nat)} (h : M.Pairwise (List.Lex (· < ·))) :
    M.Nodup :=
  h.imp lex_ne

/-- Two ascending lists with the same elements are equal. -/
theorem eq_of_pairwise_lex {M1 M2 : List (List Nat)} (h1 : M1.Pairwise (List.Lex (· < ·)))
    (h2 : M2.Pairwise (List.Lex (· < ·))) (h : ∀ s, s ∈ M1 ↔ s ∈ M2) : M1 = M2 := by
  have hp : M1.Perm M2 :=
    (List.perm_ext_iff_of_nodup (nodup_of_pairwise_lex h1) (nodup_of_pairwise_lex h2)).mpr h
  exact List.eq_of_perm_of_sorted hp h1 h2

theorem takeLimit_nil_out (limit : Nat) (M : List (List Nat)) :
    takeLimit limit [] M = M.take limit := by
  simp [takeLimit]

theorem take_min_length (M : List (List Nat)) (n : Nat) :
    M.take (min n M.length) = M.take n := by
  rcases Nat.le_total n M.length with h | h
  · rw [Nat.min_eq_left h]
  · rw [Nat.min_eq_right h, List.take_length, List.take_of_length_le h]

/-- The three outcomes of the limited `auto_complete`: in each of them `out`
keeps what it held and gains an initial part of the matches. -/
theorem limit_result_append (b : Bool) (ms limit : Nat) (out M : List (List Nat)) :
    ∃ R r, (if limit = 0 then (out, Except.ok ())
        else if b = true ∧ ms < limit then (out, Except.error "std::length_error")
        else (takeLimit limit out M, (Except.ok () : Except String Unit))) = (out ++ R, r) ∧
      R <+: M ∧ (limit ≤ ms → r = Except.ok ()) := by
  by_cases h : limit = 0
  · exact ⟨[], Except.ok (), by simp [h], List.nil_prefix, fun _ => rfl⟩
  · by_cases h1 : b = true ∧ ms < limit
    · exact ⟨[], Except.error "std::length_error", by simp [h, h1], List.nil_prefix,
        fun hle => absurd h1.2 (by omega)⟩
    · by_cases h2 : out.length ≤ limit
      · exact ⟨M.take (limit - out.length), Except.ok (), by simp [h, h1, takeLimit, h2],
          List.take_prefix _ _, fun _ => rfl⟩
      · exact ⟨M, Except.ok (), by simp [h, h1, takeLimit, h2], List.prefix_refl _,
          fun _ => rfl⟩

/-- Two well-formed tries that contain the same keys report the same strings
on every query.  The limited `auto_complete` leaves the same `out` on both;
it returns normally on both when `limit` is at most `max_size`, and above
that it throws on the one whose start node has a child. -/
theorem query_congr {t t1 : dict_trie} (hwf : WF t.root) (hwf1 : WF t1.root)
    (h : ∀ s, contains t1 s = contains t s) (p : List Nat) :
    ∃ N, ∀ fuel, N ≤ fuel → ∃ M,
      each_prefixed fuel t p = some M ∧ each_prefixed fuel t1 p = some M ∧
      (∀ out, auto_complete fuel t p out = some (out ++ M) ∧
        auto_complete fuel t1 p out = some (out ++ M)) ∧
      (∀ ms out limit, ∃ R r r1,
        auto_complete_limit ms fuel t p out limit = some (R, r) ∧
        auto_complete_limit ms fuel t1 p out limit = some (R, r1) ∧
        (limit ≤ ms → r = Except.ok () ∧ r1 = Except.ok ()) ∧
        ((reachesReserve t p = true → reachesReserve t1 p = true) →
          succeeded r1 = true → succeeded r = true)) := by
  obtain ⟨M, hs, hm, hreach, N, hN⟩ := query_spec hwf p
  obtain ⟨M1, hs1, hm1, hreach1, N1, hN1⟩ := query_spec hwf1 p
  have heq : M1 = M := by
    refine eq_of_pairwise_lex hs1 hs ?_
    intro s
    rw [hm, hm1, h]
  subst heq
  refine ⟨max N N1, ?_⟩
  intro fuel hf
  obtain ⟨a1, a2, a3⟩ := hN fuel (le_trans (le_max_left _ _) hf)
  obtain ⟨b1, b2, b3⟩ := hN1 fuel (le_trans (le_max_right _ _) hf)
  refine ⟨M1, a1, b1, fun out => ⟨a2 out, b2 out⟩, ?_⟩
  intro ms out limit
  rw [a3 ms out limit, b3 ms out limit]
  have hnil : ∀ tt : dict_trie, (M1 ≠ [] → reachesReserve tt p = true) →
      ¬ (reachesReserve tt p = true ∧ ms < limit) → ms < limit →
      takeLimit limit out M1 = out := by
    intro tt hr hn hlt
    have hM : M1 = [] := by
      by_contra hne
      exact hn ⟨hr hne, hlt⟩
    rw [hM]
    simp [takeLimit]
  by_cases hl : limit = 0
  · exact ⟨out, Except.ok (), Except.ok (), by simp [hl], by simp [hl],
      fun _ => ⟨rfl, rfl⟩, fun _ _ => rfl⟩
  · by_cases hlt : ms < limit
    · by_cases c : reachesReserve t p = true
      · by_cases c1 : reachesReserve t1 p = true
        · exact ⟨out, Except.error "std::length_error", Except.error "std::length_error",
            by simp [hl, hlt, c], by simp [hl, hlt, c1], fun hle => absurd hlt (by omega),
            fun _ hr => hr⟩
        · refine ⟨out, Except.error "std::length_error", Except.ok (),
            by simp [hl, hlt, c], ?_, fun hle => absurd hlt (by omega),
            fun hmono _ => absurd (hmono c) c1⟩
          have := hnil t1 hreach1 (fun hh => c1 hh.1) hlt
          simp [hl, hlt, c1, this]
      · by_cases c1 : reachesReserve t1 p = true
        · refine ⟨out, Except.ok (), Except.error "std::length_error",
            ?_, by simp [hl, hlt, c1], fun hle => absurd hlt (by omega), fun _ _ => rfl⟩
          have := hnil t hreach (fun hh => c hh.1) hlt
          simp [hl, hlt, c, this]
        · exact ⟨takeLimit limit out M1, Except.ok (), Except.ok (),
            by simp [hl, hlt, c], by simp [hl, hlt, c1], fun _ => ⟨rfl, rfl⟩, fun _ _ => rfl⟩
    · exact ⟨takeLimit limit out M1, Except.ok (), Except.ok (),
        by simp [hl, hlt], by simp [hl, hlt], fun _ => ⟨rfl, rfl⟩, fun _ _ => rfl⟩

/-- In a well-formed node `firstChild` is set exactly when a slot is
occupied. -/
theorem firstChild_isSome_iff {n : node} (h : WF n) :
    n.firstChild.isSome = true ↔ ∃ i, (n.children.getD i none).isSome = true := by
  cases h with
  | mk l hlen hsym hlink hsorted hmem hrec =>
    cases hf : n.firstChild with
    | none =>
      rw [hf] at hlink
      have hl := hlink.of_none
      subst hl
      constructor
      · intro h
        cases h
      · rintro ⟨i, hi⟩
        exact absurd ((hmem i).mpr hi) (List.not_mem_nil i)
    | some f =>
      rw [hf] at hlink
      obtain ⟨c, l2, hl, hc, -⟩ := hlink.of_some
      refine ⟨fun _ => ⟨f, ?_⟩, fun _ => rfl⟩
      rw [hc]
      rfl

/-- The limited `auto_complete` reaches `out.reserve(limit)` exactly when the
trie has a node one symbol below the prefix. -/
theorem reachesReserve_iff {t : dict_trie} (hwf : WF t.root) (p : List Nat) :
    reachesReserve t p = true ↔ ∃ c, (walk t.root (p ++ [c])).isSome = true := by
  unfold reachesReserve
  cases hw : walk t.root p with
  | none =>
    constructor
    · intro h
      cases h
    · rintro ⟨c, hc⟩
      rw [walk_append, hw] at hc
      cases hc
  | some m =>
    have hm := hwf.walk p m hw
    show m.firstChild.isSome = true ↔ _
    rw [firstChild_isSome_iff hm]
    constructor
    · rintro ⟨i, hi⟩
      cases hc : m.children.getD i none with
      | none =>
        rw [hc] at hi
        cases hi
      | some ch =>
        obtain ⟨-, -, hlt⟩ := hm.child hc
        have hv : is_valid_character (i + 32) = true :=
          (is_valid_character_iff _).mpr ⟨by omega, by omega⟩
        refine ⟨i + 32, ?_⟩
        rw [walk_append, hw]
        show (walk m [i + 32]).isSome = true
        rw [walk_cons_valid hv, Nat.add_sub_cancel, hc]
        rfl
    · rintro ⟨c, hc⟩
      rw [walk_append, hw] at hc
      have hc : (walk m [c]).isSome = true := hc
      cases hv : is_valid_character c with
      | false =>
        rw [walk_cons_invalid hv] at hc
        cases hc
      | true =>
        rw [walk_cons_valid hv] at hc
        refine ⟨c - 32, ?_⟩
        cases hch : m.children.getD (c - 32) none with
        | none =>
          rw [hch] at hc
          cases hc
        | some ch => rfl

/-- A node set that grows keeps the limited `auto_complete` on its way to
`out.reserve(limit)`. -/
theorem reachesReserve_mono {t t1 : dict_trie} (hwf : WF t.root) (hwf1 : WF t1.root)
    (h : ∀ s, (walk t.root s).isSome = true → (walk t1.root s).isSome = true) (p : List Nat) :
    reachesReserve t p = true → reachesReserve t1 p = true := by
  rw [reachesReserve_iff hwf, reachesReserve_iff hwf1]
  rintro ⟨c, hc⟩
  exact ⟨c, h _ hc⟩

end dict_trie

namespace trie

/-! ## The dense coding -/

theorem out_of_range_iff (c : Nat) : out_of_range c = false ↔ 32 ≤ c ∧ c ≤ 126 := by
  have h0 : internal.characterSet.getD 0 0 = 32 := by decide
  have h1 : internal.characterSet.getD (internal.characterSet.length - 1) 0 = 126 := by decide
  simp only [out_of_range, h0, h1]
  simp

theorem character_to_index_of_valid {c : Nat} (h : out_of_range c = false) :
    character_to_index c = c - 32 := by
  rw [out_of_range_iff] at h
  exact dict_trie.characterSetMap_table c (by omega) h.1

theorem child_getD_set_self {ch : List (Option trie)} {i : Nat} (h : i < ch.length)
    (x : Option trie) : (ch.set i x).getD i none = x := by
  simp [List.getD_eq_getElem?_getD, List.getElem?_set, h]

theorem child_getD_set_ne {ch : List (Option trie)} {i j : Nat} (h : i ≠ j)
    (x : Option trie) : (ch.set i x).getD j none = ch.getD j none := by
  simp [List.getD_eq_getElem?_getD, List.getElem?_set, h]

theorem WF.of_new : WF new := by
  refine WF.mk rfl ?_
  intro i c h
  simp only [trie.new, List.getD_eq_getElem?_getD, List.getElem?_replicate] at h
  split at h <;> cases h

theorem WF.set {n : trie} (hwf : WF n) {i : Nat} {c : trie} (hc : WF c) :
    WF { n with child := n.child.set i (some c) } := by
  cases hwf with
  | mk hlen hrec =>
    refine WF.mk (by simpa using hlen) ?_
    intro j x hx
    by_cases hj : i = j
    · subst hj
      by_cases hi : i < n.child.length
      · have : (n.child.set i (some c)).getD i none = some c := child_getD_set_self hi _
        have hx2 : (n.child.set i (some c)).getD i none = some x := hx
        rw [this] at hx2
        cases hx2
        exact hc
      · have hx2 : (n.child.set i (some c)).getD i none = some x := hx
        rw [List.set_eq_of_length_le (Nat.le_of_not_lt hi)] at hx2
        exact hrec i x hx2
    · have hx2 : (n.child.set i (some c)).getD j none = some x := hx
      rw [child_getD_set_ne hj] at hx2
      exact hrec j x hx2

/-- One call of `trie::insert` on a well-formed node returns, and throws
exactly on a string with a symbol outside `' ' .. '~'`. -/
theorem insert_returns : ∀ (key : List Nat) (n : trie), WF n →
    ∃ n1 r, insert n key = some (n1, r) ∧ WF n1 ∧
      (succeeded r = true ↔ ∀ c ∈ key, out_of_range c = false) := by
  intro key
  induction key with
  | nil =>
    intro n hwf
    refine ⟨{ n with isStringEnd := true }, Except.ok (), rfl, ?_, by simp [succeeded]⟩
    cases hwf with
    | mk hlen hrec => exact WF.mk hlen hrec
  | cons c rest ih =>
    intro n hwf
    cases hv : out_of_range c with
    | true =>
      refine ⟨n, Except.error "Invalid character in string", ?_, hwf, ?_⟩
      · simp [insert, hv]
      · simp [succeeded, hv]
    | false =>
      have hrange := (out_of_range_iff c).mp hv
      have hlen : n.child.length = 95 := by
        cases hwf with
        | mk hlen _ => rw [hlen, dict_trie.characterSet_length]
      have hidx : c - 32 < n.child.length := by omega
      have hstep : ∀ (n0 : trie) (next : trie), WF n0 → n0.child.length = 95 →
          n0.child.getD (c - 32) none = some next →
          ∃ n1 r, (match n0.child.getD (c - 32) none with
              | none => none
              | some next =>
                match insert next rest with
                | none => none
                | some (next1, r) =>
                  some ({ n0 with child := n0.child.set (c - 32) (some next1) }, r)) =
                some (n1, r) ∧ WF n1 ∧
              (succeeded r = true ↔ ∀ c ∈ rest, out_of_range c = false) := by
        intro n0 next hwf0 _ hnext
        have hwfn : WF next := by
          cases hwf0 with
          | mk _ hrec => exact hrec _ _ hnext
        obtain ⟨next1, r, hrun, hwf1, hok⟩ := ih next hwfn
        refine ⟨{ n0 with child := n0.child.set (c - 32) (some next1) }, r, ?_,
          hwf0.set hwf1, hok⟩
        rw [hnext]
        simp only [hrun]
      have hunfold : insert n (c :: rest) =
          (match (match n.child.getD (c - 32) none with
              | none => ({ n with child := n.child.set (c - 32) (some new) } : trie)
              | some _ => n).child.getD (c - 32) none with
            | none => none
            | some next =>
              match insert next rest with
              | none => none
              | some (next1, r) =>
                some ({ (match n.child.getD (c - 32) none with
                    | none => ({ n with child := n.child.set (c - 32) (some new) } : trie)
                    | some _ => n) with
                  child := (match n.child.getD (c - 32) none with
                    | none => ({ n with child := n.child.set (c - 32) (some new) } : trie)
                    | some _ => n).child.set (c - 32) (some next1) }, r)) := by
        simp only [insert, hv, character_to_index_of_valid hv, hidx]
        rfl
      rw [hunfold]
      cases hold : n.child.getD (c - 32) none with
      | some next =>
        obtain ⟨n1, r, h1, h2, h3⟩ := hstep n next hwf hlen hold
        refine ⟨n1, r, h1, h2, ?_⟩
        rw [h3]
        simp [hv]
      | none =>
        have hwf0 : WF ({ n with child := n.child.set (c - 32) (some new) } : trie) :=
          hwf.set WF.of_new
        obtain ⟨n1, r, h1, h2, h3⟩ := hstep _ new hwf0 (by simpa using hlen)
          (child_getD_set_self hidx _)
        refine ⟨n1, r, h1, h2, ?_⟩
        rw [h3]
        simp [hv]

theorem insertAll_returns : ∀ (keys : List (List Nat)) (t : trie), WF t →
    ∃ t1 ok, insertAll t keys = some (t1, ok) ∧ WF t1 := by
  intro keys
  induction keys with
  | nil =>
    intro t hwf
    exact ⟨t, [], rfl, hwf⟩
  | cons key rest ih =>
    intro t hwf
    obtain ⟨t1, r, hrun, hwf1, -⟩ := insert_returns key t hwf
    obtain ⟨t2, ok, hrun2, hwf2⟩ := ih t1 hwf1
    cases r with
    | ok u => exact ⟨t2, key :: ok, by simp only [insertAll, hrun, hrun2, Option.map], hwf2⟩
    | error e => exact ⟨t2, ok, by simp only [insertAll, hrun, hrun2], hwf2⟩

end trie

end spl

namespace spl

namespace dict_trie

/-! ## The claims -/

theorem valid_iff_range (c : Nat) :
    is_valid_character c = true ↔ ' '.toNat ≤ c ∧ c ≤ '~'.toNat := by
  simp [is_valid_character, internal.ascii_min, internal.ascii_max]

theorem exists_invalid_iff (key : List Nat) :
    (∃ c ∈ key, ¬ (' '.toNat ≤ c ∧ c ≤ '~'.toNat)) ↔
      ¬ ∀ c ∈ key, is_valid_character c = true := by
  simp only [valid_iff_range]
  push_neg
  rfl

/-- C1: after any sequence of `insert` calls on an empty trie, `contains(s)`
returns true exactly for the keys `s` whose `insert` call returned normally. -/
theorem contains_iff_inserted (keys : List (List Nat)) :
    ∃ t ok, insertAll empty keys = some (t, ok) ∧ ∀ s, contains t s = true ↔ s ∈ ok := by
  obtain ⟨t, ok, hrun, -, -, hc⟩ := insertAll_empty keys
  exact ⟨t, ok, hrun, hc⟩

/-- C2, as the code has it: after any sequence of `insert` calls,
`each(p, visit)` calls `visit` exactly once for every successfully inserted
key that starts with `p` and is longer than `p`, and for no other string;
`auto_complete(p, out)` on an empty `out` collects the same strings. -/
theorem each_prefixed_reports_proper_extensions (keys : List (List Nat)) (p : List Nat) :
    ∃ t ok M, insertAll empty keys = some (t, ok) ∧ M.Nodup ∧
      (∀ s, s ∈ M ↔ s ∈ ok ∧ p <+: s ∧ s ≠ p) ∧
      ∃ N, ∀ fuel, N ≤ fuel →
        each_prefixed fuel t p = some M ∧ auto_complete fuel t p [] = some M := by
  obtain ⟨t, ok, hrun, hwf, -, hc⟩ := insertAll_empty keys
  obtain ⟨M, hs, hm, -, N, hN⟩ := query_spec hwf p
  refine ⟨t, ok, M, hrun, nodup_of_pairwise_lex hs, ?_, N, ?_⟩
  · intro s
    rw [hm, hc]
    tauto
  · intro fuel hf
    obtain ⟨h1, h2, -⟩ := hN fuel hf
    exact ⟨h1, by simpa using h2 []⟩

/-- C2, as stated, fails: after `insert("car")` and `insert("card")` both
`each("car", visit)` and `auto_complete("car", out)` report `"card"` only,
not the inserted key `"car"`, which starts with the prefix `"car"`. -/
theorem each_prefixed_skips_equal_key :
    (insertAll empty [[99, 97, 114], [99, 97, 114, 100]]).map
        (fun r => (r.2, each_prefixed 8 r.1 [99, 97, 114],
          auto_complete 8 r.1 [99, 97, 114] [])) =
      some ([[99, 97, 114], [99, 97, 114, 100]], some [[99, 97, 114, 100]],
        some [[99, 97, 114, 100]]) ∧
    [99, 97, 114] <+: [99, 97, 114] := by
  decide

/-- C3: after any sequence of `insert` calls, the strings reported by
`each(visit)`, `each(p, visit)`, `auto_complete(p, out)` and
`auto_complete(p, out, limit)` (on an empty `out`) come in strictly
increasing lexicographic order, hence without duplicates.  The limited call
returns or throws `std::length_error` at `out.reserve(limit)`; what it leaves
in `out` is an initial part of the list of the unlimited call, nothing when
it throws, and the first `limit` strings when `limit` is within `max_size`. -/
theorem traversals_strictly_ascending (keys : List (List Nat)) (p : List Nat) (limit : Nat) :
    ∃ t ok, insertAll empty keys = some (t, ok) ∧
      ∃ N, ∀ fuel, N ≤ fuel → ∃ M0 M1 M2,
        each fuel t = some M0 ∧ each_prefixed fuel t p = some M1 ∧
        auto_complete fuel t p [] = some M2 ∧
        M0.Pairwise (List.Lex (· < ·)) ∧ M1.Pairwise (List.Lex (· < ·)) ∧
        M2.Pairwise (List.Lex (· < ·)) ∧ M0.Nodup ∧ M1.Nodup ∧ M2.Nodup ∧
        ∀ max_size, ∃ M3 r,
          auto_complete_limit max_size fuel t p [] limit = some (M3, r) ∧
          M3.Pairwise (List.Lex (· < ·)) ∧ M3.Nodup ∧ M3 <+: M2 ∧
          (succeeded r = false → M3 = []) ∧
          (limit ≤ max_size → r = Except.ok () ∧ M3 = M2.take limit) := by
  obtain ⟨t, ok, hrun, hwf, -, -⟩ := insertAll_empty keys
  obtain ⟨M0, hs0, -, -, N0, hN0⟩ := query_spec hwf []
  obtain ⟨M, hs, -, -, N, hN⟩ := query_spec hwf p
  refine ⟨t, ok, hrun, max N0 N, ?_⟩
  intro fuel hf
  obtain ⟨a1, -, -⟩ := hN0 fuel (le_trans (le_max_left _ _) hf)
  obtain ⟨b1, b2, b3⟩ := hN fuel (le_trans (le_max_right _ _) hf)
  refine ⟨M0, M, M, ?_, b1, by simpa using b2 [], hs0, hs, hs,
    nodup_of_pairwise_lex hs0, nodup_of_pairwise_lex hs, nodup_of_pairwise_lex hs, ?_⟩
  · rw [each_eq_each_prefixed]
    exact a1
  · intro ms
    rw [b3 ms [] limit]
    by_cases hl : limit = 0
    · refine ⟨[], Except.ok (), by simp [hl], List.Pairwise.nil, List.nodup_nil,
        List.nil_prefix, fun _ => rfl, fun _ => ⟨rfl, ?_⟩⟩
      rw [hl, List.take_zero]
    · by_cases hc : reachesReserve t p = true ∧ ms < limit
      · exact ⟨[], Except.error "std::length_error", by simp [hl, hc], List.Pairwise.nil,
          List.nodup_nil, List.nil_prefix, fun _ => rfl, fun hle => absurd hc.2 (by omega)⟩
      · have hs3 : (M.take limit).Pairwise (List.Lex (· < ·)) :=
          hs.sublist (List.take_sublist _ _)
        refine ⟨M.take limit, Except.ok (), ?_, hs3, nodup_of_pairwise_lex hs3,
          List.take_prefix _ _, ?_, fun _ => ⟨rfl, rfl⟩⟩
        · simp only [hl, hc, if_false, takeLimit_nil_out]
        · intro h
          cases h

/-- C4, as the code has it: after any sequence of `insert` calls, for a limit
`n` within `out.max_size()`, `auto_complete(p, out, n)` on an empty `out`
returns and yields the first `min(n, m)` of the `m` strings that
`auto_complete(p, out)` yields, in the same order; each of them is smaller
than every match left out.  For `n` above `max_size()` the call leaves `out`
empty: it throws `std::length_error` at `out.reserve(n)` when the node of `p`
has a child, which is so whenever there is a match, and returns otherwise.
After inserting cat, car, card, dog, `auto_complete("ca", out, 2)` gives car,
card. -/
theorem auto_complete_limit_eq_take (keys : List (List Nat)) (p : List Nat) (n : Nat) :
    (∃ t ok M, insertAll empty keys = some (t, ok) ∧
      (M ≠ [] → reachesReserve t p = true) ∧
      (∃ N, ∀ fuel, N ≤ fuel →
        auto_complete fuel t p [] = some M ∧
        ∀ max_size,
          (n ≤ max_size → auto_complete_limit max_size fuel t p [] n =
            some (M.take (min n M.length), Except.ok ())) ∧
          (max_size < n → auto_complete_limit max_size fuel t p [] n =
            some ([], if reachesReserve t p = true then Except.error "std::length_error"
              else Except.ok ()))) ∧
      (∀ x ∈ M.take (min n M.length), ∀ y ∈ M, y ∉ M.take (min n M.length) →
        List.Lex (· < ·) x y)) ∧
    (insertAll empty [[99, 97, 116], [99, 97, 114], [99, 97, 114, 100], [100, 111, 103]]).bind
        (fun r => (auto_complete_limit 288230376151711743 8 r.1 [99, 97] [] 2).map
          (fun x => (x.1, succeeded x.2))) =
      some ([[99, 97, 114], [99, 97, 114, 100]], true) := by
  refine ⟨?_, by decide⟩
  obtain ⟨t, ok, hrun, hwf, -, -⟩ := insertAll_empty keys
  obtain ⟨M, hs, -, hreach, N, hN⟩ := query_spec hwf p
  have hmin : M.take (min n M.length) = M.take n := take_min_length M n
  refine ⟨t, ok, M, hrun, hreach, ⟨N, ?_⟩, ?_⟩
  · intro fuel hf
    obtain ⟨-, h2, h3⟩ := hN fuel hf
    refine ⟨by simpa using h2 [], ?_⟩
    intro ms
    rw [h3 ms [] n]
    constructor
    · intro hle
      have hc : ¬ (reachesReserve t p = true ∧ ms < n) := fun h => absurd h.2 (by omega)
      by_cases hl : n = 0
      · simp [hl]
      · simp only [hl, hc, if_false, takeLimit_nil_out, hmin]
    · intro hlt
      have hl : n ≠ 0 := by omega
      by_cases hc : reachesReserve t p = true
      · simp [hl, hc, hlt]
      · have hM : M = [] := by
          by_contra hne
          exact hc (hreach hne)
        simp [hl, hc, hM, takeLimit]
  · rw [hmin]
    intro x hx y hy hny
    have hsplit : M = M.take n ++ M.drop n := (List.take_append_drop n M).symm
    rw [hsplit] at hs hy
    rcases List.mem_append.mp hy with h | h
    · exact absurd h hny
    · exact (List.pairwise_append.mp hs).2.2 x hx y h

/-- C4, as stated, fails for a limit above `out.max_size()`: after inserting
cat, car, card, dog, the unlimited `auto_complete("ca", out)` yields the
`m = 3` strings car, card, cat, and `auto_complete("ca", out, n)` with
`n = 2 ^ 64 - 1` (`SIZE_MAX`) throws at `out.reserve(n)` and yields none of
the `min(n, m) = 3`.  Here `max_size()` is `2 ^ 58 - 1`, its value for a
vector of 32-byte strings on a 64-bit platform. -/
theorem auto_complete_limit_throws_above_max_size :
    (insertAll empty [[99, 97, 116], [99, 97, 114], [99, 97, 114, 100], [100, 111, 103]]).map
        (fun r => (auto_complete 8 r.1 [99, 97] [],
          (auto_complete_limit 288230376151711743 8 r.1 [99, 97] [] 18446744073709551615).map
            (fun x => (x.1, succeeded x.2)))) =
      some (some [[99, 97, 114], [99, 97, 114, 100], [99, 97, 116]], some ([], false)) ∧
    min 18446744073709551615 3 = 3 := by
  decide

/-- C6, as the code has it: when `insert(key)` meets an invalid symbol it
throws and leaves `numKeys`, `maxKeyLength`, `size()` and every terminal flag
as they were, so `contains`, `each` and the unlimited `auto_complete` answer
every query as before, and `auto_complete(p, out, limit)` leaves the same
`out` as before; the nodes of the valid symbols before the invalid one are in
the trie afterwards, and no node was removed.  With `limit` within
`max_size()` the limited call returns normally before and after.  With
`limit` above it the call throws when the node of `p` has a child: a call
that returns normally afterwards did so before, and not the other way
round. -/
theorem failed_insert_keeps_answers (keys : List (List Nat)) (key : List Nat)
    (hbad : ∃ c ∈ key, ¬ (' '.toNat ≤ c ∧ c ≤ '~'.toNat)) :
    ∃ t ok t1 e, insertAll empty keys = some (t, ok) ∧
      insert t key = some (t1, Except.error e) ∧
      t1.numKeys = t.numKeys ∧ t1.maxKeyLength = t.maxKeyLength ∧ size t1 = size t ∧
      (∀ s, contains t1 s = contains t s) ∧
      (∀ s m1, walk t1.root s = some m1 → m1.isStringEnd = contains t s) ∧
      (∀ p, ∃ N, ∀ fuel, N ≤ fuel → ∃ M,
        each_prefixed fuel t p = some M ∧ each_prefixed fuel t1 p = some M ∧
        (∀ out, auto_complete fuel t p out = some (out ++ M) ∧
          auto_complete fuel t1 p out = some (out ++ M)) ∧
        (∀ max_size out limit, ∃ R r r1,
          auto_complete_limit max_size fuel t p out limit = some (R, r) ∧
          auto_complete_limit max_size fuel t1 p out limit = some (R, r1) ∧
          (limit ≤ max_size → r = Except.ok () ∧ r1 = Except.ok ()) ∧
          (succeeded r1 = true → succeeded r = true))) ∧
      (∃ N, ∀ fuel, N ≤ fuel → ∃ M, each fuel t = some M ∧ each fuel t1 = some M) ∧
      (∀ s, (walk t.root s).isSome = true → (walk t1.root s).isSome = true) ∧
      (∀ q, q <+: key → (∀ x ∈ q, ' '.toNat ≤ x ∧ x ≤ '~'.toNat) →
        (walk t1.root q).isSome = true) := by
  obtain ⟨t, ok, hrun, hwf, -, -⟩ := insertAll_empty keys
  obtain ⟨t1, r, hins, hwf1, hok, hcont, hfail, -, hmono, hpath⟩ := insert_spec hwf key
  have hr : succeeded r = false := by
    rw [succeeded_false_iff, hok]
    exact (exists_invalid_iff key).mp hbad
  have hsame : ∀ s, contains t1 s = contains t s := by
    intro s
    rw [hcont, hr]
    simp
  cases r with
  | ok u => cases hr
  | error e =>
    obtain ⟨hk, hm⟩ := hfail hr
    refine ⟨t, ok, t1, e, hrun, hins, hk, hm, hk, hsame, ?_, ?_, ?_, hmono, ?_⟩
    · intro s m1 hw
      rw [← hsame s]
      simp only [contains, hw]
    · intro p
      obtain ⟨N, hN⟩ := query_congr hwf hwf1 hsame p
      refine ⟨N, ?_⟩
      intro fuel hf
      obtain ⟨M, h1, h2, h3, h4⟩ := hN fuel hf
      refine ⟨M, h1, h2, h3, ?_⟩
      intro ms out limit
      obtain ⟨R, r, r1, e1, e2, e3, e4⟩ := h4 ms out limit
      exact ⟨R, r, r1, e1, e2, e3, e4 (reachesReserve_mono hwf hwf1 hmono p)⟩
    · obtain ⟨N, hN⟩ := query_congr hwf hwf1 hsame []
      refine ⟨N, ?_⟩
      intro fuel hf
      obtain ⟨M, h1, h2, -⟩ := hN fuel hf
      exact ⟨M, h1, h2⟩
    · intro q hq hv
      exact hpath q hq (fun x hx => (valid_iff_range x).mpr (hv x hx))

/-- C6 at `insert("cat")` followed by the failing `insert("c\x01z")`. -/
theorem failed_insert_keeps_answers_witness :
    (∃ c ∈ [99, 1, 122], ¬ (' '.toNat ≤ c ∧ c ≤ '~'.toNat)) ∧
    ∃ t ok t1 e, insertAll empty [[99, 97, 116]] = some (t, ok) ∧
      insert t [99, 1, 122] = some (t1, Except.error e) ∧
      t1.numKeys = t.numKeys ∧ t1.maxKeyLength = t.maxKeyLength ∧ size t1 = size t ∧
      (∀ s, contains t1 s = contains t s) ∧
      (∀ q, q <+: [99, 1, 122] → (∀ x ∈ q, ' '.toNat ≤ x ∧ x ≤ '~'.toNat) →
        (walk t1.root q).isSome = true) := by
  have hbad : ∃ c ∈ [99, 1, 122], ¬ (' '.toNat ≤ c ∧ c ≤ '~'.toNat) :=
    ⟨1, by decide, by decide⟩
  obtain ⟨t, ok, t1, e, h1, h2, h3, h4, h5, h6, -, -, -, -, h7⟩ :=
    failed_insert_keeps_answers [[99, 97, 116]] [99, 1, 122] hbad
  exact ⟨hbad, t, ok, t1, e, h1, h2, h3, h4, h5, h6, h7⟩

/-- C6, as stated, fails for the limited `auto_complete` with a limit above
`out.max_size()`: after `insert("cat")` the call
`auto_complete("cat", out, n)` with `n = 2 ^ 64 - 1` returns normally, the
node of `"cat"` having no child; the failing `insert("catz\x01")` leaves the
node of `"catz"` in the trie, and the same call then throws at
`out.reserve(n)`.  Here `max_size()` is `2 ^ 58 - 1`. -/
theorem failed_insert_makes_limited_call_throw :
    (insertAll empty [[99, 97, 116]]).bind (fun r =>
        (auto_complete_limit 288230376151711743 8 r.1 [99, 97, 116] []
          18446744073709551615).map (fun x => (x.1, succeeded x.2))) =
      some ([], true) ∧
    (insertAll empty [[99, 97, 116]]).bind (fun r =>
        (insert r.1 [99, 97, 116, 122, 1]).map (fun r1 => succeeded r1.2)) = some false ∧
    (insertAll empty [[99, 97, 116]]).bind (fun r =>
        (insert r.1 [99, 97, 116, 122, 1]).bind (fun r1 =>
          (auto_complete_limit 288230376151711743 8 r1.1 [99, 97, 116] []
            18446744073709551615).map (fun x => (x.1, succeeded x.2)))) =
      some ([], false) ∧
    (∃ c ∈ [99, 97, 116, 122, 1], ¬ (' '.toNat ≤ c ∧ c ≤ '~'.toNat)) :=
  ⟨by decide, by decide, by decide, 1, by decide, by decide⟩

/-- C7: after any sequence of `insert` calls, `contains(s)` returns false for
every string `s` that has a symbol outside `' ' .. '~'`. -/
theorem contains_false_of_invalid_symbol (keys : List (List Nat)) (s : List Nat)
    (hbad : ∃ c ∈ s, ¬ (' '.toNat ≤ c ∧ c ≤ '~'.toNat)) :
    ∃ t ok, insertAll empty keys = some (t, ok) ∧ contains t s = false := by
  obtain ⟨t, ok, hrun, -, hf, hc⟩ := insertAll_empty keys
  refine ⟨t, ok, hrun, ?_⟩
  have hns : s ∉ ok := by
    intro h
    rw [hf] at h
    have := (List.mem_filter.mp h).2
    rw [List.all_eq_true] at this
    exact (exists_invalid_iff s).mp hbad this
  cases hcs : contains t s with
  | false => rfl
  | true => exact absurd ((hc s).mp hcs) hns

/-- C7 at `insert("cat")` and the query `contains("c\x01")`. -/
theorem contains_false_of_invalid_symbol_witness :
    (∃ c ∈ [99, 1], ¬ (' '.toNat ≤ c ∧ c ≤ '~'.toNat)) ∧
    ∃ t ok, insertAll empty [[99, 97, 116]] = some (t, ok) ∧ contains t [99, 1] = false :=
  ⟨⟨1, by decide, by decide⟩,
    contains_false_of_invalid_symbol [[99, 97, 116]] [99, 1] ⟨1, by decide, by decide⟩⟩

/-- C9, as the code has it: after any sequence of `insert` calls,
`contains("")` returns the terminal flag of the root, which is set exactly
when the empty key was inserted. -/
theorem contains_empty_key_iff (keys : List (List Nat)) :
    ∃ t ok, insertAll empty keys = some (t, ok) ∧
      contains t [] = t.root.isStringEnd ∧ (contains t [] = true ↔ [] ∈ ok) := by
  obtain ⟨t, ok, hrun, -, -, hc⟩ := insertAll_empty keys
  exact ⟨t, ok, hrun, rfl, hc []⟩

/-- C9, as stated, fails: `insert("")` succeeds and afterwards `contains("")`
returns true. -/
theorem contains_empty_key_after_insert :
    (insertAll empty [[]]).map (fun r => (r.2, contains r.1 [], r.1.root.isStringEnd)) =
      some ([[]], true, true) := by
  decide

/-- C10: after any sequence of `insert` calls, every string reported by
`each(p, visit)`, `auto_complete(p, out)` or `auto_complete(p, out, limit)`
starts with `p` and is contained in the trie.  The limited call returns or
throws `std::length_error` at `out.reserve(limit)`; either way `out` keeps
what it held and gains only matches. -/
theorem reported_keys_extend_prefix_and_are_contained (keys : List (List Nat)) (p : List Nat) :
    ∃ t ok, insertAll empty keys = some (t, ok) ∧ ∃ N, ∀ fuel, N ≤ fuel →
      ∃ M, each_prefixed fuel t p = some M ∧
        (∀ out, auto_complete fuel t p out = some (out ++ M)) ∧
        (∀ max_size out limit, ∃ R r,
          auto_complete_limit max_size fuel t p out limit = some (out ++ R, r) ∧
          (∀ k ∈ R, k ∈ M) ∧ (limit ≤ max_size → r = Except.ok ())) ∧
        ∀ k ∈ M, p <+: k ∧ contains t k = true := by
  obtain ⟨t, ok, hrun, hwf, -, -⟩ := insertAll_empty keys
  obtain ⟨M, -, hm, -, N, hN⟩ := query_spec hwf p
  refine ⟨t, ok, hrun, N, ?_⟩
  intro fuel hf
  obtain ⟨h1, h2, h3⟩ := hN fuel hf
  refine ⟨M, h1, h2, ?_, ?_⟩
  · intro ms out limit
    obtain ⟨R, r, hR, hpre, hok⟩ := limit_result_append (reachesReserve t p) ms limit out M
    exact ⟨R, r, by rw [h3 ms out limit, hR], fun k hk => hpre.subset hk, hok⟩
  · intro k hk
    obtain ⟨a, -, b⟩ := (hm k).mp hk
    exact ⟨a, b⟩

end dict_trie

/-- C5: in both codings, after any sequence of `insert` calls, `insert(key)`
returns, and it throws exactly when `key` has a symbol outside `' ' .. '~'`;
on a key of valid symbols only, the empty key included, it succeeds. -/
theorem insert_throws_iff_symbol_out_of_range (keys : List (List Nat)) (key : List Nat) :
    (∃ t ok t1 r, dict_trie.insertAll dict_trie.empty keys = some (t, ok) ∧
      dict_trie.insert t key = some (t1, r) ∧
      (succeeded r = false ↔ ∃ c ∈ key, ¬ (' '.toNat ≤ c ∧ c ≤ '~'.toNat))) ∧
    (∃ t ok t1 r, trie.insertAll trie.new keys = some (t, ok) ∧
      trie.insert t key = some (t1, r) ∧
      (succeeded r = false ↔ ∃ c ∈ key, ¬ (' '.toNat ≤ c ∧ c ≤ '~'.toNat))) := by
  constructor
  · obtain ⟨t, ok, hrun, hwf, -, -⟩ := dict_trie.insertAll_empty keys
    obtain ⟨t1, r, hins, -, hok, -⟩ := dict_trie.insert_spec hwf key
    refine ⟨t, ok, t1, r, hrun, hins, ?_⟩
    rw [dict_trie.succeeded_false_iff, hok, dict_trie.exists_invalid_iff]
  · obtain ⟨t, ok, hrun, hwf⟩ := trie.insertAll_returns keys trie.new trie.WF.of_new
    obtain ⟨t1, r, hins, -, hok⟩ := trie.insert_returns key t hwf
    refine ⟨t, ok, t1, r, hrun, hins, ?_⟩
    rw [dict_trie.succeeded_false_iff, hok]
    simp only [trie.out_of_range_iff]
    push_neg
    rfl

/-- C8 fails on the code: `trie::contains` does not test the range of a
symbol, and `characterSetMap` sends every symbol outside `' ' .. '~'` to
index 0, the slot of `' '`.  After `insert(" ")`, `contains("\x01")` returns
true. -/
theorem trie_contains_accepts_control_character :
    (trie.insertAll trie.new [[32]]).map (fun r => (r.2, trie.contains r.1 [1])) =
      some ([[32]], true) ∧
    ¬ (' '.toNat ≤ 1 ∧ 1 ≤ '~'.toNat) := by
  decide

end spl

namespace spl

namespace dict_trie

/-! ## Counters, repeated insertion, empty answers -/

theorem foldr_max_le {l : List Nat} {x : Nat} (h : x ∈ l) : x ≤ l.foldr max 0 := by
  induction l with
  | nil => cases h
  | cons a as ih =>
    rcases List.mem_cons.mp h with rfl | h
    · exact le_max_left _ _
    · exact le_trans (ih h) (le_max_right _ _)

theorem foldr_max_mem {l : List Nat} (h : l ≠ []) : l.foldr max 0 ∈ l := by
  induction l with
  | nil => exact absurd rfl h
  | cons a as ih =>
    by_cases has : as = []
    · subst has
      simp
    · rcases le_total a (as.foldr max 0) with hle | hle
      · have : (a :: as).foldr max 0 = as.foldr max 0 := max_eq_right hle
        rw [this]
        exact List.mem_cons_of_mem _ (ih has)
      · have : (a :: as).foldr max 0 = a := max_eq_left hle
        rw [this]
        exact List.mem_cons_self _ _

/-- The two counters after a sequence of calls of `insert`: `numKeys` counts
the successful calls modulo `2 ^ 64`, `maxKeyLength` is the greatest length
seen. -/
theorem insertAll_counters : ∀ (keys : List (List Nat)) (t t1 : dict_trie)
    (ok : List (List Nat)), WF t.root → insertAll t keys = some (t1, ok) →
    t1.numKeys % 2 ^ 64 = (t.numKeys + ok.length) % 2 ^ 64 ∧
      (ok ≠ [] → t1.numKeys < 2 ^ 64) ∧ (ok = [] → t1.numKeys = t.numKeys) ∧
      t1.maxKeyLength = max t.maxKeyLength ((ok.map List.length).foldr max 0) := by
  intro keys
  induction keys with
  | nil =>
    intro t t1 ok _ hrun
    simp only [insertAll, Option.some.injEq, Prod.mk.injEq] at hrun
    obtain ⟨rfl, rfl⟩ := hrun
    simp
  | cons key rest ih =>
    intro t t1 ok hwf hrun
    obtain ⟨t2, r, hins, hwf2, -, -, hfail, hsucc, -⟩ := insert_spec hwf key
    cases r with
    | ok u =>
      obtain ⟨hk, hm⟩ := hsucc rfl
      simp only [insertAll, hins] at hrun
      cases hrest : insertAll t2 rest with
      | none => simp [hrest] at hrun
      | some res =>
        obtain ⟨t3, ok3⟩ := res
        simp only [hrest, Option.map, Option.some.injEq, Prod.mk.injEq] at hrun
        obtain ⟨rfl, rfl⟩ := hrun
        obtain ⟨h1, h2, h3, h4⟩ := ih t2 t3 ok3 hwf2 hrest
        refine ⟨?_, ?_, ?_, ?_⟩
        · rw [h1, hk]
          simp only [List.length_cons]
          omega
        · intro _
          by_cases hok3 : ok3 = []
          · rw [h3 hok3, hk]
            exact Nat.mod_lt _ (by norm_num)
          · exact h2 hok3
        · intro h
          cases h
        · rw [h4, hm]
          simp only [List.map_cons, List.foldr_cons]
          rw [max_assoc]
    | error e =>
      obtain ⟨hk, hm⟩ := hfail rfl
      simp only [insertAll, hins] at hrun
      obtain ⟨h1, h2, h3, h4⟩ := ih t2 t1 ok hwf2 hrun
      rw [hk] at h1 h3
      rw [hm] at h4
      exact ⟨h1, h2, h3, h4⟩

theorem walk_none_of_invalid (p : List Nat)
    (h : ∃ c ∈ p, ¬ (' '.toNat ≤ c ∧ c ≤ '~'.toNat)) : ∀ n : node, walk n p = none := by
  induction p with
  | nil =>
    obtain ⟨c, hc, -⟩ := h
    cases hc
  | cons d ds ih =>
    intro n
    cases hv : is_valid_character d with
    | false => exact walk_cons_invalid hv n ds
    | true =>
      obtain ⟨c, hc, hbad⟩ := h
      rcases List.mem_cons.mp hc with rfl | hc
      · exact absurd ((valid_iff_range c).mp hv) hbad
      · rw [walk_cons_valid hv]
        cases n.children.getD (d - 32) none with
        | none => rfl
        | some ch => exact ih ⟨c, hc, hbad⟩ ch

set_option maxRecDepth 100000 in
theorem characterSetMap_length : internal.characterSetMap.length = 256 := by
  decide

set_option maxRecDepth 100000 in
theorem characterSet_table : ∀ i, i < 95 → internal.characterSet.getD i 0 = i + 32 := by
  decide

end dict_trie

end spl

namespace spl

namespace dict_trie

/-! ## The claims, continued -/

/-- C12: after any sequence of `insert` calls on an empty trie, `size()` is
the number of the calls that succeeded, repeated keys counted again; the
counter is a 64-bit `std::size_t`, so the number is taken modulo `2 ^ 64` and
is exact below that.  Two calls of `insert("a")` give `size() == 2`. -/
theorem size_counts_successful_inserts (keys : List (List Nat)) :
    (∃ t ok, insertAll empty keys = some (t, ok) ∧
      size t = ok.length % 2 ^ 64 ∧ (ok.length < 2 ^ 64 → size t = ok.length)) ∧
    (insertAll empty [[97], [97]]).map (fun r => (size r.1, r.2)) =
      some (2, [[97], [97]]) := by
  refine ⟨?_, by decide⟩
  obtain ⟨t, ok, hrun, -, -, -⟩ := insertAll_empty keys
  obtain ⟨h1, h2, h3, -⟩ := insertAll_counters keys empty t ok WF.empty hrun
  have hsize : size t = ok.length % 2 ^ 64 := by
    by_cases hok : ok = []
    · rw [show size t = t.numKeys from rfl, h3 hok, hok]
      rfl
    · have := h2 hok
      rw [Nat.mod_eq_of_lt this] at h1
      rw [show size t = t.numKeys from rfl, h1]
      simp [empty]
  refine ⟨t, ok, hrun, hsize, ?_⟩
  intro hlt
  rw [hsize, Nat.mod_eq_of_lt hlt]

/-- C13: in every trie, when the prefix has a symbol outside `' ' .. '~'` or
the walk along it finds no node, `each(prefix, visit)` makes no call of
`visit` and both `auto_complete` overloads leave `out` as it is; with limit 0
`auto_complete(prefix, out, 0)` leaves `out` as it is for every prefix.  Each
of these calls returns normally, whatever the fuel and whatever
`max_size()`. -/
theorem absent_prefix_gives_nothing (t : dict_trie) :
    (∀ p, ((∃ c ∈ p, ¬ (' '.toNat ≤ c ∧ c ≤ '~'.toNat)) ∨ walk t.root p = none) →
      ∀ fuel, each_prefixed fuel t p = some [] ∧
        ∀ out, auto_complete fuel t p out = some out ∧
          ∀ max_size limit,
            auto_complete_limit max_size fuel t p out limit = some (out, Except.ok ())) ∧
    (∀ max_size p fuel out,
      auto_complete_limit max_size fuel t p out 0 = some (out, Except.ok ())) := by
  constructor
  · intro p h fuel
    have hw : walk t.root p = none := by
      rcases h with h | h
      · exact walk_none_of_invalid p h t.root
      · exact h
    refine ⟨by simp only [each_prefixed, hw], ?_⟩
    intro out
    refine ⟨by simp only [auto_complete, hw], ?_⟩
    intro ms limit
    by_cases hl : limit = 0
    · simp only [auto_complete_limit, hl, if_true]
    · simp only [auto_complete_limit, hl, if_false, hw]
  · intro ms p fuel out
    simp only [auto_complete_limit, if_true]

/-- C13 after `insert("cat")`: the prefix `"c\x01"` meets the invalid symbol
below the node of `"c"`, the prefix `"\x01c"` starts with it, the prefix
`"d"` has no node, and the prefix `"ca"` has matches but is asked with limit
0; the limits are 5, `2 ^ 64 - 1` and 0, and `max_size()` is `2 ^ 58 - 1`. -/
theorem absent_prefix_gives_nothing_witness :
    ∃ t ok, insertAll empty [[99, 97, 116]] = some (t, ok) ∧
      ((∃ c ∈ [99, 1], ¬ (' '.toNat ≤ c ∧ c ≤ '~'.toNat)) ∨ walk t.root [99, 1] = none) ∧
      ((∃ c ∈ [1, 99], ¬ (' '.toNat ≤ c ∧ c ≤ '~'.toNat)) ∨ walk t.root [1, 99] = none) ∧
      ((∃ c ∈ [100], ¬ (' '.toNat ≤ c ∧ c ≤ '~'.toNat)) ∨ walk t.root [100] = none) ∧
      each_prefixed 0 t [99, 1] = some [] ∧
      each_prefixed 0 t [1, 99] = some [] ∧
      auto_complete 0 t [100] [[120]] = some [[120]] ∧
      auto_complete_limit 288230376151711743 0 t [100] [[120]] 5 =
        some ([[120]], Except.ok ()) ∧
      auto_complete_limit 288230376151711743 0 t [99, 1] [[120]] 18446744073709551615 =
        some ([[120]], Except.ok ()) ∧
      auto_complete_limit 288230376151711743 0 t [99, 97] [[120]] 0 =
        some ([[120]], Except.ok ()) := by
  obtain ⟨t, ok, hrun, -⟩ := insertAll_empty [[99, 97, 116]]
  have hnone : walk t.root [100] = none := by
    have hd : (insertAll empty [[99, 97, 116]]).map (fun r => (walk r.1.root [100]).isNone) =
        some true := by decide
    rw [hrun] at hd
    exact Option.isNone_iff_eq_none.mp (Option.some.inj hd)
  have h0 : (∃ c ∈ [99, 1], ¬ (' '.toNat ≤ c ∧ c ≤ '~'.toNat)) ∨
      walk t.root [99, 1] = none := Or.inl ⟨1, by decide, by decide⟩
  have h1 : (∃ c ∈ [1, 99], ¬ (' '.toNat ≤ c ∧ c ≤ '~'.toNat)) ∨
      walk t.root [1, 99] = none := Or.inl ⟨1, by decide, by decide⟩
  have h2 : (∃ c ∈ [100], ¬ (' '.toNat ≤ c ∧ c ≤ '~'.toNat)) ∨
      walk t.root [100] = none := Or.inr hnone
  obtain ⟨h, hz⟩ := absent_prefix_gives_nothing t
  exact ⟨t, ok, hrun, h0, h1, h2, (h [99, 1] h0 0).1, (h [1, 99] h1 0).1,
    ((h [100] h2 0).2 [[120]]).1,
    ((h [100] h2 0).2 [[120]]).2 288230376151711743 5,
    ((h [99, 1] h0 0).2 [[120]]).2 288230376151711743 18446744073709551615,
    hz 288230376151711743 [99, 97] 0 [[120]]⟩

/-- C14: `characterSet` has 95 symbols and `characterSetMap` has 256 entries;
on `' ' .. '~'` the map is `c - ' '`, lies below 95 and is inverted by
`characterSet`; `characterSet` is inverted by the map on every index below
95; and the map keeps the order of valid symbols. -/
theorem alphabet_table_is_order_isomorphism :
    internal.characterSet.length = 95 ∧ internal.characterSetMap.length = 256 ∧
    (∀ c, ' '.toNat ≤ c → c ≤ '~'.toNat →
      internal.characterSetMap.getD c 0 = c - ' '.toNat ∧
      internal.characterSetMap.getD c 0 < 95 ∧
      internal.characterSet.getD (internal.characterSetMap.getD c 0) 0 = c) ∧
    (∀ i, i < 95 →
      internal.characterSetMap.getD (internal.characterSet.getD i 0) 0 = i ∧
      ' '.toNat ≤ internal.characterSet.getD i 0 ∧
      internal.characterSet.getD i 0 ≤ '~'.toNat) ∧
    (∀ c1 c2, ' '.toNat ≤ c1 → c1 ≤ '~'.toNat → ' '.toNat ≤ c2 → c2 ≤ '~'.toNat →
      (c1 < c2 ↔ internal.characterSetMap.getD c1 0 < internal.characterSetMap.getD c2 0)) := by
  have h32 : ' '.toNat = 32 := by decide
  have h126 : '~'.toNat = 126 := by decide
  rw [h32, h126]
  refine ⟨characterSet_length, characterSetMap_length, ?_, ?_, ?_⟩
  · intro c h1 h2
    have hm := characterSetMap_table c (by omega) h1
    rw [hm]
    refine ⟨rfl, by omega, ?_⟩
    rw [characterSet_table (c - 32) (by omega)]
    omega
  · intro i hi
    rw [characterSet_table i hi, characterSetMap_table (i + 32) (by omega) (by omega)]
    omega
  · intro c1 c2 h1 h2 h3 h4
    rw [characterSetMap_table c1 (by omega) h1, characterSetMap_table c2 (by omega) h3]
    omega

/-- C16: after any sequence of `insert` calls on an empty trie,
`maxKeyLength` is the greatest length of a key whose `insert` succeeded, 0
when there is none, and no later call of `insert` lowers it. -/
theorem maxKeyLength_is_greatest_length (keys : List (List Nat)) :
    ∃ t ok, insertAll empty keys = some (t, ok) ∧
      t.maxKeyLength = (ok.map List.length).foldr max 0 ∧
      (∀ k ∈ ok, k.length ≤ t.maxKeyLength) ∧
      (ok ≠ [] → ∃ k ∈ ok, k.length = t.maxKeyLength) ∧
      (ok = [] → t.maxKeyLength = 0) ∧
      ∀ key, ∃ t1 r, insert t key = some (t1, r) ∧ t.maxKeyLength ≤ t1.maxKeyLength := by
  obtain ⟨t, ok, hrun, hwf, -, -⟩ := insertAll_empty keys
  obtain ⟨-, -, -, h4⟩ := insertAll_counters keys empty t ok WF.empty hrun
  have hmax : t.maxKeyLength = (ok.map List.length).foldr max 0 := by
    rw [h4]
    exact max_eq_right (Nat.zero_le _)
  refine ⟨t, ok, hrun, hmax, ?_, ?_, ?_, ?_⟩
  · intro k hk
    rw [hmax]
    exact foldr_max_le (List.mem_map.mpr ⟨k, hk, rfl⟩)
  · intro hne
    have hne2 : ok.map List.length ≠ [] := by simpa using hne
    obtain ⟨k, hk, hlen⟩ := List.mem_map.mp (foldr_max_mem hne2)
    exact ⟨k, hk, by rw [hlen, hmax]⟩
  · intro h
    rw [hmax, h]
    rfl
  · intro key
    obtain ⟨t1, r, hins, -, -, -, hfail, hsucc, -⟩ := insert_spec hwf key
    refine ⟨t1, r, hins, ?_⟩
    cases hr : succeeded r with
    | false => rw [(hfail hr).2]
    | true =>
      rw [(hsucc hr).2]
      exact le_max_left _ _

/-- C18: after any sequence of `insert` calls, `each(p, visit)` and
`auto_complete(p, out)` report exactly the inserted keys that start with `p`
and are longer than `p`, so never `p` itself, inserted or not; `each(visit)`
reports exactly the non-empty inserted keys, so never the empty key. -/
theorem traversal_starts_below_start_node (keys : List (List Nat)) (p : List Nat) :
    ∃ t ok M M0, insertAll empty keys = some (t, ok) ∧
      (∀ s, s ∈ M ↔ s ∈ ok ∧ p <+: s ∧ p.length < s.length) ∧ p ∉ M ∧
      (∀ s, s ∈ M0 ↔ s ∈ ok ∧ s ≠ []) ∧ [] ∉ M0 ∧
      ∃ N, ∀ fuel, N ≤ fuel →
        each_prefixed fuel t p = some M ∧ (∀ out, auto_complete fuel t p out = some (out ++ M)) ∧
        each fuel t = some M0 := by
  obtain ⟨t, ok, hrun, hwf, -, hc⟩ := insertAll_empty keys
  obtain ⟨M, -, hm, -, N, hN⟩ := query_spec hwf p
  obtain ⟨M0, -, hm0, -, N0, hN0⟩ := query_spec hwf []
  have hlen : ∀ s, p <+: s → (s ≠ p ↔ p.length < s.length) := by
    rintro s ⟨k, rfl⟩
    cases k with
    | nil => simp
    | cons a as => simp
  have hmem : ∀ s, s ∈ M ↔ s ∈ ok ∧ p <+: s ∧ p.length < s.length := by
    intro s
    rw [hm, hc]
    constructor
    · rintro ⟨a, b, c⟩
      exact ⟨c, a, (hlen s a).mp b⟩
    · rintro ⟨a, b, c⟩
      exact ⟨b, (hlen s b).mpr c, a⟩
  have hmem0 : ∀ s, s ∈ M0 ↔ s ∈ ok ∧ s ≠ [] := by
    intro s
    rw [hm0, hc]
    constructor
    · rintro ⟨-, b, c⟩
      exact ⟨c, b⟩
    · rintro ⟨a, b⟩
      exact ⟨List.nil_prefix, b, a⟩
  refine ⟨t, ok, M, M0, hrun, hmem, ?_, hmem0, ?_, max N N0, ?_⟩
  · intro h
    exact absurd ((hmem p).mp h).2.2 (Nat.lt_irrefl _)
  · intro h
    exact ((hmem0 []).mp h).2 rfl
  · intro fuel hf
    obtain ⟨a1, a2, -⟩ := hN fuel (le_trans (le_max_left _ _) hf)
    obtain ⟨b1, -, -⟩ := hN0 fuel (le_trans (le_max_right _ _) hf)
    exact ⟨a1, a2, by rw [each_eq_each_prefixed]; exact b1⟩

/-- C19, as the code has it: after any sequence of `insert` calls,
`auto_complete(p, out, limit)` appends to `out` and keeps what it held.  With
limit 0 nothing is appended, whatever `out` holds.  With a limit of 1 or
more that is within `out.max_size()`, and `m` strings in `out`: for
`m <= limit` the first `min(limit - m, number of matches)` matches are
appended, in order; for `m > limit` every match is appended.  With a limit
above `max_size()` nothing is appended: the call throws `std::length_error`
at `out.reserve(limit)` when the node of `p` has a child, which is so
whenever there is a match, and returns otherwise. -/
theorem auto_complete_limit_appends (keys : List (List Nat)) (p : List Nat)
    (out : List (List Nat)) (limit : Nat) :
    ∃ t ok M, insertAll empty keys = some (t, ok) ∧ M.Pairwise (List.Lex (· < ·)) ∧
      (M ≠ [] → reachesReserve t p = true) ∧
      ∃ N, ∀ fuel, N ≤ fuel →
        auto_complete fuel t p [] = some M ∧
        ∀ max_size,
          (limit = 0 →
            auto_complete_limit max_size fuel t p out limit = some (out, Except.ok ())) ∧
          (1 ≤ limit → limit ≤ max_size →
            auto_complete_limit max_size fuel t p out limit =
              some (out ++ (if out.length ≤ limit then
                M.take (min (limit - out.length) M.length) else M), Except.ok ())) ∧
          (max_size < limit →
            auto_complete_limit max_size fuel t p out limit =
              some (out, if reachesReserve t p = true then Except.error "std::length_error"
                else Except.ok ())) := by
  obtain ⟨t, ok, hrun, hwf, -, -⟩ := insertAll_empty keys
  obtain ⟨M, hs, -, hreach, N, hN⟩ := query_spec hwf p
  refine ⟨t, ok, M, hrun, hs, hreach, N, ?_⟩
  intro fuel hf
  obtain ⟨-, h2, h3⟩ := hN fuel hf
  refine ⟨by simpa using h2 [], ?_⟩
  intro ms
  rw [h3 ms out limit]
  refine ⟨?_, ?_, ?_⟩
  · intro hl
    simp [hl]
  · intro h1 hle
    have hl : limit ≠ 0 := by omega
    have hc : ¬ (reachesReserve t p = true ∧ ms < limit) := fun h => absurd h.2 (by omega)
    simp only [hl, hc, if_false, takeLimit, take_min_length]
  · intro hlt
    have hl : limit ≠ 0 := by omega
    by_cases hc : reachesReserve t p = true
    · simp [hl, hc, hlt]
    · have hM : M = [] := by
        by_contra hne
        exact hc (hreach hne)
      simp [hl, hc, hM, takeLimit]

/-- C19, as stated, fails in two places.  With limit 0: after `insert("a")`,
with `out = ["x"]` (one string, more than the limit 0),
`auto_complete("", out, 0)` leaves `out` as it is, while the unlimited
`auto_complete("", out)` appends the match `"a"`.  With a limit above
`out.max_size()`: on the same trie and an empty `out` (`m = 0`),
`auto_complete("", out, n)` with `n = 2 ^ 64 - 1` throws at `out.reserve(n)`
and appends none of the `min(n - 0, 1) = 1` strings.  Here `max_size()` is
`2 ^ 58 - 1`. -/
theorem auto_complete_limit_appends_less_than_stated :
    (insertAll empty [[97]]).bind (fun r =>
        (auto_complete_limit 288230376151711743 8 r.1 [] [[120]] 0).map
          (fun x => (x.1, succeeded x.2))) = some ([[120]], true) ∧
    (insertAll empty [[97]]).bind (fun r => auto_complete 8 r.1 [] [[120]]) =
      some [[120], [97]] ∧
    [[120]].length > 0 ∧
    (insertAll empty [[97]]).bind (fun r =>
        (auto_complete_limit 288230376151711743 8 r.1 [] [] 18446744073709551615).map
          (fun x => (x.1, succeeded x.2))) = some ([], false) ∧
    (insertAll empty [[97]]).bind (fun r => auto_complete 8 r.1 [] []) = some [[97]] ∧
    min (18446744073709551615 - 0) 1 = 1 := by
  decide

end dict_trie

end spl

namespace spl

namespace dict_trie

/-! ## The sibling lists of every node -/

theorem WF.inTree {root : node} (h : WF root) {P : node} (hP : InTree root P) : WF P := by
  induction hP with
  | root => exact h
  | child _ hc ih => exact (ih.child hc).1

theorem siblingSymbols_eq {ch : List (Option node)} {l : List Nat}
    (h : ∀ i ∈ l, ∃ c, ch.getD i none = some c ∧ c.symbol = i + 32) :
    siblingSymbols ch l = l.map (· + 32) := by
  unfold siblingSymbols
  refine List.map_congr_left ?_
  intro i hi
  obtain ⟨c, hc, hs⟩ := h i hi
  rw [hc]
  exact hs

/-- C15: after any sequence of `insert` calls, successful or not, at every
node `P` of the tree the list that starts at `P.firstChild` and follows
`next` ends at the null pointer after finitely many nodes, visits every
occupied slot of `P.children` and no other, each once, and the symbols of
the nodes it visits are strictly ascending. -/
theorem sibling_list_threads_children (keys : List (List Nat)) :
    ∃ t ok, insertAll empty keys = some (t, ok) ∧
      ∀ P, InTree t.root P → ∃ l : List Nat,
        Linked P.children P.firstChild l ∧ l.Nodup ∧
        (∀ i, i ∈ l ↔ (P.children.getD i none).isSome = true) ∧
        (siblingSymbols P.children l).Pairwise (· < ·) := by
  obtain ⟨t, ok, hrun, hwf, -, -⟩ := insertAll_empty keys
  refine ⟨t, ok, hrun, ?_⟩
  intro P hP
  have hwfP : WF P := hwf.inTree hP
  have hwfP2 := hwfP
  cases hwfP with
  | mk l hlen hsym hlink hsorted hmem hrec =>
    refine ⟨l, hlink, hsorted.imp (fun h => Nat.ne_of_lt h), hmem, ?_⟩
    have hs : siblingSymbols P.children l = l.map (· + 32) := by
      refine siblingSymbols_eq ?_
      intro i hi
      have := (hmem i).mp hi
      cases hc : P.children.getD i none with
      | none =>
        rw [hc] at this
        cases this
      | some c => exact ⟨c, rfl, (hwfP2.child hc).2.1⟩
    rw [hs]
    exact (List.pairwise_map).mpr (hsorted.imp (fun h => Nat.add_lt_add_right h 32))

end dict_trie

end spl

namespace spl

namespace dict_trie

/-! ## The tree is determined by what it holds -/

theorem Linked.agree {ch1 ch2 : List (Option node)} {cur1 : Option Nat} {l : List Nat}
    (h1 : Linked ch1 cur1 l) : ∀ {cur2 : Option Nat}, Linked ch2 cur2 l →
    cur1 = cur2 ∧ ∀ i ∈ l, ∀ c1 c2, ch1.getD i none = some c1 → ch2.getD i none = some c2 →
      c1.next = c2.next := by
  induction h1 with
  | nil =>
    intro cur2 h2
    exact ⟨h2.of_nil.symm, fun i hi => by cases hi⟩
  | @cons i c l hc hl ih =>
    intro cur2 h2
    obtain ⟨hcur, c2, hc2, hl2⟩ := h2.of_cons
    obtain ⟨hnext, hrest⟩ := ih hl2
    refine ⟨hcur.symm, ?_⟩
    intro j hj a b ha hb
    by_cases hji : j = i
    · subst hji
      rw [hc] at ha
      rw [hc2] at hb
      cases ha
      cases hb
      exact hnext
    · rcases List.mem_cons.mp hj with h | h
      · exact absurd h hji
      · exact hrest j h a b ha hb

/-- Two ascending lists of slots with the same elements are equal. -/
theorem eq_of_sorted_lt {l1 l2 : List Nat} (h1 : l1.Pairwise (· < ·))
    (h2 : l2.Pairwise (· < ·)) (h : ∀ i, i ∈ l1 ↔ i ∈ l2) : l1 = l2 := by
  have hp : l1.Perm l2 :=
    (List.perm_ext_iff_of_nodup (h1.imp (fun h => Nat.ne_of_lt h))
      (h2.imp (fun h => Nat.ne_of_lt h))).mpr h
  exact List.eq_of_perm_of_sorted hp h1 h2

theorem getD_eq_none_of_le {ch : List (Option node)} {i : Nat} (h : ch.length ≤ i) :
    ch.getD i none = none := by
  simp [List.getD_eq_getElem?_getD, List.getElem?_eq_none h]

theorem getD_of_lt {ch : List (Option node)} {i : Nat} (h : i < ch.length) :
    ch.getD i none = ch.get ⟨i, h⟩ := by
  simp [List.getD_eq_getElem?_getD, List.getElem?_eq_getElem h]

theorem list_ext_getD {ch1 ch2 : List (Option node)} (hlen : ch1.length = ch2.length)
    (h : ∀ i, ch1.getD i none = ch2.getD i none) : ch1 = ch2 := by
  refine List.ext_get hlen ?_
  intro i h1 h2
  have := h i
  rw [getD_of_lt h1, getD_of_lt h2] at this
  exact this

/-- Two well-formed nodes with the same symbol and `next` pointer, the same
terminal flags and the same nodes below them are the same node. -/
theorem WF.ext {n1 : node} (h1 : WF n1) : ∀ n2 : node, WF n2 → n1.symbol = n2.symbol →
    n1.next = n2.next → (∀ s, ends n1 s = ends n2 s) →
    (∀ s, (dict_trie.walk n1 s).isSome = (dict_trie.walk n2 s).isSome) → n1 = n2 := by
  induction h1 with
  | @mk n l hlen hsym hlink hsorted hmem hrec ih =>
    intro n2 h2 hsy hnx hends hwalk
    have hw1 : WF n := WF.mk l hlen hsym hlink hsorted hmem hrec
    have hw2 := h2
    cases h2 with
    | mk l2 hlen2 hsym2 hlink2 hsorted2 hmem2 hrec2 =>
      have hocc : ∀ i, (n.children.getD i none).isSome = (n2.children.getD i none).isSome := by
        intro i
        by_cases hi : i < 95
        · have hv : is_valid_character (i + 32) = true :=
            (is_valid_character_iff _).mpr (by omega)
          have := hwalk [i + 32]
          rw [walk_cons_valid hv, walk_cons_valid hv, Nat.add_sub_cancel] at this
          cases hc1 : n.children.getD i none with
          | none =>
            cases hc2 : n2.children.getD i none with
            | none => rfl
            | some c2 =>
              rw [hc1, hc2] at this
              exact this
          | some c1 =>
            cases hc2 : n2.children.getD i none with
            | none =>
              rw [hc1, hc2] at this
              exact this
            | some c2 => rfl
        · rw [getD_eq_none_of_le (by rw [hw1.length]; omega),
            getD_eq_none_of_le (by rw [hw2.length]; omega)]
      have hl : l = l2 := eq_of_sorted_lt hsorted hsorted2 (fun i => by rw [hmem, hmem2, hocc])
      subst hl
      obtain ⟨hfc, hnext⟩ := hlink.agree hlink2
      have hch : n.children = n2.children := by
        refine list_ext_getD (by rw [hlen, hlen2]) ?_
        intro i
        have ho := hocc i
        cases hc1 : n.children.getD i none with
        | none =>
          cases hc2 : n2.children.getD i none with
          | none => rfl
          | some c2 =>
            rw [hc1, hc2] at ho
            cases ho
        | some c1 =>
          cases hc2 : n2.children.getD i none with
          | none =>
            rw [hc1, hc2] at ho
            cases ho
          | some c2 =>
            obtain ⟨-, hs1, hi⟩ := hw1.child hc1
            obtain ⟨hwc2, hs2, -⟩ := hw2.child hc2
            have hv : is_valid_character (i + 32) = true :=
              (is_valid_character_iff _).mpr (by omega)
            have hc1' : n.children.getD (i + 32 - 32) none = some c1 := by
              rw [Nat.add_sub_cancel]
              exact hc1
            have hc2' : n2.children.getD (i + 32 - 32) none = some c2 := by
              rw [Nat.add_sub_cancel]
              exact hc2
            have hil : i ∈ l := (hmem i).mpr (by rw [hc1]; rfl)
            have : c1 = c2 := by
              refine ih i c1 hc1 c2 hwc2 (by rw [hs1, hs2]) (hnext i hil c1 c2 hc1 hc2) ?_ ?_
              · intro s
                have := hends ((i + 32) :: s)
                rw [ends_cons_some hv hc1', ends_cons_some hv hc2'] at this
                exact this
              · intro s
                have := hwalk ((i + 32) :: s)
                rw [walk_cons_some hv hc1', walk_cons_some hv hc2'] at this
                exact this
            rw [this]
      have he : n.isStringEnd = n2.isStringEnd := hends []
      cases n
      cases n2
      simp only [node.mk.injEq]
      exact ⟨hsy, he, hch, hfc, hnx⟩

end dict_trie

end spl

namespace spl

namespace dict_trie

/-! ## Which nodes an insertion adds -/

theorem takeWhile_cons_valid {c : Nat} (hv : is_valid_character c = true) (rest : List Nat) :
    (c :: rest).takeWhile is_valid_character = c :: rest.takeWhile is_valid_character := by
  simp [List.takeWhile_cons, hv]

theorem takeWhile_cons_invalid {c : Nat} (hv : is_valid_character c = false)
    (rest : List Nat) : (c :: rest).takeWhile is_valid_character = [] := by
  simp [List.takeWhile_cons, hv]

theorem takeWhile_of_valid {k : List Nat} (h : ∀ c ∈ k, is_valid_character c = true) :
    k.takeWhile is_valid_character = k := by
  induction k with
  | nil => rfl
  | cons c cs ih =>
    rw [takeWhile_cons_valid (h c (List.mem_cons_self _ _)),
      ih (fun x hx => h x (List.mem_cons_of_mem _ hx))]

/-- A node that is in the tree after `insert(key)` was there before, or lies
on the path of the valid symbols at the front of `key`. -/
theorem insertNode_walk_of : ∀ (key : List Nat) (n : node), WF n →
    ∀ (n1 : node) (r : Except String Unit), insertNode n key = some (n1, r) →
    ∀ s, (walk n1 s).isSome = true →
      (walk n s).isSome = true ∨ s <+: key.takeWhile is_valid_character := by
  intro key
  induction key with
  | nil =>
    intro n _ n1 r hrun s hs
    simp only [insertNode, Option.some.injEq, Prod.mk.injEq] at hrun
    obtain ⟨rfl, -⟩ := hrun
    left
    cases s with
    | nil => rfl
    | cons d ds =>
      have : walk { n with isStringEnd := true } (d :: ds) = walk n (d :: ds) := by
        simp only [walk, node.child]
      rw [← this]
      exact hs
  | cons c rest ih =>
    intro n hwf n1 r hrun s hs
    cases hv : is_valid_character c with
    | false =>
      simp only [insertNode, hv, Bool.not_false, if_true, Option.some.injEq,
        Prod.mk.injEq] at hrun
      obtain ⟨rfl, -⟩ := hrun
      exact Or.inl hs
    | true =>
      have hrange := (is_valid_character_iff c).mp hv
      obtain ⟨p1, child, hlinked, hwf1, -, -, -, hchild, hold, hun⟩ :=
        linked_spec hwf c (by omega : c - 32 < 95) (by omega : c = c - 32 + 32)
      rw [insertNode_cons_valid hv, hlinked] at hrun
      simp only [node.child, hchild] at hrun
      cases hrec : insertNode child rest with
      | none =>
        rw [hrec] at hrun
        cases hrun
      | some res =>
        obtain ⟨child1, r1⟩ := res
        rw [hrec] at hrun
        simp only [Option.some.injEq, Prod.mk.injEq] at hrun
        obtain ⟨rfl, -⟩ := hrun
        have hlt1 : c - 32 < p1.children.length := lt_length_of_getD hchild
        have hself : (p1.children.set (c - 32) (some child1)).getD (c - 32) none =
            some child1 := getD_set_self hlt1 _
        rw [takeWhile_cons_valid hv]
        cases s with
        | nil => exact Or.inl rfl
        | cons d ds =>
          cases hd : is_valid_character d with
          | false =>
            rw [walk_cons_invalid hd] at hs
            cases hs
          | true =>
            by_cases hdc : d = c
            · subst hdc
              rw [walk_cons_some hd (n := { p1 with children := _ }) hself] at hs
              rcases ih child (hwf1.child hchild).1 child1 r1 hrec ds hs with h | h
              · rcases hold with ho | ⟨-, hu⟩
                · left
                  rw [walk_cons_some hd ho]
                  exact h
                · right
                  cases ds with
                  | nil => exact List.cons_prefix_cons.mpr ⟨rfl, List.nil_prefix⟩
                  | cons e es =>
                    rw [walk_unlink_eq hu e es, walk_new] at h
                    cases h
              · exact Or.inr (List.cons_prefix_cons.mpr ⟨rfl, h⟩)
            · left
              have hr := (is_valid_character_iff d).mp hd
              have hj : d - 32 ≠ c - 32 := by omega
              have hmap : Option.map node.unlink
                  (({ p1 with children := p1.children.set (c - 32) (some child1) } :
                    node).children.getD (d - 32) none) =
                  Option.map node.unlink (n.children.getD (d - 32) none) := by
                show Option.map node.unlink
                  ((p1.children.set (c - 32) (some child1)).getD (d - 32) none) = _
                rw [getD_set_ne (Ne.symm hj)]
                exact hun _ hj
              rw [← (cons_of_map_unlink hd hmap ds).2]
              exact hs

theorem insert_root {t t1 : dict_trie} {key : List Nat} {r : Except String Unit}
    (h : insert t key = some (t1, r)) : insertNode t.root key = some (t1.root, r) := by
  unfold insert at h
  cases hn : insertNode t.root key with
  | none =>
    rw [hn] at h
    cases h
  | some res =>
    obtain ⟨n1, r1⟩ := res
    rw [hn] at h
    cases r1 with
    | ok u =>
      simp only [Option.some.injEq, Prod.mk.injEq] at h
      obtain ⟨rfl, rfl⟩ := h
      rfl
    | error e =>
      simp only [Option.some.injEq, Prod.mk.injEq] at h
      obtain ⟨rfl, rfl⟩ := h
      rfl

/-- The tree after one call of `insert`: the root keeps its symbol and `next`
pointer, and the nodes are the old ones and those on the path of the valid
symbols at the front of the key. -/
theorem insert_tree {t t1 : dict_trie} {key : List Nat} {r : Except String Unit}
    (hwf : WF t.root) (h : insert t key = some (t1, r)) :
    t1.root.symbol = t.root.symbol ∧ t1.root.next = t.root.next ∧
      ∀ s, (walk t1.root s).isSome = true ↔
        ((walk t.root s).isSome = true ∨ s <+: key.takeWhile is_valid_character) := by
  have hroot := insert_root h
  obtain ⟨n1, r1, hrun, -, hsym, hnext, -, -, hmono, hpath⟩ := insertNode_spec key t.root hwf
  rw [hroot] at hrun
  simp only [Option.some.injEq, Prod.mk.injEq] at hrun
  obtain ⟨rfl, rfl⟩ := hrun
  refine ⟨hsym, hnext, ?_⟩
  intro s
  constructor
  · exact insertNode_walk_of key t.root hwf _ _ hroot s
  · rintro (hs | hs)
    · exact hmono s hs
    · refine hpath s (hs.trans (List.takeWhile_prefix _)) ?_
      intro x hx
      exact List.mem_takeWhile_imp (hs.subset hx)

/-- The tree after a sequence of calls of `insert`. -/
theorem insertAll_tree : ∀ (keys : List (List Nat)) (t t1 : dict_trie)
    (ok : List (List Nat)), WF t.root → insertAll t keys = some (t1, ok) →
    t1.root.symbol = t.root.symbol ∧ t1.root.next = t.root.next ∧
      ∀ s, (walk t1.root s).isSome = true ↔
        ((walk t.root s).isSome = true ∨
          ∃ k ∈ keys, s <+: k.takeWhile is_valid_character) := by
  intro keys
  induction keys with
  | nil =>
    intro t t1 ok _ hrun
    simp only [insertAll, Option.some.injEq, Prod.mk.injEq] at hrun
    obtain ⟨rfl, -⟩ := hrun
    simp
  | cons key rest ih =>
    intro t t1 ok hwf hrun
    obtain ⟨t2, r, hins, hwf2, -⟩ := insert_spec hwf key
    obtain ⟨hs2, hn2, hw2⟩ := insert_tree hwf hins
    have hrest : ∃ ok3, insertAll t2 rest = some (t1, ok3) := by
      simp only [insertAll, hins] at hrun
      cases r with
      | ok u =>
        cases hr : insertAll t2 rest with
        | none => simp [hr] at hrun
        | some res =>
          obtain ⟨t3, ok3⟩ := res
          simp only [hr, Option.map, Option.some.injEq, Prod.mk.injEq] at hrun
          obtain ⟨rfl, -⟩ := hrun
          exact ⟨ok3, rfl⟩
      | error e => exact ⟨ok, hrun⟩
    obtain ⟨ok3, hrest⟩ := hrest
    obtain ⟨hs3, hn3, hw3⟩ := ih t2 t1 ok3 hwf2 hrest
    refine ⟨hs3.trans hs2, hn3.trans hn2, ?_⟩
    intro s
    rw [hw3, hw2]
    simp only [List.mem_cons, exists_eq_or_imp]
    tauto

end dict_trie

end spl

namespace spl

namespace dict_trie

/-! ## The order of insertion -/

theorem foldr_max_congr {l1 l2 : List Nat} (h : ∀ x, x ∈ l1 ↔ x ∈ l2) :
    l1.foldr max 0 = l2.foldr max 0 := by
  have key : ∀ {a b : List Nat}, (∀ x, x ∈ a → x ∈ b) → a.foldr max 0 ≤ b.foldr max 0 := by
    intro a b hab
    by_cases ha : a = []
    · subst ha
      exact Nat.zero_le _
    · exact foldr_max_le (hab _ (foldr_max_mem ha))
  exact le_antisymm (key (fun x hx => (h x).mp hx)) (key (fun x hx => (h x).mpr hx))

/-- Two sequences of calls of `insert` on the same well-formed trie that use
the same set of keys build the same tree and the same `maxKeyLength`; when
one sequence is a reordering of the other, the whole tries are equal. -/
theorem insertAll_same_keys {t t1 t2 : dict_trie} {ks1 ks2 ok1 ok2 : List (List Nat)}
    (hwf : WF t.root) (hset : ∀ k, k ∈ ks1 ↔ k ∈ ks2)
    (h1 : insertAll t ks1 = some (t1, ok1)) (h2 : insertAll t ks2 = some (t2, ok2)) :
    t1.root = t2.root ∧ t1.maxKeyLength = t2.maxKeyLength ∧ (ks1.Perm ks2 → t1 = t2) := by
  obtain ⟨a1, b1, ha1, hwf1, hf1, hc1⟩ := insertAll_spec ks1 t hwf
  rw [h1] at ha1
  simp only [Option.some.injEq, Prod.mk.injEq] at ha1
  obtain ⟨rfl, rfl⟩ := ha1
  obtain ⟨a2, b2, ha2, hwf2, hf2, hc2⟩ := insertAll_spec ks2 t hwf
  rw [h2] at ha2
  simp only [Option.some.injEq, Prod.mk.injEq] at ha2
  obtain ⟨rfl, rfl⟩ := ha2
  obtain ⟨hs1, hn1, hw1⟩ := insertAll_tree ks1 t t1 ok1 hwf h1
  obtain ⟨hs2, hn2, hw2⟩ := insertAll_tree ks2 t t2 ok2 hwf h2
  obtain ⟨hk1, hlt1, hnil1, hm1⟩ := insertAll_counters ks1 t t1 ok1 hwf h1
  obtain ⟨hk2, hlt2, hnil2, hm2⟩ := insertAll_counters ks2 t t2 ok2 hwf h2
  have hok : ∀ k, k ∈ ok1 ↔ k ∈ ok2 := by
    intro k
    rw [hf1, hf2, List.mem_filter, List.mem_filter, hset]
  have hroot : t1.root = t2.root := by
    refine hwf1.ext t2.root hwf2 (hs1.trans hs2.symm) (hn1.trans hn2.symm) ?_ ?_
    · intro s
      have e1 := hc1 s
      have e2 := hc2 s
      rw [contains_eq_ends, contains_eq_ends] at e1 e2
      rw [e1, e2]
      congr 1
      exact decide_eq_decide.mpr (hok s)
    · intro s
      have : (walk t1.root s).isSome = true ↔ (walk t2.root s).isSome = true := by
        rw [hw1, hw2]
        constructor
        · rintro (h | ⟨k, hk, h⟩)
          · exact Or.inl h
          · exact Or.inr ⟨k, (hset k).mp hk, h⟩
        · rintro (h | ⟨k, hk, h⟩)
          · exact Or.inl h
          · exact Or.inr ⟨k, (hset k).mpr hk, h⟩
      cases ha : (walk t1.root s).isSome <;> cases hb : (walk t2.root s).isSome <;>
        simp [ha, hb] at this ⊢
  have hmax : t1.maxKeyLength = t2.maxKeyLength := by
    rw [hm1, hm2]
    congr 1
    refine foldr_max_congr ?_
    intro x
    simp only [List.mem_map]
    constructor
    · rintro ⟨k, hk, rfl⟩
      exact ⟨k, (hok k).mp hk, rfl⟩
    · rintro ⟨k, hk, rfl⟩
      exact ⟨k, (hok k).mpr hk, rfl⟩
  refine ⟨hroot, hmax, ?_⟩
  intro hperm
  have hlen : ok1.length = ok2.length := by
    rw [hf1, hf2]
    exact (hperm.filter _).length_eq
  have hnum : t1.numKeys = t2.numKeys := by
    by_cases h : ok1 = []
    · have h' : ok2 = [] := by
        rw [h] at hlen
        exact List.length_eq_zero.mp hlen.symm
      rw [hnil1 h, hnil2 h']
    · have h' : ok2 ≠ [] := by
        intro h'
        rw [h'] at hlen
        exact h (List.length_eq_zero.mp hlen)
      have e1 := Nat.mod_eq_of_lt (hlt1 h)
      have e2 := Nat.mod_eq_of_lt (hlt2 h')
      rw [← e1, ← e2, hk1, hk2, hlen]
  cases t1
  cases t2
  simp only [dict_trie.mk.injEq]
  exact ⟨hroot, hmax, hnum⟩

/-- C20: in any trie built by `insert` calls, `insert(a)` then `insert(b)`
of two valid keys leaves the same trie as `insert(b)` then `insert(a)`: the
same node tree with its terminal flags and `firstChild` / `next` lists, the
same `numKeys` and the same `maxKeyLength`.  From the empty trie, a
reordered sequence of calls builds the same trie, and two sequences that
use the same set of keys build the same node tree. -/
theorem insertion_order_is_irrelevant (keys : List (List Nat)) (a b : List Nat)
    (ha : ∀ c ∈ a, ' '.toNat ≤ c ∧ c ≤ '~'.toNat)
    (hb : ∀ c ∈ b, ' '.toNat ≤ c ∧ c ≤ '~'.toNat) :
    (∃ t ok ta tab tb tba, insertAll empty keys = some (t, ok) ∧
      insert t a = some (ta, Except.ok ()) ∧ insert ta b = some (tab, Except.ok ()) ∧
      insert t b = some (tb, Except.ok ()) ∧ insert tb a = some (tba, Except.ok ()) ∧
      tab = tba) ∧
    (∀ ks1 ks2 : List (List Nat), ∃ t1 ok1 t2 ok2,
      insertAll empty ks1 = some (t1, ok1) ∧ insertAll empty ks2 = some (t2, ok2) ∧
      (ks1.Perm ks2 → t1 = t2) ∧
      ((∀ k, k ∈ ks1 ↔ k ∈ ks2) → t1.root = t2.root)) := by
  constructor
  · have hva : ∀ c ∈ a, is_valid_character c = true :=
      fun c hc => (valid_iff_range c).mpr (ha c hc)
    have hvb : ∀ c ∈ b, is_valid_character c = true :=
      fun c hc => (valid_iff_range c).mpr (hb c hc)
    obtain ⟨t, ok, hrun, hwf, -, -⟩ := insertAll_empty keys
    obtain ⟨ta, ra, hia, hwfa, hoka, -⟩ := insert_spec hwf a
    obtain ⟨tab, rab, hiab, -, hokab, -⟩ := insert_spec hwfa b
    obtain ⟨tb, rb, hib, hwfb, hokb, -⟩ := insert_spec hwf b
    obtain ⟨tba, rba, hiba, -, hokba, -⟩ := insert_spec hwfb a
    have e1 : ra = Except.ok () := by
      cases ra with
      | ok u => rfl
      | error e => cases hoka.mpr hva
    have e2 : rab = Except.ok () := by
      cases rab with
      | ok u => rfl
      | error e => cases hokab.mpr hvb
    have e3 : rb = Except.ok () := by
      cases rb with
      | ok u => rfl
      | error e => cases hokb.mpr hvb
    have e4 : rba = Except.ok () := by
      cases rba with
      | ok u => rfl
      | error e => cases hokba.mpr hva
    subst e1 e2 e3 e4
    have h1 : insertAll t [a, b] = some (tab, [a, b]) := by
      simp only [insertAll, hia, hiab, Option.map]
    have h2 : insertAll t [b, a] = some (tba, [b, a]) := by
      simp only [insertAll, hib, hiba, Option.map]
    have hset : ∀ k, k ∈ [a, b] ↔ k ∈ [b, a] := by
      intro k
      simp only [List.mem_cons, List.mem_singleton, List.not_mem_nil, or_false]
      tauto
    exact ⟨t, ok, ta, tab, tb, tba, hrun, hia, hiab, hib, hiba,
      (insertAll_same_keys hwf hset h1 h2).2.2 (List.Perm.swap b a [])⟩
  · intro ks1 ks2
    obtain ⟨t1, ok1, h1, -⟩ := insertAll_empty ks1
    obtain ⟨t2, ok2, h2, -⟩ := insertAll_empty ks2
    refine ⟨t1, ok1, t2, ok2, h1, h2, ?_, ?_⟩
    · intro hp
      exact (insertAll_same_keys WF.empty (fun k => hp.mem_iff) h1 h2).2.2 hp
    · intro hset
      exact (insertAll_same_keys WF.empty hset h1 h2).1

/-- C20 at `insert("cat")`, then `"car"` and `"a"` in both orders. -/
theorem insertion_order_is_irrelevant_witness :
    (∀ c ∈ [99, 97, 114], ' '.toNat ≤ c ∧ c ≤ '~'.toNat) ∧
    (∀ c ∈ [97], ' '.toNat ≤ c ∧ c ≤ '~'.toNat) ∧
    ∃ t ok ta tab tb tba, insertAll empty [[99, 97, 116]] = some (t, ok) ∧
      insert t [99, 97, 114] = some (ta, Except.ok ()) ∧
      insert ta [97] = some (tab, Except.ok ()) ∧
      insert t [97] = some (tb, Except.ok ()) ∧
      insert tb [99, 97, 114] = some (tba, Except.ok ()) ∧ tab = tba :=
  ⟨by decide, by decide,
    (insertion_order_is_irrelevant [[99, 97, 116]] [99, 97, 114] [97] (by decide)
      (by decide)).1⟩

end dict_trie

end spl
namespace spl

namespace dict_trie

/-! ## A repeated key -/

/-- A second `insert` of a valid key finds every node and the terminal flag
in place: the root is the same tree as after the first. -/
theorem insert_again_root {t t1 t2 : dict_trie} {k : List Nat} {r1 r2 : Except String Unit}
    (hwf : WF t.root) (hvalid : ∀ c ∈ k, is_valid_character c = true)
    (h1 : insert t k = some (t1, r1)) (h2 : insert t1 k = some (t2, r2)) :
    t2.root = t1.root := by
  obtain ⟨a1, b1, hins1, hwf1, hok1, hcont1, -⟩ := insert_spec hwf k
  rw [h1] at hins1
  simp only [Option.some.injEq, Prod.mk.injEq] at hins1
  obtain ⟨rfl, rfl⟩ := hins1
  obtain ⟨a2, b2, hins2, hwf2, hok2, hcont2, -⟩ := insert_spec hwf1 k
  rw [h2] at hins2
  simp only [Option.some.injEq, Prod.mk.injEq] at hins2
  obtain ⟨rfl, rfl⟩ := hins2
  have hr1 : succeeded r1 = true := hok1.mpr hvalid
  have hr2 : succeeded r2 = true := hok2.mpr hvalid
  obtain ⟨hs1, hn1, hw1⟩ := insert_tree hwf h1
  obtain ⟨hs2, hn2, hw2⟩ := insert_tree hwf1 h2
  refine WF.ext hwf2 t1.root hwf1 hs2 hn2 ?_ ?_
  · intro s
    have := hcont2 s
    rw [contains_eq_ends, contains_eq_ends] at this
    rw [this, hr2]
    have h3 := hcont1 s
    rw [contains_eq_ends, contains_eq_ends] at h3
    rw [h3, hr1]
    cases ends t.root s <;> simp
  · intro s
    rw [Bool.eq_iff_iff, hw2 s]
    constructor
    · rintro (h | h)
      · exact h
      · exact (hw1 s).mpr (Or.inr h)
    · intro h
      exact Or.inl h

/-- C11: in any trie built by `insert` calls, a second `insert(k)` of a valid
key `k` succeeds like the first and leaves the tree of nodes as it was after
the first, so `contains`, `each` and both `auto_complete` overloads answer
every query as after the first, a `std::length_error` of
`out.reserve(limit)` included; each of the two calls adds one to `size()` (a
64-bit counter), two in total. -/
theorem second_insert_keeps_answers (keys : List (List Nat)) (k : List Nat)
    (hk : ∀ c ∈ k, ' '.toNat ≤ c ∧ c ≤ '~'.toNat) :
    ∃ t ok t1 t2 u1 u2, insertAll empty keys = some (t, ok) ∧
      insert t k = some (t1, Except.ok u1) ∧ insert t1 k = some (t2, Except.ok u2) ∧
      t2.root = t1.root ∧
      (∀ s, contains t2 s = contains t1 s) ∧
      (∀ p, ∃ N, ∀ fuel, N ≤ fuel → ∃ M,
        each_prefixed fuel t1 p = some M ∧ each_prefixed fuel t2 p = some M ∧
        (∀ out, auto_complete fuel t1 p out = some (out ++ M) ∧
          auto_complete fuel t2 p out = some (out ++ M)) ∧
        (∀ max_size out limit, ∃ R,
          auto_complete_limit max_size fuel t1 p out limit = some R ∧
          auto_complete_limit max_size fuel t2 p out limit = some R)) ∧
      (∃ N, ∀ fuel, N ≤ fuel → ∃ M, each fuel t1 = some M ∧ each fuel t2 = some M) ∧
      size t1 = (size t + 1) % 2 ^ 64 ∧ size t2 = (size t1 + 1) % 2 ^ 64 ∧
      (size t + 2 < 2 ^ 64 → size t1 = size t + 1 ∧ size t2 = size t + 2) := by
  have hvalid : ∀ c ∈ k, is_valid_character c = true :=
    fun c hc => (valid_iff_range c).mpr (hk c hc)
  obtain ⟨t, ok, hrun, hwf, -, -⟩ := insertAll_empty keys
  obtain ⟨t1, r1, hins1, hwf1, hok1, hcont1, -, hsucc1, -⟩ := insert_spec hwf k
  obtain ⟨t2, r2, hins2, hwf2, hok2, hcont2, -, hsucc2, -⟩ := insert_spec hwf1 k
  have hr1 : succeeded r1 = true := hok1.mpr hvalid
  have hr2 : succeeded r2 = true := hok2.mpr hvalid
  have hroot : t2.root = t1.root := insert_again_root hwf hvalid hins1 hins2
  have hsame : ∀ s, contains t2 s = contains t1 s := by
    intro s
    simp only [contains, hroot]
  have hquery : ∀ p, ∃ N, ∀ fuel, N ≤ fuel → ∃ M,
      each_prefixed fuel t1 p = some M ∧ each_prefixed fuel t2 p = some M ∧
      (∀ out, auto_complete fuel t1 p out = some (out ++ M) ∧
        auto_complete fuel t2 p out = some (out ++ M)) ∧
      (∀ max_size out limit, ∃ R,
        auto_complete_limit max_size fuel t1 p out limit = some R ∧
        auto_complete_limit max_size fuel t2 p out limit = some R) := by
    intro p
    obtain ⟨M, -, -, -, N, hN⟩ := query_spec hwf1 p
    refine ⟨N, ?_⟩
    intro fuel hf
    obtain ⟨a1, a2, a3⟩ := hN fuel hf
    have e1 : each_prefixed fuel t2 p = each_prefixed fuel t1 p := by
      simp only [each_prefixed, hroot]
    have e2 : ∀ out, auto_complete fuel t2 p out = auto_complete fuel t1 p out := by
      intro out
      simp only [auto_complete, hroot]
    have e3 : ∀ ms out limit, auto_complete_limit ms fuel t2 p out limit =
        auto_complete_limit ms fuel t1 p out limit := by
      intro ms out limit
      simp only [auto_complete_limit, hroot]
    refine ⟨M, a1, by rw [e1, a1], fun out => ⟨a2 out, by rw [e2, a2 out]⟩, ?_⟩
    intro ms out limit
    exact ⟨_, a3 ms out limit, by rw [e3, a3 ms out limit]⟩
  obtain ⟨hn1, -⟩ := hsucc1 hr1
  obtain ⟨hn2, -⟩ := hsucc2 hr2
  cases r1 with
  | error e => cases hr1
  | ok u1 =>
    cases r2 with
    | error e => cases hr2
    | ok u2 =>
      refine ⟨t, ok, t1, t2, u1, u2, hrun, hins1, hins2, hroot, hsame, hquery, ?_, hn1, hn2, ?_⟩
      · obtain ⟨N, hN⟩ := hquery []
        refine ⟨N, ?_⟩
        intro fuel hf
        obtain ⟨M, h1, h2, -⟩ := hN fuel hf
        exact ⟨M, h1, h2⟩
      · intro hlt
        have h1 : t1.numKeys = t.numKeys + 1 := by
          rw [hn1]
          exact Nat.mod_eq_of_lt (by simp only [size] at hlt; omega)
        have h2 : t2.numKeys = t.numKeys + 2 := by
          rw [hn2, h1]
          exact Nat.mod_eq_of_lt (by simp only [size] at hlt; omega)
        exact ⟨h1, h2⟩

/-- C11 at `insert("cat")` followed by two calls of `insert("car")`. -/
theorem second_insert_keeps_answers_witness :
    (∀ c ∈ [99, 97, 114], ' '.toNat ≤ c ∧ c ≤ '~'.toNat) ∧
    ∃ t ok t1 t2 u1 u2, insertAll empty [[99, 97, 116]] = some (t, ok) ∧
      insert t [99, 97, 114] = some (t1, Except.ok u1) ∧
      insert t1 [99, 97, 114] = some (t2, Except.ok u2) ∧
      t2.root = t1.root ∧
      (∀ s, contains t2 s = contains t1 s) ∧
      size t1 = (size t + 1) % 2 ^ 64 ∧ size t2 = (size t1 + 1) % 2 ^ 64 := by
  have hk : ∀ c ∈ [99, 97, 114], ' '.toNat ≤ c ∧ c ≤ '~'.toNat := by decide
  obtain ⟨t, ok, t1, t2, u1, u2, h1, h2, h3, hroot, h4, -, -, h5, h6, -⟩ :=
    second_insert_keeps_answers [[99, 97, 116]] [99, 97, 114] hk
  exact ⟨hk, t, ok, t1, t2, u1, u2, h1, h2, h3, hroot, h4, h5, h6⟩

end dict_trie

end spl

namespace spl

namespace trie

/-! ## The dense coding: walk and insertion -/

theorem out_of_range_eq (c : Nat) :
    out_of_range c = !dict_trie.is_valid_character c := by
  cases h : out_of_range c with
  | false =>
    have := (out_of_range_iff c).mp h
    rw [(dict_trie.is_valid_character_iff c).mpr this]
    rfl
  | true =>
    cases hv : dict_trie.is_valid_character c with
    | false => rfl
    | true =>
      have := (out_of_range_iff c).mpr ((dict_trie.is_valid_character_iff c).mp hv)
      rw [this] at h
      cases h

theorem walk_cons_out {c : Nat} (hv : out_of_range c = true) (n : trie) (cs : List Nat) :
    walk n (c :: cs) = none := by
  simp [walk, hv]

theorem walk_cons_in {c : Nat} (hv : out_of_range c = false) (n : trie) (cs : List Nat) :
    walk n (c :: cs) = (n.child.getD (c - 32) none).bind (fun ch => walk ch cs) := by
  simp only [walk, hv, character_to_index_of_valid hv]
  cases n.child.getD (c - 32) none <;> rfl

theorem walk_cons_in_some {c : Nat} (hv : out_of_range c = false) {n m : trie}
    (h : n.child.getD (c - 32) none = some m) (cs : List Nat) :
    walk n (c :: cs) = walk m cs := by
  rw [walk_cons_in hv, h]
  rfl

theorem walk_cons_in_none {c : Nat} (hv : out_of_range c = false) {n : trie}
    (h : n.child.getD (c - 32) none = none) (cs : List Nat) :
    walk n (c :: cs) = none := by
  rw [walk_cons_in hv, h]
  rfl

theorem endsAt_nil (n : trie) : endsAt n [] = n.isStringEnd := rfl

theorem endsAt_cons_out {c : Nat} (hv : out_of_range c = true) (n : trie) (cs : List Nat) :
    endsAt n (c :: cs) = false := by
  simp only [endsAt, walk_cons_out hv]

theorem endsAt_cons_some {c : Nat} (hv : out_of_range c = false) {n m : trie}
    (h : n.child.getD (c - 32) none = some m) (cs : List Nat) :
    endsAt n (c :: cs) = endsAt m cs := by
  simp only [endsAt, walk_cons_in_some hv h]

theorem endsAt_cons_none {c : Nat} (hv : out_of_range c = false) {n : trie}
    (h : n.child.getD (c - 32) none = none) (cs : List Nat) :
    endsAt n (c :: cs) = false := by
  simp only [endsAt, walk_cons_in_none hv h]

theorem child_getD_replicate (k i : Nat) :
    (List.replicate k (none : Option trie)).getD i none = none := by
  simp only [List.getD_eq_getElem?_getD, List.getElem?_replicate]
  split <;> rfl

theorem endsAt_new (s : List Nat) : endsAt trie.new s = false := by
  cases s with
  | nil => rfl
  | cons d ds =>
    cases hv : out_of_range d with
    | true => exact endsAt_cons_out hv _ _
    | false => exact endsAt_cons_none hv (child_getD_replicate _ _) ds

theorem WF.child_length {n : trie} (h : WF n) : n.child.length = 95 := by
  cases h with
  | mk hlen _ => rw [hlen, dict_trie.characterSet_length]

theorem WF.of_child {n : trie} (h : WF n) {i : Nat} {c : trie}
    (hc : n.child.getD i none = some c) : WF c ∧ i < 95 := by
  have hlen := h.child_length
  cases h with
  | mk _ hrec =>
    refine ⟨hrec i c hc, ?_⟩
    by_contra hi
    have : n.child.getD i none = none := by
      simp [List.getD_eq_getElem?_getD, List.getElem?_eq_none (by omega : n.child.length ≤ i)]
    rw [this] at hc
    cases hc

/-- The terminal flags after one call of `trie::insert`: the key is marked
when the call succeeds, and nothing else changes. -/
theorem insert_endsAt : ∀ (key : List Nat) (n : trie), WF n →
    ∀ (n1 : trie) (r : Except String Unit), insert n key = some (n1, r) →
    ∀ s, endsAt n1 s = (endsAt n s || (succeeded r && decide (s = key))) := by
  intro key
  induction key with
  | nil =>
    intro n _ n1 r hrun s
    simp only [insert, Option.some.injEq, Prod.mk.injEq] at hrun
    obtain ⟨rfl, rfl⟩ := hrun
    cases s with
    | nil => simp [endsAt_nil, succeeded]
    | cons d ds =>
      have : endsAt { n with isStringEnd := true } (d :: ds) = endsAt n (d :: ds) := by
        simp only [endsAt, walk]
      simp [this]
  | cons c rest ih =>
    intro n hwf n1 r hrun s
    cases hv : out_of_range c with
    | true =>
      simp only [insert, hv, if_true, Option.some.injEq, Prod.mk.injEq] at hrun
      obtain ⟨rfl, rfl⟩ := hrun
      simp [succeeded]
    | false =>
      have hrange := (out_of_range_iff c).mp hv
      have hidx : c - 32 < n.child.length := by
        rw [hwf.child_length]
        omega
      -- the node whose slot holds a child, and that child
      obtain ⟨n0, next, hn0, hnext, hslot, hflag, hwfn, hold⟩ : ∃ n0 next : trie,
          insert n (c :: rest) =
            (match insert next rest with
              | none => none
              | some (next1, r) =>
                some ({ n0 with child := n0.child.set (c - 32) (some next1) }, r)) ∧
          n0.child.getD (c - 32) none = some next ∧
          (∀ j, j ≠ c - 32 → n0.child.getD j none = n.child.getD j none) ∧
          n0.isStringEnd = n.isStringEnd ∧ WF next ∧
          (∀ ds, endsAt n (c :: ds) = endsAt next ds) := by
        cases hold : n.child.getD (c - 32) none with
        | some x =>
          refine ⟨n, x, ?_, hold, fun _ _ => rfl, rfl, (hwf.of_child hold).1,
            fun ds => endsAt_cons_some hv hold ds⟩
          simp only [insert, hv, character_to_index_of_valid hv, hidx, hold]
          rfl
        | none =>
          refine ⟨{ n with child := n.child.set (c - 32) (some new) }, new, ?_,
            child_getD_set_self hidx _, fun j hj => child_getD_set_ne (Ne.symm hj) _, rfl,
            WF.of_new, ?_⟩
          · simp only [insert, hv, character_to_index_of_valid hv, hidx, hold,
              child_getD_set_self hidx]
            rfl
          · intro ds
            rw [endsAt_cons_none hv hold, endsAt_new]
      rw [hn0] at hrun
      cases hrec : insert next rest with
      | none =>
        rw [hrec] at hrun
        cases hrun
      | some res =>
        obtain ⟨next1, r1⟩ := res
        rw [hrec] at hrun
        simp only [Option.some.injEq, Prod.mk.injEq] at hrun
        obtain ⟨rfl, rfl⟩ := hrun
        have hlt0 : c - 32 < n0.child.length := by
          by_contra hlt
          have : n0.child.getD (c - 32) none = none := by
            simp [List.getD_eq_getElem?_getD,
              List.getElem?_eq_none (Nat.le_of_not_lt hlt)]
          rw [this] at hnext
          cases hnext
        have hself : (n0.child.set (c - 32) (some next1)).getD (c - 32) none = some next1 :=
          child_getD_set_self hlt0 _
        have hends := ih next hwfn next1 r1 hrec
        cases s with
        | nil =>
          rw [endsAt_nil, endsAt_nil]
          simp [hflag]
        | cons d ds =>
          cases hd : out_of_range d with
          | true =>
            have hdc : d ≠ c := by
              intro h
              rw [h, hv] at hd
              cases hd
            rw [endsAt_cons_out hd, endsAt_cons_out hd]
            simp [hdc]
          | false =>
            by_cases hdc : d = c
            · subst hdc
              rw [endsAt_cons_some hd (n := { n0 with child := _ }) hself, hends, hold]
              simp
            · have hr := (out_of_range_iff d).mp hd
              have hj : d - 32 ≠ c - 32 := by omega
              have hsame : ({ n0 with child := n0.child.set (c - 32) (some next1) } :
                  trie).child.getD (d - 32) none = n.child.getD (d - 32) none := by
                show (n0.child.set (c - 32) (some next1)).getD (d - 32) none = _
                rw [child_getD_set_ne (Ne.symm hj), hslot _ hj]
              have : endsAt ({ n0 with child := n0.child.set (c - 32) (some next1) } : trie)
                  (d :: ds) = endsAt n (d :: ds) := by
                simp only [endsAt, walk_cons_in hd, hsame]
              rw [this]
              simp [hdc]

/-- After any sequence of calls of `trie::insert` on a new trie, the terminal
flags mark exactly the strings whose call succeeded, which are those made of
valid symbols. -/
theorem insertAll_endsAt : ∀ (keys : List (List Nat)) (t : trie), WF t →
    ∃ t1 ok, insertAll t keys = some (t1, ok) ∧ WF t1 ∧
      ok = keys.filter (fun k => k.all dict_trie.is_valid_character) ∧
      ∀ s, endsAt t1 s = (endsAt t s || decide (s ∈ ok)) := by
  intro keys
  induction keys with
  | nil =>
    intro t hwf
    exact ⟨t, [], rfl, hwf, rfl, by simp⟩
  | cons key rest ih =>
    intro t hwf
    obtain ⟨t1, r, hrun, hwf1, hok⟩ := insert_returns key t hwf
    have hends := insert_endsAt key t hwf t1 r hrun
    obtain ⟨t2, ok, hrun2, hwf2, hfilter, hends2⟩ := ih t1 hwf1
    have hvalid : (∀ c ∈ key, out_of_range c = false) ↔
        key.all dict_trie.is_valid_character = true := by
      rw [List.all_eq_true]
      constructor
      · intro h c hc
        have := h c hc
        rw [out_of_range_eq] at this
        simpa using this
      · intro h c hc
        rw [out_of_range_eq, h c hc]
        rfl
    cases r with
    | ok u =>
      have hall : key.all dict_trie.is_valid_character = true := hvalid.mp (hok.mp rfl)
      refine ⟨t2, key :: ok, ?_, hwf2, ?_, ?_⟩
      · simp only [insertAll, hrun, hrun2, Option.map]
      · subst hfilter
        simp [List.filter_cons, hall]
      · intro s
        rw [hends2, hends]
        by_cases hs : s = key <;> simp [succeeded, hs]
    | error e =>
      have hall : ¬ key.all dict_trie.is_valid_character = true := by
        intro h
        have := hok.mpr (hvalid.mpr h)
        cases this
      refine ⟨t2, ok, ?_, hwf2, ?_, ?_⟩
      · simp only [insertAll, hrun, hrun2]
      · subst hfilter
        simp [List.filter_cons, hall]
      · intro s
        rw [hends2, hends]
        simp [succeeded]

end trie

end spl

namespace spl

namespace trie

/-! ## The dense coding: traversal -/

theorem child_none_of_is_last {n : trie} (h : n.is_last = true) (i : Nat) :
    n.child.getD i none = none := by
  unfold is_last at h
  rw [List.all_eq_true] at h
  by_cases hi : i < n.child.length
  · have hmem : n.child.get ⟨i, hi⟩ ∈ n.child := List.get_mem _ _ _
    have := h _ hmem
    have hget : n.child.getD i none = n.child.get ⟨i, hi⟩ := by
      simp [List.getD_eq_getElem?_getD, List.getElem?_eq_getElem hi]
    rw [hget]
    cases hx : n.child.get ⟨i, hi⟩ with
    | none => rfl
    | some x =>
      rw [hx] at this
      cases this
  · simp [List.getD_eq_getElem?_getD, List.getElem?_eq_none (Nat.le_of_not_lt hi)]

theorem endsAt_cons_of_is_last {n : trie} (h : n.is_last = true) (d : Nat) (ds : List Nat) :
    endsAt n (d :: ds) = false := by
  cases hv : out_of_range d with
  | true => exact endsAt_cons_out hv _ _
  | false => exact endsAt_cons_none hv (child_none_of_is_last h _) ds

theorem recursive_auto_complete_stop (limit fuel : Nat) (n : trie) (index : Nat)
    (ws : List Nat) (out : List (List Nat)) (hlim : out.length = limit) :
    ∃ ws1, recursive_auto_complete limit (fuel + 1) n index (ws, out) = some (ws1, out) := by
  by_cases hidx : index < n.child.length
  · exact ⟨ws, by simp only [recursive_auto_complete, hidx, hlim, if_true]⟩
  · exact ⟨ws, by simp only [recursive_auto_complete, hidx, if_false]⟩

theorem recursive_auto_complete_skip {limit fuel : Nat} {n : trie} {index : Nat}
    {ws : List Nat} {out : List (List Nat)} (hidx : index < n.child.length)
    (hlim : ¬ out.length = limit) (hc : n.child.getD index none = none) :
    recursive_auto_complete limit (fuel + 1) n index (ws, out) =
      recursive_auto_complete limit fuel n (index + 1) (ws, out) := by
  simp only [recursive_auto_complete, hidx, hlim, if_true, if_false, hc]

theorem recursive_auto_complete_step {limit fuel : Nat} {n c : trie} {index : Nat}
    {ws : List Nat} {out : List (List Nat)} (hidx : index < n.child.length)
    (h95 : index < 95) (hlim : ¬ out.length = limit)
    (hc : n.child.getD index none = some c) :
    recursive_auto_complete limit (fuel + 1) n index (ws, out) =
      (match (if c.isStringEnd && c.is_last then
            some (ws ++ [index + 32], if c.isStringEnd then out ++ [ws ++ [index + 32]] else out)
          else recursive_auto_complete limit fuel c 0
            (ws ++ [index + 32], if c.isStringEnd then out ++ [ws ++ [index + 32]] else out))
        with
        | none => none
        | some st => recursive_auto_complete limit fuel n (index + 1) (st.1.dropLast, st.2)) := by
  simp only [recursive_auto_complete, hidx, hlim, if_true, if_false, hc,
    dict_trie.characterSet_table index h95]
  cases hb : (c.isStringEnd && c.is_last) with
  | true => rfl
  | false =>
    simp only [Bool.false_eq_true, if_false]
    cases recursive_auto_complete limit fuel c 0
      (ws ++ [index + 32], if c.isStringEnd then out ++ [ws ++ [index + 32]] else out) with
    | none => rfl
    | some st => rfl

theorem denseRuns_end {n : trie} {index : Nat} (h : n.child.length ≤ index) :
    DenseRuns n index [] := by
  refine ⟨1, ?_⟩
  intro fuel hf limit ws out
  obtain ⟨fuel, rfl⟩ : ∃ k, fuel = k + 1 := ⟨fuel - 1, by omega⟩
  refine ⟨ws, ?_, fun _ => rfl⟩
  have : ¬ index < n.child.length := by omega
  simp only [recursive_auto_complete, this, if_false, List.map_nil, dict_trie.takeLimit_nil]

theorem denseRuns_skip {n : trie} {index : Nat} {L : List (List Nat)}
    (hidx : index < n.child.length) (hc : n.child.getD index none = none)
    (h : DenseRuns n (index + 1) L) : DenseRuns n index L := by
  obtain ⟨N, hN⟩ := h
  refine ⟨N + 1, ?_⟩
  intro fuel hf limit ws out
  obtain ⟨fuel, rfl⟩ : ∃ k, fuel = k + 1 := ⟨fuel - 1, by omega⟩
  by_cases hlim : out.length = limit
  · obtain ⟨ws1, h1⟩ := recursive_auto_complete_stop limit fuel n index ws out hlim
    refine ⟨ws1, by rw [h1, dict_trie.takeLimit_of_eq hlim], ?_⟩
    intro hne
    rw [dict_trie.takeLimit_of_eq hlim] at hne
    exact absurd hlim hne
  · rw [recursive_auto_complete_skip hidx hlim hc]
    exact hN fuel (by omega) limit ws out

theorem map_denseBlock (ws : List Nat) (index : Nat) (c : trie) (Lc : List (List Nat)) :
    (denseBlock index c Lc).map (ws ++ ·) =
      (if c.isStringEnd then [ws ++ [index + 32]] else []) ++
        Lc.map ((ws ++ [index + 32]) ++ ·) := by
  unfold denseBlock
  cases c.isStringEnd <;> simp

/-- One iteration of `recursive_auto_complete` on an occupied slot. -/
theorem denseRuns_child {n c : trie} {index : Nat} {Lc Lrest : List (List Nat)}
    (hidx : index < n.child.length) (h95 : index < 95)
    (hc : n.child.getD index none = some c) (hleaf : c.is_last = true → Lc = [])
    (hsub : DenseRuns c 0 Lc) (hrest : DenseRuns n (index + 1) Lrest) :
    DenseRuns n index (denseBlock index c Lc ++ Lrest) := by
  obtain ⟨Nc, hNc⟩ := hsub
  obtain ⟨Nr, hNr⟩ := hrest
  refine ⟨max Nc Nr + 1, ?_⟩
  intro fuel hf limit ws out
  obtain ⟨fuel, rfl⟩ : ∃ k, fuel = k + 1 := ⟨fuel - 1, by omega⟩
  have h1 : Nc ≤ fuel := by omega
  have h2 : Nr ≤ fuel := by omega
  by_cases hlim : out.length = limit
  · obtain ⟨ws1, hr⟩ := recursive_auto_complete_stop limit fuel n index ws out hlim
    refine ⟨ws1, by rw [hr, dict_trie.takeLimit_of_eq hlim], ?_⟩
    intro hne
    rw [dict_trie.takeLimit_of_eq hlim] at hne
    exact absurd hlim hne
  · have hout1 : (if c.isStringEnd then out ++ [ws ++ [index + 32]] else out) =
        dict_trie.takeLimit limit out (if c.isStringEnd then [ws ++ [index + 32]] else []) := by
      cases c.isStringEnd
      · simp [dict_trie.takeLimit_nil]
      · simp [dict_trie.takeLimit_single hlim]
    have htotal : ∀ ws2,
        dict_trie.takeLimit limit (dict_trie.takeLimit limit
          (if c.isStringEnd then out ++ [ws ++ [index + 32]] else out)
            (Lc.map ((ws ++ [index + 32]) ++ ·))) (Lrest.map (ws2 ++ ·)) =
        dict_trie.takeLimit limit out
          (((if c.isStringEnd then [ws ++ [index + 32]] else []) ++
            Lc.map ((ws ++ [index + 32]) ++ ·)) ++ Lrest.map (ws2 ++ ·)) := by
      intro ws2
      rw [hout1, dict_trie.takeLimit_append, dict_trie.takeLimit_append, List.append_assoc]
    have hgoal : dict_trie.takeLimit limit out ((denseBlock index c Lc ++ Lrest).map (ws ++ ·)) =
        dict_trie.takeLimit limit (dict_trie.takeLimit limit
          (if c.isStringEnd then out ++ [ws ++ [index + 32]] else out)
            (Lc.map ((ws ++ [index + 32]) ++ ·))) (Lrest.map (ws ++ ·)) := by
      rw [htotal, List.map_append, map_denseBlock]
    rw [hgoal]
    obtain ⟨ws2, hrun2, hws2⟩ : ∃ ws2,
        (if c.isStringEnd && c.is_last then
            some (ws ++ [index + 32], if c.isStringEnd then out ++ [ws ++ [index + 32]] else out)
          else recursive_auto_complete limit fuel c 0
            (ws ++ [index + 32], if c.isStringEnd then out ++ [ws ++ [index + 32]] else out)) =
          some (ws2, dict_trie.takeLimit limit
            (if c.isStringEnd then out ++ [ws ++ [index + 32]] else out)
            (Lc.map ((ws ++ [index + 32]) ++ ·))) ∧
        ((dict_trie.takeLimit limit
            (if c.isStringEnd then out ++ [ws ++ [index + 32]] else out)
            (Lc.map ((ws ++ [index + 32]) ++ ·))).length ≠ limit →
          ws2 = ws ++ [index + 32]) := by
      cases hb : (c.isStringEnd && c.is_last) with
      | true =>
        have hl : c.is_last = true := by
          cases h : c.is_last with
          | true => rfl
          | false => simp [h] at hb
        rw [hleaf hl]
        exact ⟨ws ++ [index + 32], by simp [dict_trie.takeLimit_nil], fun _ => rfl⟩
      | false =>
        obtain ⟨ws2, hr, hw⟩ := hNc fuel h1 limit (ws ++ [index + 32])
          (if c.isStringEnd then out ++ [ws ++ [index + 32]] else out)
        exact ⟨ws2, by simpa using hr, hw⟩
    obtain ⟨ws3, hrun3, hws3⟩ := hNr fuel h2 limit ws2.dropLast (dict_trie.takeLimit limit
      (if c.isStringEnd then out ++ [ws ++ [index + 32]] else out)
      (Lc.map ((ws ++ [index + 32]) ++ ·)))
    have hsame : dict_trie.takeLimit limit (dict_trie.takeLimit limit
          (if c.isStringEnd then out ++ [ws ++ [index + 32]] else out)
            (Lc.map ((ws ++ [index + 32]) ++ ·))) (Lrest.map (ws2.dropLast ++ ·)) =
        dict_trie.takeLimit limit (dict_trie.takeLimit limit
          (if c.isStringEnd then out ++ [ws ++ [index + 32]] else out)
            (Lc.map ((ws ++ [index + 32]) ++ ·))) (Lrest.map (ws ++ ·)) := by
      by_cases hl : (dict_trie.takeLimit limit
          (if c.isStringEnd then out ++ [ws ++ [index + 32]] else out)
            (Lc.map ((ws ++ [index + 32]) ++ ·))).length = limit
      · rw [dict_trie.takeLimit_of_eq hl, dict_trie.takeLimit_of_eq hl]
      · rw [hws2 hl, List.dropLast_concat]
    rw [hsame] at hrun3 hws3
    refine ⟨ws3, ?_, ?_⟩
    · rw [recursive_auto_complete_step hidx h95 hlim hc, hrun2]
      exact hrun3
    · intro h
      have hl : (dict_trie.takeLimit limit
          (if c.isStringEnd then out ++ [ws ++ [index + 32]] else out)
            (Lc.map ((ws ++ [index + 32]) ++ ·))).length ≠ limit := by
        intro hl
        rw [dict_trie.takeLimit_of_eq hl] at h
        exact h hl
      rw [hws3 h, hws2 hl, List.dropLast_concat]

end trie

end spl

namespace spl

namespace trie

/-! ## The dense coding: what it reports -/

theorem mem_denseBlock {index : Nat} {c : trie} {Lc : List (List Nat)}
    (hm : ∀ k, k ∈ Lc ↔ k ≠ [] ∧ endsAt c k = true) (k : List Nat) :
    k ∈ denseBlock index c Lc ↔ ∃ rest, k = (index + 32) :: rest ∧ endsAt c rest = true := by
  unfold denseBlock
  rw [List.mem_append]
  constructor
  · rintro (h | h)
    · cases he : c.isStringEnd with
      | false => simp [he] at h
      | true =>
        simp [he] at h
        exact ⟨[], h, he⟩
    · obtain ⟨k1, hk1, rfl⟩ := List.mem_map.mp h
      exact ⟨k1, rfl, ((hm k1).mp hk1).2⟩
  · rintro ⟨rest, rfl, hr⟩
    cases rest with
    | nil =>
      left
      have : c.isStringEnd = true := hr
      simp [this]
    | cons a as =>
      right
      exact List.mem_map.mpr ⟨a :: as, (hm _).mpr ⟨by simp, hr⟩, rfl⟩

theorem pairwise_denseBlock {index : Nat} {c : trie} {Lc : List (List Nat)}
    (hs : Lc.Pairwise (List.Lex (· < ·))) (hm : ∀ k, k ∈ Lc → k ≠ []) :
    (denseBlock index c Lc).Pairwise (List.Lex (· < ·)) := by
  unfold denseBlock
  refine List.pairwise_append.mpr ⟨?_, ?_, ?_⟩
  · cases c.isStringEnd <;> simp
  · exact (List.pairwise_map).mpr (hs.imp (fun h => List.Lex.cons h))
  · intro a ha b hb
    obtain ⟨k, hk, rfl⟩ := List.mem_map.mp hb
    have ha2 : a = [index + 32] := by
      cases he : c.isStringEnd with
      | false => simp [he] at ha
      | true => simpa [he] using ha
    subst ha2
    cases k with
    | nil => exact absurd rfl (hm [] hk)
    | cons x xs => exact List.Lex.cons List.Lex.nil

/-- The loop over the slots from `index` on reports the strings below the
occupied slots, block by block, in ascending order. -/
theorem dense_loop {n : trie} (hwf : WF n)
    (hch : ∀ i c, n.child.getD i none = some c → ∃ L, DenseEnumerates c L) :
    ∀ k index, index + k = 95 →
      ∃ Ls, DenseRuns n index Ls ∧ Ls.Pairwise (List.Lex (· < ·)) ∧
        ∀ s, s ∈ Ls ↔ ∃ i, index ≤ i ∧ ∃ c rest,
          n.child.getD i none = some c ∧ s = (i + 32) :: rest ∧ endsAt c rest = true := by
  have hlen := hwf.child_length
  intro k
  induction k with
  | zero =>
    intro index hidx
    refine ⟨[], denseRuns_end (by omega), List.Pairwise.nil, ?_⟩
    intro s
    simp only [List.not_mem_nil, false_iff]
    rintro ⟨i, hi, c, rest, hc, -, -⟩
    have := (hwf.of_child hc).2
    omega
  | succ k ih =>
    intro index hidx
    have h95 : index < 95 := by omega
    obtain ⟨Ls2, hr2, hs2, hm2⟩ := ih (index + 1) (by omega)
    cases hc : n.child.getD index none with
    | none =>
      refine ⟨Ls2, denseRuns_skip (by omega) hc hr2, hs2, ?_⟩
      intro s
      rw [hm2]
      constructor
      · rintro ⟨i, hi, rest⟩
        exact ⟨i, by omega, rest⟩
      · rintro ⟨i, hi, c, rest, hci, h1, h2⟩
        refine ⟨i, ?_, c, rest, hci, h1, h2⟩
        by_contra hlt
        have : i = index := by omega
        subst this
        rw [hc] at hci
        cases hci
    | some c =>
      obtain ⟨Lc, hLcs, hLcm, hLcr⟩ := hch index c hc
      have hleaf : c.is_last = true → Lc = [] := by
        intro hl
        refine List.eq_nil_iff_forall_not_mem.mpr ?_
        intro x hx
        obtain ⟨hne, he⟩ := (hLcm x).mp hx
        cases x with
        | nil => exact hne rfl
        | cons d ds =>
          rw [endsAt_cons_of_is_last hl] at he
          cases he
      refine ⟨denseBlock index c Lc ++ Ls2,
        denseRuns_child (by omega) h95 hc hleaf hLcr hr2, ?_, ?_⟩
      · refine List.pairwise_append.mpr
          ⟨pairwise_denseBlock hLcs (fun x hx => ((hLcm x).mp hx).1), hs2, ?_⟩
        intro a ha b hb
        obtain ⟨r1, rfl, -⟩ := (mem_denseBlock hLcm a).mp ha
        obtain ⟨j, hj, c2, r2, -, rfl, -⟩ := (hm2 b).mp hb
        exact List.Lex.rel (by omega)
      · intro s
        rw [List.mem_append, mem_denseBlock hLcm, hm2]
        constructor
        · rintro (⟨rest, rfl, hr⟩ | ⟨j, hj, c2, r2, h1, h2, h3⟩)
          · exact ⟨index, le_refl _, c, rest, hc, rfl, hr⟩
          · exact ⟨j, by omega, c2, r2, h1, h2, h3⟩
        · rintro ⟨j, hj, c2, r2, h1, h2, h3⟩
          by_cases hji : j = index
          · subst hji
            left
            rw [hc] at h1
            cases h1
            exact ⟨r2, h2, h3⟩
          · right
            exact ⟨j, by omega, c2, r2, h1, h2, h3⟩

/-- Below a well-formed node `recursive_auto_complete` reports the non-empty
strings stored below it, in ascending order. -/
theorem WF.denseEnumerates {n : trie} (h : WF n) : ∃ L, DenseEnumerates n L := by
  induction h with
  | @mk n hlen hrec ih =>
    have hwf : WF n := WF.mk hlen hrec
    obtain ⟨Ls, hr, hs, hm⟩ := dense_loop hwf ih 95 0 (by omega)
    refine ⟨Ls, hs, ?_, hr⟩
    intro k
    rw [hm]
    constructor
    · rintro ⟨i, -, c, rest, hc, rfl, he⟩
      have hi := (hwf.of_child hc).2
      have hv : out_of_range (i + 32) = false := (out_of_range_iff _).mpr (by omega)
      refine ⟨by simp, ?_⟩
      rw [endsAt_cons_some hv (m := c) (by simpa using hc)]
      exact he
    · rintro ⟨hne, hk⟩
      cases k with
      | nil => exact absurd rfl hne
      | cons d ds =>
        cases hv : out_of_range d with
        | true =>
          rw [endsAt_cons_out hv] at hk
          cases hk
        | false =>
          have hrg := (out_of_range_iff d).mp hv
          cases hc : n.child.getD (d - 32) none with
          | none =>
            rw [endsAt_cons_none hv hc] at hk
            cases hk
          | some c =>
            rw [endsAt_cons_some hv hc] at hk
            refine ⟨d - 32, Nat.zero_le _, c, ds, hc, ?_, hk⟩
            congr 1
            omega

theorem walk_append_dense (n : trie) (p k : List Nat) :
    walk n (p ++ k) = (walk n p).bind (fun m => walk m k) := by
  induction p generalizing n with
  | nil => rfl
  | cons c cs ih =>
    cases hv : out_of_range c with
    | true =>
      rw [List.cons_append, walk_cons_out hv, walk_cons_out hv]
      rfl
    | false =>
      rw [List.cons_append, walk_cons_in hv, walk_cons_in hv]
      cases n.child.getD (c - 32) none with
      | none => rfl
      | some ch => exact ih ch

theorem WF.of_walk {n : trie} (h : WF n) :
    ∀ (p : List Nat) (m : trie), trie.walk n p = some m → WF m := by
  intro p
  induction p generalizing n with
  | nil =>
    intro m hm
    cases hm
    exact h
  | cons c cs ih =>
    intro m hm
    cases hv : out_of_range c with
    | true =>
      rw [walk_cons_out hv] at hm
      cases hm
    | false =>
      cases hc : n.child.getD (c - 32) none with
      | none =>
        rw [walk_cons_in_none hv hc] at hm
        cases hm
      | some ch =>
        rw [walk_cons_in_some hv hc] at hm
        exact ih (h.of_child hc).1 m hm

/-! ## The dense coding: the nodes after insertion -/

theorem walk_isSome_new (s : List Nat) : (walk trie.new s).isSome = true ↔ s = [] := by
  cases s with
  | nil => exact ⟨fun _ => rfl, fun _ => rfl⟩
  | cons d ds =>
    have h : walk trie.new (d :: ds) = none := by
      cases hv : out_of_range d with
      | true => exact walk_cons_out hv _ _
      | false => exact walk_cons_in_none hv (child_getD_replicate _ _) ds
    rw [h]
    constructor
    · intro h
      cases h
    · intro h
      cases h

/-- One step of `trie::insert` at a valid symbol `c`: the node `n0` is `n`
with slot `c - ' '` filled, by a new node when it was empty, and the call
goes on in the child `next` of that slot. -/
theorem insert_cons_in {n : trie} (hwf : WF n) {c : Nat} (hv : out_of_range c = false)
    (rest : List Nat) :
    ∃ n0 next : trie,
      insert n (c :: rest) =
        (match insert next rest with
          | none => none
          | some (next1, r) =>
            some ({ n0 with child := n0.child.set (c - 32) (some next1) }, r)) ∧
      n0.child.getD (c - 32) none = some next ∧ c - 32 < n0.child.length ∧
      (∀ j, j ≠ c - 32 → n0.child.getD j none = n.child.getD j none) ∧
      n0.isStringEnd = n.isStringEnd ∧ WF next ∧
      (n.child.getD (c - 32) none = some next ∨
        (n.child.getD (c - 32) none = none ∧ next = trie.new)) := by
  have hrange := (out_of_range_iff c).mp hv
  have hidx : c - 32 < n.child.length := by
    rw [hwf.child_length]
    omega
  cases hold : n.child.getD (c - 32) none with
  | some x =>
    refine ⟨n, x, ?_, hold, hidx, fun _ _ => rfl, rfl, (hwf.of_child hold).1, Or.inl rfl⟩
    simp only [insert, hv, character_to_index_of_valid hv, hidx, hold]
    rfl
  | none =>
    refine ⟨{ n with child := n.child.set (c - 32) (some new) }, new, ?_,
      child_getD_set_self hidx _, by simpa using hidx,
      fun j hj => child_getD_set_ne (Ne.symm hj) _, rfl, WF.of_new, Or.inr ⟨rfl, rfl⟩⟩
    simp only [insert, hv, character_to_index_of_valid hv, hidx, hold,
      child_getD_set_self hidx]
    rfl

/-- The nodes after one call of `trie::insert`: those that were there, and
those along the valid symbols of the key up to its first invalid one. -/
theorem insert_walk : ∀ (key : List Nat) (n : trie), WF n →
    ∀ (n1 : trie) (r : Except String Unit), insert n key = some (n1, r) →
    ∀ s, (walk n1 s).isSome = true ↔
      ((walk n s).isSome = true ∨ s <+: key.takeWhile dict_trie.is_valid_character) := by
  intro key
  induction key with
  | nil =>
    intro n _ n1 r hrun s
    simp only [insert, Option.some.injEq, Prod.mk.injEq] at hrun
    obtain ⟨rfl, -⟩ := hrun
    have hsame : walk { n with isStringEnd := true } s = walk n s ∨ s = [] := by
      cases s with
      | nil => exact Or.inr rfl
      | cons d ds =>
        left
        simp only [walk]
    constructor
    · intro h
      rcases hsame with h1 | h1
      · rw [h1] at h
        exact Or.inl h
      · subst h1
        exact Or.inl rfl
    · rintro (h | h)
      · rcases hsame with h1 | h1
        · rw [h1]
          exact h
        · subst h1
          rfl
      · have : s = [] := List.prefix_nil.mp h
        subst this
        rfl
  | cons c rest ih =>
    intro n hwf n1 r hrun s
    cases hv : out_of_range c with
    | true =>
      simp only [insert, hv, if_true, Option.some.injEq, Prod.mk.injEq] at hrun
      obtain ⟨rfl, -⟩ := hrun
      have hval : dict_trie.is_valid_character c = false := by
        have := out_of_range_eq c
        rw [hv] at this
        cases hh : dict_trie.is_valid_character c with
        | false => rfl
        | true =>
          rw [hh] at this
          cases this
      rw [dict_trie.takeWhile_cons_invalid hval]
      constructor
      · intro h
        exact Or.inl h
      · rintro (h | h)
        · exact h
        · have : s = [] := List.prefix_nil.mp h
          subst this
          rfl
    | false =>
      have hval : dict_trie.is_valid_character c = true := by
        have := out_of_range_eq c
        rw [hv] at this
        cases hh : dict_trie.is_valid_character c with
        | true => rfl
        | false =>
          rw [hh] at this
          cases this
      rw [dict_trie.takeWhile_cons_valid hval]
      obtain ⟨n0, next, hn0, hnext, hlt0, hslot, -, hwfn, hold⟩ := insert_cons_in hwf hv rest
      rw [hn0] at hrun
      cases hrec : insert next rest with
      | none =>
        rw [hrec] at hrun
        cases hrun
      | some res =>
        obtain ⟨next1, r1⟩ := res
        rw [hrec] at hrun
        simp only [Option.some.injEq, Prod.mk.injEq] at hrun
        obtain ⟨rfl, rfl⟩ := hrun
        have hself : (n0.child.set (c - 32) (some next1)).getD (c - 32) none = some next1 :=
          child_getD_set_self hlt0 _
        have hw := ih next hwfn next1 r1 hrec
        cases s with
        | nil =>
          exact ⟨fun _ => Or.inl rfl, fun _ => rfl⟩
        | cons d ds =>
          cases hd : out_of_range d with
          | true =>
            have hdc : d ≠ c := by
              intro h
              rw [h, hv] at hd
              cases hd
            rw [walk_cons_out hd, walk_cons_out hd]
            constructor
            · intro h
              cases h
            · rintro (h | h)
              · cases h
              · exact absurd (List.cons_prefix_cons.mp h).1 hdc
          | false =>
            by_cases hdc : d = c
            · subst hdc
              rw [walk_cons_in_some hd (n := { n0 with child := _ }) hself, hw,
                List.cons_prefix_cons]
              rcases hold with hold | ⟨hold, hnew⟩
              · rw [walk_cons_in_some hd hold]
                constructor
                · rintro (h | h)
                  · exact Or.inl h
                  · exact Or.inr ⟨rfl, h⟩
                · rintro (h | ⟨-, h⟩)
                  · exact Or.inl h
                  · exact Or.inr h
              · rw [walk_cons_in_none hd hold, hnew, walk_isSome_new]
                constructor
                · rintro (h | h)
                  · subst h
                    exact Or.inr ⟨rfl, List.nil_prefix⟩
                  · exact Or.inr ⟨rfl, h⟩
                · rintro (h | ⟨-, h⟩)
                  · cases h
                  · exact Or.inr h
            · have hr := (out_of_range_iff d).mp hd
              have hrange := (out_of_range_iff c).mp hv
              have hj : d - 32 ≠ c - 32 := by omega
              have hsame : ({ n0 with child := n0.child.set (c - 32) (some next1) } :
                  trie).child.getD (d - 32) none = n.child.getD (d - 32) none := by
                show (n0.child.set (c - 32) (some next1)).getD (d - 32) none = _
                rw [child_getD_set_ne (Ne.symm hj), hslot _ hj]
              have : walk ({ n0 with child := n0.child.set (c - 32) (some next1) } : trie)
                  (d :: ds) = walk n (d :: ds) := by
                simp only [walk_cons_in hd, hsame]
              rw [this]
              constructor
              · intro h
                exact Or.inl h
              · rintro (h | h)
                · exact h
                · exact absurd (List.cons_prefix_cons.mp h).1 hdc

/-- The nodes after a sequence of calls of `trie::insert`. -/
theorem insertAll_walk : ∀ (keys : List (List Nat)) (t t1 : trie) (ok : List (List Nat)),
    WF t → insertAll t keys = some (t1, ok) →
    ∀ s, (walk t1 s).isSome = true ↔
      ((walk t s).isSome = true ∨
        ∃ k ∈ keys, s <+: k.takeWhile dict_trie.is_valid_character) := by
  intro keys
  induction keys with
  | nil =>
    intro t t1 ok _ hrun
    simp only [insertAll, Option.some.injEq, Prod.mk.injEq] at hrun
    obtain ⟨rfl, -⟩ := hrun
    simp
  | cons key rest ih =>
    intro t t1 ok hwf hrun s
    obtain ⟨ta, r, hins, hwfa, -⟩ := insert_returns key t hwf
    have hstep := insert_walk key t hwf ta r hins s
    have hrest : ∃ ok1, insertAll ta rest = some (t1, ok1) := by
      cases r with
      | ok u =>
        simp only [insertAll, hins] at hrun
        cases hr : insertAll ta rest with
        | none =>
          rw [hr] at hrun
          cases hrun
        | some res =>
          rw [hr] at hrun
          simp only [Option.map, Option.some.injEq, Prod.mk.injEq] at hrun
          exact ⟨res.2, by rw [← hrun.1]⟩
      | error e =>
        simp only [insertAll, hins] at hrun
        exact ⟨ok, hrun⟩
    obtain ⟨ok1, hr1⟩ := hrest
    rw [ih ta t1 ok1 hwfa hr1 s, hstep]
    simp only [List.mem_cons, exists_eq_or_imp]
    tauto

/-- The method `is_last` answers false exactly when a slot is occupied. -/
theorem is_last_eq_false_iff (n : trie) :
    n.is_last = false ↔ ∃ i, (n.child.getD i none).isSome = true := by
  constructor
  · intro h
    by_contra hne
    have hall : n.is_last = true := by
      unfold is_last
      rw [List.all_eq_true]
      intro x hx
      obtain ⟨i, hi, rfl⟩ := List.getElem_of_mem hx
      cases hxi : n.child[i] with
      | none => rfl
      | some y =>
        exfalso
        apply hne
        refine ⟨i, ?_⟩
        have : n.child.getD i none = some y := by
          simp [List.getD_eq_getElem?_getD, List.getElem?_eq_getElem hi, hxi]
        rw [this]
        rfl
    rw [hall] at h
    cases h
  · rintro ⟨i, hi⟩
    cases hl : n.is_last with
    | false => rfl
    | true =>
      rw [child_none_of_is_last hl i] at hi
      cases hi

/-- The method `trie::auto_complete` reaches `out.reserve(limit)` exactly
when the trie has a node one symbol below the prefix. -/
theorem reachesReserve_iff_dense {T : trie} (hwf : WF T) (p : List Nat) :
    reachesReserve T p = true ↔ ∃ c, (walk T (p ++ [c])).isSome = true := by
  unfold reachesReserve
  cases hw : walk T p with
  | none =>
    constructor
    · intro h
      cases h
    · rintro ⟨c, hc⟩
      rw [walk_append_dense, hw] at hc
      cases hc
  | some m =>
    have hm := hwf.of_walk p m hw
    show (!m.is_last) = true ↔ _
    rw [Bool.not_eq_true', is_last_eq_false_iff]
    constructor
    · rintro ⟨i, hi⟩
      cases hc : m.child.getD i none with
      | none =>
        rw [hc] at hi
        cases hi
      | some ch =>
        obtain ⟨-, hlt⟩ := hm.of_child hc
        have hv : out_of_range (i + 32) = false :=
          (out_of_range_iff _).mpr ⟨by omega, by omega⟩
        refine ⟨i + 32, ?_⟩
        rw [walk_append_dense, hw]
        show (walk m [i + 32]).isSome = true
        rw [walk_cons_in hv, Nat.add_sub_cancel, hc]
        rfl
    · rintro ⟨c, hc⟩
      rw [walk_append_dense, hw] at hc
      have hc : (walk m [c]).isSome = true := hc
      cases hv : out_of_range c with
      | true =>
        rw [walk_cons_out hv] at hc
        cases hc
      | false =>
        rw [walk_cons_in hv] at hc
        refine ⟨c - 32, ?_⟩
        cases hch : m.child.getD (c - 32) none with
        | none =>
          rw [hch] at hc
          cases hc
        | some ch => rfl

/-- The answer of `trie::auto_complete` on a well-formed trie: the matches up
to the limit, or `std::length_error` from `out.reserve(limit)` when the call
gets there with a limit above `max_size`. -/
theorem auto_complete_spec {T : trie} (hwf : WF T) (p : List Nat) :
    ∃ M : List (List Nat), M.Pairwise (List.Lex (· < ·)) ∧
      (∀ s, s ∈ M ↔ p <+: s ∧ s ≠ p ∧ endsAt T s = true) ∧
      (M ≠ [] → reachesReserve T p = true) ∧
      ∃ N, ∀ fuel, N ≤ fuel → ∀ ms out limit,
        auto_complete ms fuel T p out limit =
          some (if limit = 0 then (out, Except.ok ())
            else if reachesReserve T p = true ∧ ms < limit then
              (out, Except.error "std::length_error")
            else (dict_trie.takeLimit limit out M, Except.ok ())) := by
  cases hw : walk T p with
  | none =>
    refine ⟨[], List.Pairwise.nil, ?_, fun h => absurd rfl h, 0, ?_⟩
    · intro s
      simp only [List.not_mem_nil, false_iff]
      rintro ⟨⟨k, rfl⟩, -, hc⟩
      simp [endsAt, walk_append_dense, hw] at hc
    · intro fuel _ ms out limit
      by_cases hl : limit = 0
      · simp [auto_complete, hl]
      · simp [auto_complete, reachesReserve, hl, hw, dict_trie.takeLimit_nil]
  | some m =>
    obtain ⟨L, hs, hm, N, hN⟩ := (hwf.of_walk p m hw).denseEnumerates
    have hleaf : m.is_last = true → L = [] := by
      intro hl
      refine List.eq_nil_iff_forall_not_mem.mpr ?_
      intro x hx
      obtain ⟨hne, he⟩ := (hm x).mp hx
      cases x with
      | nil => exact hne rfl
      | cons d ds =>
        rw [endsAt_cons_of_is_last hl] at he
        cases he
    have hreach : reachesReserve T p = !m.is_last := by
      simp only [reachesReserve, hw]
    refine ⟨L.map (p ++ ·), ?_, ?_, ?_, N, ?_⟩
    · exact (List.pairwise_map).mpr (hs.imp (fun h => List.Lex.append_left _ h p))
    · intro s
      rw [List.mem_map]
      constructor
      · rintro ⟨k, hk, rfl⟩
        obtain ⟨hne, he⟩ := (hm k).mp hk
        refine ⟨List.prefix_append _ _, ?_, ?_⟩
        · intro h
          exact hne (List.append_right_eq_self.mp h)
        · simp only [endsAt, walk_append_dense, hw, Option.bind] at he ⊢
          exact he
      · rintro ⟨⟨k, rfl⟩, hne, hc⟩
        refine ⟨k, (hm k).mpr ⟨?_, ?_⟩, rfl⟩
        · intro h
          exact hne (by rw [h, List.append_nil])
        · simp only [endsAt, walk_append_dense, hw, Option.bind] at hc ⊢
          exact hc
    · intro hne
      rw [hreach]
      cases hlast : m.is_last with
      | false => rfl
      | true =>
        rw [hleaf hlast] at hne
        exact absurd rfl hne
    · intro fuel hf ms out limit
      by_cases hl : limit = 0
      · simp [auto_complete, hl]
      · cases hlast : m.is_last with
        | true =>
          rw [hleaf hlast]
          simp [auto_complete, hl, hw, hlast, hreach, dict_trie.takeLimit_nil]
        | false =>
          by_cases hlt : ms < limit
          · simp [auto_complete, hl, hw, hlast, hreach, hlt]
          · obtain ⟨ws1, hr, -⟩ := hN fuel hf limit p out
            simp [auto_complete, hl, hw, hlast, hreach, hlt, hr]

end trie

/-- After the same calls of `insert` the two codings hold the same nodes. -/
theorem same_nodes {keys : List (List Nat)} {t : dict_trie} {T : trie}
    {ok ok2 : List (List Nat)}
    (h1 : dict_trie.insertAll dict_trie.empty keys = some (t, ok))
    (h2 : trie.insertAll trie.new keys = some (T, ok2)) (s : List Nat) :
    (dict_trie.walk t.root s).isSome = true ↔ (trie.walk T s).isSome = true := by
  obtain ⟨-, -, hw1⟩ := dict_trie.insertAll_tree keys dict_trie.empty t ok dict_trie.WF.empty h1
  have hw2 := trie.insertAll_walk keys trie.new T ok2 trie.WF.of_new h2
  rw [hw1 s, hw2 s, trie.walk_isSome_new]
  have hbase : (dict_trie.walk dict_trie.empty.root s).isSome = true ↔ s = [] := by
    cases s with
    | nil => exact ⟨fun _ => rfl, fun _ => rfl⟩
    | cons d ds =>
      have : dict_trie.walk dict_trie.empty.root (d :: ds) = none := dict_trie.walk_new 0 d ds
      rw [this]
      constructor
      · intro h
        cases h
      · intro h
        cases h
  rw [hbase]

/-- C17: after the same sequence of `insert` calls on a `dict_trie` and on a
`trie`, for every prefix, every limit, every initial `out` (the empty one
included) and every `max_size()` of the vector,
`dict_trie::auto_complete(prefix, out, limit)` and
`trie::auto_complete(prefix, out, limit)` end alike: both return normally or
both throw `std::length_error` at `out.reserve(limit)`, and they leave the
same sequence of strings in `out`.  With `limit` within `max_size()` both
return normally. -/
theorem codings_agree (keys : List (List Nat)) (p : List Nat) (limit : Nat) :
    ∃ t ok T ok2, dict_trie.insertAll dict_trie.empty keys = some (t, ok) ∧
      trie.insertAll trie.new keys = some (T, ok2) ∧ ok2 = ok ∧
      dict_trie.reachesReserve t p = trie.reachesReserve T p ∧
      ∃ N, ∀ fuel, N ≤ fuel → ∀ max_size out, ∃ R r,
        dict_trie.auto_complete_limit max_size fuel t p out limit = some (R, r) ∧
        trie.auto_complete max_size fuel T p out limit = some (R, r) ∧
        (limit ≤ max_size → r = Except.ok ()) ∧
        (succeeded r = false ↔
          (limit > max_size ∧ dict_trie.reachesReserve t p = true)) := by
  obtain ⟨t, ok, hrun, hwf, hf, hc⟩ := dict_trie.insertAll_empty keys
  obtain ⟨T, ok2, hrun2, hwf2, hf2, hc2⟩ := trie.insertAll_endsAt keys trie.new trie.WF.of_new
  have hok : ok2 = ok := by rw [hf, hf2]
  obtain ⟨M, hs, hm, -, N, hN⟩ := dict_trie.query_spec hwf p
  obtain ⟨M2, hs2, hm2, -, N2, hN2⟩ := trie.auto_complete_spec hwf2 p
  have heq : M2 = M := by
    refine dict_trie.eq_of_pairwise_lex hs2 hs ?_
    intro s
    rw [hm, hm2, hc2, trie.endsAt_new, hok]
    have := hc s
    constructor
    · rintro ⟨a, b, h⟩
      exact ⟨a, b, this.mpr (by simpa using h)⟩
    · rintro ⟨a, b, h⟩
      exact ⟨a, b, by simpa using this.mp h⟩
  subst heq
  have hreach : dict_trie.reachesReserve t p = trie.reachesReserve T p := by
    have hiff : dict_trie.reachesReserve t p = true ↔ trie.reachesReserve T p = true := by
      rw [dict_trie.reachesReserve_iff hwf, trie.reachesReserve_iff_dense hwf2]
      constructor
      · rintro ⟨c, h⟩
        exact ⟨c, (same_nodes hrun hrun2 _).mp h⟩
      · rintro ⟨c, h⟩
        exact ⟨c, (same_nodes hrun hrun2 _).mpr h⟩
    exact Bool.eq_iff_iff.mpr hiff
  refine ⟨t, ok, T, ok2, hrun, hrun2, hok, hreach, max N N2, ?_⟩
  intro fuel hfuel ms out
  obtain ⟨-, -, h3⟩ := hN fuel (le_trans (le_max_left _ _) hfuel)
  have h4 := hN2 fuel (le_trans (le_max_right _ _) hfuel) ms out limit
  rw [← hreach] at h4
  rw [h3 ms out limit, h4]
  by_cases hl : limit = 0
  · refine ⟨out, Except.ok (), by simp [hl], by simp [hl], fun _ => rfl, ?_⟩
    simp [succeeded, hl]
  · by_cases hcnd : dict_trie.reachesReserve t p = true ∧ ms < limit
    · refine ⟨out, Except.error "std::length_error", by simp [hl, hcnd], by simp [hl, hcnd],
        fun hle => absurd hcnd.2 (by omega), ?_⟩
      simp [succeeded, hcnd]
    · refine ⟨dict_trie.takeLimit limit out M2, Except.ok (), by simp only [hl, hcnd, if_false],
        by simp only [hl, hcnd, if_false], fun _ => rfl, ?_⟩
      simp only [succeeded]
      constructor
      · intro h
        cases h
      · rintro ⟨h1, h2⟩
        exact absurd ⟨h2, h1⟩ hcnd

end spl
